import Mathlib

/-!
# kkpmerge: a shallow embedding of `src/kkpmerge.c`

The program reads one primary and any number of reference KK64 documents,
overlays the source/line attribution of same-named symbols onto the primary's
byte trace, regenerates the per-source sizes and writes `merged.kkp`.

Conventions of the embedding
* a file is a list of octets (`Stream`); machine integers are `Nat` with an
  explicit reduction modulo the width where the C arithmetic can wrap, and C
  `int` values that may be negative are `Int`;
* a `double` is carried as its 64-bit pattern (a `Nat`), a `float` as its
  32-bit pattern; the two floating-point operations the program performs
  (`+=` on doubles and the conversion `(float)`) are the fields of `FloatOps`;
* every exit the program takes through `return 1` is an `Err`; behaviour the
  C standard leaves undefined (a null string handed to `strcmp`, `strlen` or
  `%s`, an array index outside the allocation, overflow of an `int` loop
  counter) is the outcome `Err.Undefined`;
* `malloc` is assumed to succeed; messages on `stderr` are not modelled.
-/

namespace Kkpmerge

/-- An octet of a file. -/
abbrev Byte := Fin 256

/-- The unread part of an open file. -/
abbrev Stream := List Byte

/-- The ways a run ends without writing its output. -/
inductive Err
  | Usage
  | Truncated
  | MalformedHeader
  | InvalidField
  | TooManySources
  | Undefined
  deriving DecidableEq, Repr

deriving instance DecidableEq for Except

/-- The two floating-point operations used by `main`, on bit patterns:
`dadd` is `double + double`, `dtof` is the conversion `(float)` of a double. -/
structure FloatOps where
  dadd : Nat → Nat → Nat
  dtof : Nat → Nat

/-- Entry of the merged sources table, `kkpm_source`. -/
structure kkpm_source where
  name : List Byte
  packed_size : Nat
  unpacked_size : Nat
  deriving DecidableEq, Repr

/-- Symbol record, `kkpm_symbol`; `name = none` is the null pointer that
`read_asciiz` returns for an unterminated string. -/
structure kkpm_symbol where
  name : Option (List Byte)
  packed_size : Nat
  unpacked_size : Nat
  source_file : Nat
  position : Nat
  is_code : Nat
  size : Nat
  deriving DecidableEq, Repr

/-- Byte record, `kkpm_byte`. -/
structure kkpm_byte where
  packed_size : Nat
  source_file : Nat
  source_line : Nat
  symbol : Nat
  data : Nat
  deriving DecidableEq, Repr

/-! ## Binary codec -/

/-- Value of a little-endian octet string. -/
def leDecode : List Byte → Nat
  | [] => 0
  | b :: bs => b.val + 256 * leDecode bs

/-- The `n` little-endian octets of `v` (an `fwrite` of an `n`-byte integer). -/
def leEncode : Nat → Nat → List Byte
  | 0, _ => []
  | n + 1, v => ⟨v % 256, Nat.mod_lt _ (by decide)⟩ :: leEncode n (v / 256)

/-- An `fread` of `n` octets: `none` when the stream ends first (the
end-of-file indicator is then set and stays set). -/
def readN (n : Nat) (s : Stream) : Option (List Byte × Stream) :=
  if n ≤ s.length then some (s.take n, s.drop n) else none

/-- Fixed-width little-endian read (`read_u8`, `read_u16`, `read_u32`,
`read_float`, `read_double` for widths 1, 2, 4, 4, 8). -/
def readLE (n : Nat) (s : Stream) : Option (Nat × Stream) :=
  match readN n s with
  | none => none
  | some (bs, r) => some (leDecode bs, r)

def read_u8 (s : Stream) : Option (Nat × Stream) := readLE 1 s
def read_u16 (s : Stream) : Option (Nat × Stream) := readLE 2 s
def read_u32 (s : Stream) : Option (Nat × Stream) := readLE 4 s
def read_float (s : Stream) : Option (Nat × Stream) := readLE 4 s
def read_double (s : Stream) : Option (Nat × Stream) := readLE 8 s

def write_u8 (v : Nat) : Stream := leEncode 1 v
def write_u16 (v : Nat) : Stream := leEncode 2 v
def write_u32 (v : Nat) : Stream := leEncode 4 v
def write_float (v : Nat) : Stream := leEncode 4 v
def write_double (v : Nat) : Stream := leEncode 8 v

/-- The loop of `read_asciiz` with `k = szmax - n` iterations left and `buf`
the characters stored so far. Outer `none`: `fgetc` met the end of the stream.
Inner `none`: the loop ran out after `szmax` characters and the function
returned the null pointer. -/
def read_asciiz_loop : Nat → List Byte → Stream → Option (Option (List Byte) × Stream)
  | 0, _, s => some (none, s)
  | _ + 1, _, [] => none
  | k + 1, buf, c :: s =>
    if c = 0 then some (some buf, s) else read_asciiz_loop k (buf ++ [c]) s

def read_asciiz (s : Stream) : Option (Option (List Byte) × Stream) :=
  read_asciiz_loop 0x400 [] s

/-- Writes the characters of `v` and the terminating zero. -/
def write_asciiz (v : List Byte) : Stream := v ++ [0]

/-- Conversion of a `uint16_t` to `int` with `0xFFFF` as `-1`. -/
def iw (w : Nat) : Int := if w = 0xFFFF then -1 else (w : Int)

/-- Conversion of a `uint32_t` to `int` (two's complement). -/
def toInt32 (v : Nat) : Int :=
  if v % 4294967296 < 2147483648 then ((v % 4294967296 : Nat) : Int)
  else ((v % 4294967296 : Nat) : Int) - 4294967296

/-! ## Loader (lines 100-181 of `main`) -/

/-- The magic tag `"KK64"`. -/
def magicKK64 : List Byte := [75, 75, 54, 52]

/-- Name of the sentinel source, `"<no source>"`. -/
def noSourceName : List Byte := [60, 110, 111, 32, 115, 111, 117, 114, 99, 101, 62]

/-- Capacity of the merged sources table. -/
def msrcsmax : Nat := 0x10000

/-- Header reads of lines 101-104: magic, `nbytes`, `nsrcs`. -/
def readHeader (s : Stream) : Option (List Byte × Nat × Nat × Stream) :=
  match readN 4 s with
  | none => none
  | some (magic, s1) =>
    match read_u32 s1 with
    | none => none
    | some (nbytes, s2) =>
      match read_u32 s2 with
      | none => none
      | some (nsrcs, s3) => some (magic, nbytes, nsrcs, s3)

/-- Reads of lines 114-116: the name of a source descriptor; its float
`packed_size` and its `unpacked_size` are read and never used. -/
def readSourceRec (s : Stream) : Option (Option (List Byte) × Stream) :=
  match read_asciiz s with
  | none => none
  | some (name, s1) =>
    match read_float s1 with
    | none => none
    | some (_, s2) =>
      match read_u32 s2 with
      | none => none
      | some (_, s3) => some (name, s3)

/-- The search of lines 119-121: index of the first entry named `name`, or
the number of entries. -/
def findSource (msrcs : List kkpm_source) (name : List Byte) : Nat :=
  msrcs.findIdx (fun m => decide (m.name = name))

/-- The source descriptor loop of lines 112-135 with `n` descriptors left;
returns the grown table and the values stored in `srcmap[i]` in order (the
array holds `uint16_t`, so the index is stored modulo `2^16`). -/
def loadSources : Nat → List kkpm_source → Stream → Except Err (List kkpm_source × List Nat × Stream)
  | 0, msrcs, s => .ok (msrcs, [], s)
  | n + 1, msrcs, s =>
    match readSourceRec s with
    | none => .error .Truncated
    | some (none, _) => .error .Undefined
    | some (some name, s1) =>
      let imsrc := findSource msrcs name
      if imsrc = msrcs.length then
        if imsrc = msrcsmax then .error .TooManySources
        else
          match loadSources n (msrcs ++ [⟨name, 0, 0⟩]) s1 with
          | .error e => .error e
          | .ok (m, srcmap, r) => .ok (m, imsrc % 65536 :: srcmap, r)
      else
        match loadSources n msrcs s1 with
        | .error e => .error e
        | .ok (m, srcmap, r) => .ok (m, imsrc % 65536 :: srcmap, r)

/-- Reads of lines 147-152 and the reset of line 159. -/
def readSymbolRec (s : Stream) : Option (kkpm_symbol × Stream) :=
  match read_asciiz s with
  | none => none
  | some (name, s1) =>
    match read_double s1 with
    | none => none
    | some (packed, s2) =>
      match read_u32 s2 with
      | none => none
      | some (unpacked, s3) =>
        match read_u8 s3 with
        | none => none
        | some (code, s4) =>
          match read_u32 s4 with
          | none => none
          | some (srcfile, s5) =>
            match read_u32 s5 with
            | none => none
            | some (pos, s6) => some (⟨name, packed, unpacked, srcfile, pos, code, 0⟩, s6)

/-- The symbol loop of lines 145-161 with `n` symbols left. The warning of
line 156 prints the name with `%s`, which is undefined for a null name. -/
def loadSyms (nbytes : Nat) : Nat → Stream → Except Err (List kkpm_symbol × Stream)
  | 0, s => .ok ([], s)
  | n + 1, s =>
    match readSymbolRec s with
    | none => .error .Truncated
    | some (sym, s1) =>
      if 0xFFFF < toInt32 sym.source_file then .error .InvalidField
      else if nbytes ≤ sym.position ∧ sym.name = none then .error .Undefined
      else
        match loadSyms nbytes n s1 with
        | .error e => .error e
        | .ok (syms, r) => .ok (sym :: syms, r)

/-- Reads of lines 166-170. -/
def readByteRec (s : Stream) : Option (kkpm_byte × Stream) :=
  match read_u8 s with
  | none => none
  | some (data, s1) =>
    match read_u16 s1 with
    | none => none
    | some (symbol, s2) =>
      match read_double s2 with
      | none => none
      | some (packed, s3) =>
        match read_u16 s3 with
        | none => none
        | some (line, s4) =>
          match read_u16 s4 with
          | none => none
          | some (srcfile, s5) => some (⟨packed, srcfile, line, symbol, data⟩, s5)

/-- Lines 173-180: the size update for byte `i`. -/
def byteStep (nbytes : Nat) (syms : List kkpm_symbol) (i : Nat) (byte : kkpm_byte) :
    Except Err (List kkpm_symbol) :=
  let isym := iw byte.symbol
  if 0 ≤ isym then
    match syms[isym.toNat]? with
    | none => .error .Undefined
    | some sym =>
      if nbytes ≤ sym.position then .ok syms
      else if i < sym.position then .error .InvalidField
      else .ok (syms.set isym.toNat
        { sym with size := (i + 1 + 4294967296 - sym.position) % 4294967296 })
  else .ok syms

/-- The byte loop of lines 164-181 with `n` records left and counter `i`; the
`int` counter overflows when it is incremented past `2^31 - 1`. -/
def loadBytes (nbytes : Nat) : Nat → Nat → List kkpm_symbol → Stream →
    Except Err (List kkpm_symbol × List kkpm_byte × Stream)
  | 0, _, syms, s => .ok (syms, [], s)
  | n + 1, i, syms, s =>
    match readByteRec s with
    | none => .error .Truncated
    | some (byte, s1) =>
      match byteStep nbytes syms i byte with
      | .error e => .error e
      | .ok syms1 =>
        if 2147483648 ≤ i + 1 then .error .Undefined
        else
          match loadBytes nbytes n (i + 1) syms1 s1 with
          | .error e => .error e
          | .ok (syms2, bytes, r) => .ok (syms2, byte :: bytes, r)

/-- A document as `main` holds it after line 181. -/
structure Loaded where
  msrcs : List kkpm_source
  srcmap : List Nat
  nbytes : Nat
  syms : List kkpm_symbol
  bytes : List kkpm_byte
  rest : Stream
  deriving DecidableEq, Repr

/-- Lines 100-181: load one document against the merged sources table. -/
def load (msrcs : List kkpm_source) (f : Stream) : Except Err Loaded :=
  match readHeader f with
  | none => .error .Truncated
  | some (magic, nbytes, nsrcs, s0) =>
    if magic ≠ magicKK64 then .error .MalformedHeader
    else if 0xFFFF < nsrcs then .error .InvalidField
    else
      match loadSources nsrcs msrcs s0 with
      | .error e => .error e
      | .ok (msrcs1, srcmap, s1) =>
        match read_u32 s1 with
        | none => .error .Truncated
        | some (nsyms, s2) =>
          if 0xFFFF < nsyms then .error .InvalidField
          else
            match loadSyms nbytes nsyms s2 with
            | .error e => .error e
            | .ok (syms, s3) =>
              match loadBytes nbytes nbytes 0 syms s3 with
              | .error e => .error e
              | .ok (syms1, bytes, rest) => .ok ⟨msrcs1, srcmap, nbytes, syms1, bytes, rest⟩

/-! ## Merge engine (lines 184-234 of `main`) -/

/-- The variables of `main` that the merge loop of a reference document
assigns: the merged byte trace and the local `nbytes` (line 217). -/
structure MergeVars where
  mbytes : List kkpm_byte
  nbytes : Nat
  deriving DecidableEq, Repr

/-- Value of `srcmap[isrc]`: the entries the source loop of this document
stored, and past them whatever the array held (`junk`, indeterminate). -/
def srcmapAt (junk : Nat → Nat) (srcmap : List Nat) (isrc : Nat) : Nat :=
  match srcmap[isrc]? with
  | some g => g
  | none => junk isrc % 65536

/-- The ownership loop of lines 198-215 with `n` iterations left; `false` is
the `goto nextsym` of line 205. -/
def checkLoop (mbytes bytes : List kkpm_byte) (msym sym : kkpm_symbol) (imsym i : Nat) :
    Nat → Nat → Except Err Bool
  | 0, _ => .ok true
  | n + 1, ib =>
    match mbytes[(msym.position + ib) % 4294967296]?,
        bytes[(sym.position + ib) % 4294967296]? with
    | some mbyte, some byte =>
      if mbyte.symbol ≠ imsym ∨ byte.symbol ≠ i then .ok false
      else checkLoop mbytes bytes msym sym imsym i n (ib + 1)
    | _, _ => .error .Undefined

/-- The overlay loop of lines 223-230 with `n` iterations left. -/
def overlayLoop (junk : Nat → Nat) (srcmap : List Nat) (bytes : List kkpm_byte)
    (msym sym : kkpm_symbol) : Nat → Nat → List kkpm_byte → Except Err (List kkpm_byte)
  | 0, _, mbytes => .ok mbytes
  | n + 1, ib, mbytes =>
    match bytes[(sym.position + ib) % 4294967296]?,
        mbytes[(msym.position + ib) % 4294967296]? with
    | some byte, some mbyte =>
      let isrc := iw byte.source_file
      if isrc < 0 then overlayLoop junk srcmap bytes msym sym n (ib + 1) mbytes
      else overlayLoop junk srcmap bytes msym sym n (ib + 1)
        (mbytes.set ((msym.position + ib) % 4294967296)
          { mbyte with source_file := srcmapAt junk srcmap isrc.toNat,
                       source_line := byte.source_line })
    | _, _ => .error .Undefined

/-- The loop over the merged symbols (lines 186-233) for reference symbol
`sym` of index `i`, from merged index `imsym` on; `strcmp` on a null name is
undefined. The label `nextsym` stands at the end of this loop's body. -/
def scanMsyms (junk : Nat → Nat) (srcmap : List Nat) (bytes : List kkpm_byte)
    (sym : kkpm_symbol) (i : Nat) : List kkpm_symbol → Nat → MergeVars → Except Err MergeVars
  | [], _, v => .ok v
  | msym :: rest, imsym, v =>
    match msym.name, sym.name with
    | some mn, some sn =>
      if mn ≠ sn then scanMsyms junk srcmap bytes sym i rest (imsym + 1) v
      else
        let usize := if msym.size < sym.size then msym.size else sym.size
        let size := toInt32 usize
        match checkLoop v.mbytes bytes msym sym imsym i size.toNat 0 with
        | .error e => .error e
        | .ok false => scanMsyms junk srcmap bytes sym i rest (imsym + 1) v
        | .ok true =>
          let nbytes1 := if usize % 4294967296 ≠ msym.size then sym.size else v.nbytes
          match overlayLoop junk srcmap bytes msym sym size.toNat 0 v.mbytes with
          | .error e => .error e
          | .ok mbytes1 => .ok ⟨mbytes1, nbytes1⟩
    | _, _ => .error .Undefined

/-- The loop over the symbols of the reference document (line 184), from
index `i` on. -/
def mergeSyms (junk : Nat → Nat) (srcmap : List Nat) (bytes : List kkpm_byte)
    (msyms : List kkpm_symbol) : List kkpm_symbol → Nat → MergeVars → Except Err MergeVars
  | [], _, v => .ok v
  | sym :: rest, i, v =>
    match scanMsyms junk srcmap bytes sym i msyms 0 v with
    | .error e => .error e
    | .ok v1 => mergeSyms junk srcmap bytes msyms rest (i + 1) v1

/-! ## The file loop, size regeneration and the writer -/

/-- The variables of `main` that live across input files. -/
structure MainState where
  msrcs : List kkpm_source
  mbytes : List kkpm_byte
  msyms : List kkpm_symbol
  deriving DecidableEq, Repr

/-- State before the first file: the table holds the sentinel source. -/
def initState : MainState := ⟨[⟨noSourceName, 0, 0⟩], [], []⟩

/-- The body of the file loop (lines 100-252) for file number `ifile`. -/
def processFile (junk : Nat → Nat) (ifile : Nat) (st : MainState) (f : Stream) :
    Except Err MainState :=
  match load st.msrcs f with
  | .error e => .error e
  | .ok d =>
    if ifile ≠ 0 then
      match mergeSyms junk d.srcmap d.bytes st.msyms d.syms 0 ⟨st.mbytes, d.nbytes⟩ with
      | .error e => .error e
      | .ok v => .ok ⟨d.msrcs, v.mbytes, st.msyms⟩
    else .ok ⟨d.msrcs, d.bytes, d.syms⟩

/-- The file loop of line 91; `junk ifile` is the indeterminate content of
`srcmap` in iteration `ifile`. -/
def mainLoop (junk : Nat → Nat → Nat) : List Stream → Nat → MainState → Except Err MainState
  | [], _, st => .ok st
  | f :: fs, ifile, st =>
    match processFile (junk ifile) ifile st f with
    | .error e => .error e
    | .ok st1 => mainLoop junk fs (ifile + 1) st1

/-- Index used by line 268-269: the byte's `source_file`, or 0 when absent. -/
def resolveSrc (byte : kkpm_byte) : Nat :=
  if iw byte.source_file < 0 then 0 else (iw byte.source_file).toNat

/-- Lines 270-271 for one byte. The table is a static array of `msrcsmax`
entries; an index at or past the entries in use updates an entry that is
never written out, so the list is left as it is. -/
def regenStep (fp : FloatOps) (msrcs : List kkpm_source) (byte : kkpm_byte) : List kkpm_source :=
  match msrcs[resolveSrc byte]? with
  | none => msrcs
  | some m => msrcs.set (resolveSrc byte)
      { m with unpacked_size := (m.unpacked_size + 1) % 4294967296,
               packed_size := fp.dadd m.packed_size byte.packed_size }

/-- The size regeneration loop of lines 266-272. -/
def regenerate (fp : FloatOps) (msrcs : List kkpm_source) (mbytes : List kkpm_byte) : List kkpm_source :=
  mbytes.foldl (regenStep fp) msrcs

/-- Lines 280-282. -/
def writeSource (fp : FloatOps) (src : kkpm_source) : Stream :=
  write_asciiz src.name ++ write_float (fp.dtof src.packed_size) ++ write_u32 src.unpacked_size

/-- Lines 287-292; `strlen` of a null name is undefined. -/
def writeSymbol (sym : kkpm_symbol) : Except Err Stream :=
  match sym.name with
  | none => .error .Undefined
  | some name =>
    .ok (write_asciiz name ++ write_double sym.packed_size ++ write_u32 sym.unpacked_size
      ++ write_u8 sym.is_code ++ write_u32 sym.source_file ++ write_u32 sym.position)

/-- The symbol loop of lines 285-293. -/
def writeSymbols : List kkpm_symbol → Except Err Stream
  | [] => .ok []
  | sym :: rest =>
    match writeSymbol sym with
    | .error e => .error e
    | .ok o =>
      match writeSymbols rest with
      | .error e => .error e
      | .ok os => .ok (o ++ os)

/-- Lines 296-300. -/
def writeByte (byte : kkpm_byte) : Stream :=
  write_u8 byte.data ++ write_u16 byte.symbol ++ write_double byte.packed_size
    ++ write_u16 byte.source_line ++ write_u16 byte.source_file

/-- Lines 274-302: the content of `merged.kkp`. -/
def writeAll (fp : FloatOps) (msrcs : List kkpm_source) (st : MainState) : Except Err Stream :=
  match writeSymbols st.msyms with
  | .error e => .error e
  | .ok syms =>
    .ok (magicKK64 ++ write_u32 st.mbytes.length ++ write_u32 msrcs.length
      ++ (msrcs.map (writeSource fp)).flatten ++ write_u32 st.msyms.length ++ syms
      ++ (st.mbytes.map writeByte).flatten)

/-- The program: `files` are the contents of the files named on the command
line, in order; the result is the content written to `merged.kkp`. -/
def main (fp : FloatOps) (junk : Nat → Nat → Nat) (files : List Stream) : Except Err Stream :=
  if files.length < 1 then .error .Usage
  else
    match mainLoop junk files 0 initState with
    | .error e => .error e
    | .ok st => writeAll fp (regenerate fp st.msrcs st.mbytes) st

/-! ## Auxiliary definitions for the statements -/

/-- What lines 226-229 make of merged byte `mbyte` under reference byte `byte`. -/
def overlayByte (junk : Nat → Nat) (srcmap : List Nat) (byte mbyte : kkpm_byte) : kkpm_byte :=
  if byte.source_file = 0xFFFF then mbyte
  else { mbyte with source_file := srcmapAt junk srcmap byte.source_file,
                    source_line := byte.source_line }

/-- Every byte of the merged trace `cur` satisfies `P` at its index. -/
@[reducible] def TraceInv (P : Nat → kkpm_byte → Prop) (cur : List kkpm_byte) : Prop :=
  ∀ (p : Nat) (c : kkpm_byte), cur[p]? = some c → P p c

/-- The overlay of lines 228-229 keeps `P` when reference symbol `sym` is
laid over merged symbol `msym`. -/
@[reducible] def OverlayKeeps (P : Nat → kkpm_byte → Prop) (junk : Nat → Nat) (srcmap : List Nat)
    (bytes : List kkpm_byte) (msym sym : kkpm_symbol) : Prop :=
  ∀ (ib : Nat) (b c : kkpm_byte), bytes[(sym.position + ib) % 4294967296]? = some b →
    b.source_file ≠ 0xFFFF → P ((msym.position + ib) % 4294967296) c →
    P ((msym.position + ib) % 4294967296)
      { c with source_file := srcmapAt junk srcmap b.source_file, source_line := b.source_line }

/-- The reads of the byte loop alone: `n` records in sequence, no check. -/
def readByteRecs : Nat → Stream → Option (List kkpm_byte × Stream)
  | 0, s => some ([], s)
  | n + 1, s =>
    match readByteRec s with
    | none => none
    | some (b, s1) =>
      match readByteRecs n s1 with
      | none => none
      | some (bs, r) => some (b :: bs, r)

/-- The reads of the source loop alone: the names of `n` descriptors in
sequence (the local source list of a document). -/
def readSourceNames : Nat → Stream → Option (List (List Byte) × Stream)
  | 0, s => some ([], s)
  | n + 1, s =>
    match readSourceRec s with
    | some (some name, s1) =>
      match readSourceNames n s1 with
      | some (names, r) => some (name :: names, r)
      | none => none
    | _ => none

/-- The reads of the symbol loop alone: `n` records in sequence, no check. -/
def readSymbolRecs : Nat → Stream → Option (List kkpm_symbol × Stream)
  | 0, s => some ([], s)
  | n + 1, s =>
    match readSymbolRec s with
    | none => none
    | some (sym, s1) =>
      match readSymbolRecs n s1 with
      | none => none
      | some (syms, r) => some (sym :: syms, r)

/-- A floating-point unit for the concrete runs. Every `packed_size` of the
examples is `+0.0` (pattern 0), and on `+0.0` these are the IEEE 754 results:
`+0.0 + +0.0 = +0.0` and `(float) +0.0 = +0.0f`. -/
def fpExample : FloatOps := ⟨fun a b => a + b, fun a => a⟩

/-! ## Data of the concrete examples -/

/-- Primary trace of the overlay example: ten unowned bytes, then the four
bytes of symbol 0 (`A`, position 10). -/
def exMbytes : List kkpm_byte :=
  List.replicate 10 ⟨0, 0xFFFF, 0xFFFF, 0xFFFF, 0⟩ ++ List.replicate 4 ⟨0, 0xFFFF, 0xFFFF, 0, 0⟩

/-- Reference trace of the overlay example: four bytes of symbol 0 with
`source_file = 2`, `source_line = 7`. -/
def exBytes : List kkpm_byte := List.replicate 4 ⟨0, 2, 7, 0, 0⟩

/-- Primary symbol `A` at position 10, size 4. -/
def exMsym : kkpm_symbol := ⟨some [65], 0, 0, 0, 10, 0, 4⟩

/-- Reference symbol `A` at position 0, size 4. -/
def exSym : kkpm_symbol := ⟨some [65], 0, 0, 0, 0, 0, 4⟩

/-- Remap table of the reference document of the example. -/
def exSrcmap : List Nat := [1, 2, 3]

/-- The trace `exMbytes` after the overlay of `exBytes`. -/
def exMerged : List kkpm_byte :=
  List.replicate 10 ⟨0, 0xFFFF, 0xFFFF, 0xFFFF, 0⟩ ++ List.replicate 4 ⟨0, 3, 7, 0, 0⟩

/-- The primary trace of the overlay example with byte 11 not owned by `A`. -/
def exMbytesGap : List kkpm_byte :=
  List.replicate 10 ⟨0, 0xFFFF, 0xFFFF, 0xFFFF, 0⟩ ++
    [⟨0, 0xFFFF, 0xFFFF, 0, 0⟩, ⟨0, 0xFFFF, 0xFFFF, 0xFFFF, 0⟩, ⟨0, 0xFFFF, 0xFFFF, 0, 0⟩,
     ⟨0, 0xFFFF, 0xFFFF, 0, 0⟩]

/-- A primary file whose loaded symbols and trace are `cxMsyms`, `cxMbytes`. -/
def cxPrimary : Stream :=
  magicKK64 ++ write_u32 3 ++ write_u32 0 ++ write_u32 2
    ++ (write_asciiz [65] ++ write_double 0 ++ write_u32 0 ++ write_u8 0 ++ write_u32 0 ++ write_u32 0)
    ++ (write_asciiz [65] ++ write_double 0 ++ write_u32 0 ++ write_u8 0 ++ write_u32 0 ++ write_u32 1)
    ++ writeByte ⟨0, 0xFFFF, 0xFFFF, 0, 0⟩ ++ writeByte ⟨0, 0xFFFF, 0xFFFF, 1, 0⟩
    ++ writeByte ⟨0, 0xFFFF, 0xFFFF, 0, 0⟩

/-- Merged symbols of the second example: two symbols named `A`, the first
owning bytes 0 and 2, the second byte 1. -/
def cxMsyms : List kkpm_symbol := [⟨some [65], 0, 0, 0, 0, 0, 3⟩, ⟨some [65], 0, 0, 0, 1, 0, 1⟩]

/-- Merged trace of the second example. -/
def cxMbytes : List kkpm_byte :=
  [⟨0, 0xFFFF, 0xFFFF, 0, 0⟩, ⟨0, 0xFFFF, 0xFFFF, 1, 0⟩, ⟨0, 0xFFFF, 0xFFFF, 0, 0⟩]

/-- The document `load` makes of `cxPrimary`. -/
def cxLoaded : Loaded := ⟨[⟨noSourceName, 0, 0⟩], [], 3, cxMsyms, cxMbytes, []⟩

/-- Reference symbol `A` of the second example, position 0, size 3. -/
def cxSym : kkpm_symbol := ⟨some [65], 0, 0, 0, 0, 0, 3⟩

/-- Reference trace of the second example: `source_file = 0`, `source_line = 7`. -/
def cxBytes : List kkpm_byte := List.replicate 3 ⟨0, 0, 7, 0, 0⟩

/-- A reference file for `cxPrimary`: one source `s`, one symbol `A` at
position 0, three bytes of that symbol with `source_file = 0`,
`source_line = 7`. -/
def cxRef : Stream :=
  magicKK64 ++ write_u32 3 ++ write_u32 1
    ++ (write_asciiz [115] ++ write_float 0 ++ write_u32 0) ++ write_u32 1
    ++ (write_asciiz [65] ++ write_double 0 ++ write_u32 0 ++ write_u8 0 ++ write_u32 0 ++ write_u32 0)
    ++ writeByte ⟨0, 0, 7, 0, 0⟩ ++ writeByte ⟨0, 0, 7, 0, 0⟩ ++ writeByte ⟨0, 0, 7, 0, 0⟩

/-- State of `main` after the files `cxPrimary`, `cxRef`. -/
def cxFinal : MainState :=
  ⟨[⟨noSourceName, 0, 0⟩, ⟨[115], 0, 0⟩],
   [⟨0, 0xFFFF, 0xFFFF, 0, 0⟩, ⟨0, 1, 7, 1, 0⟩, ⟨0, 0xFFFF, 0xFFFF, 0, 0⟩], cxMsyms⟩

/-- A symbol `A` at position 0 of size 1. -/
def c4Sym : kkpm_symbol := ⟨some [65], 0, 0, 0, 0, 0, 1⟩

/-- A primary file with one source `a`, no symbol, and one byte attributed to
local source 0 (`a`), line 1. -/
def c5Primary : Stream :=
  magicKK64 ++ write_u32 1 ++ write_u32 1
    ++ (write_asciiz [97] ++ write_float 0 ++ write_u32 1) ++ write_u32 0
    ++ writeByte ⟨0, 0, 1, 0xFFFF, 0⟩

/-- The document `load` makes of `c5Primary`. -/
def c5Loaded : Loaded :=
  ⟨[⟨noSourceName, 0, 0⟩, ⟨[97], 0, 0⟩], [1], 1, [], [⟨0, 0, 1, 0xFFFF, 0⟩], []⟩

/-- State of `main` after the single file `c5Primary`. -/
def c5State : MainState :=
  ⟨[⟨noSourceName, 0, 0⟩, ⟨[97], 0, 0⟩], [⟨0, 0, 1, 0xFFFF, 0⟩], []⟩

/-- What `main` writes for the single file `c5Primary`. -/
def c5Output : Stream :=
  magicKK64 ++ write_u32 1 ++ write_u32 2
    ++ (write_asciiz noSourceName ++ write_float 0 ++ write_u32 1)
    ++ (write_asciiz [97] ++ write_float 0 ++ write_u32 0)
    ++ write_u32 0 ++ writeByte ⟨0, 0, 1, 0xFFFF, 0⟩

/-- A file with one source `a` (stored `unpacked_size` 77), one symbol `A`
at position 0, and one byte of that symbol attributed to local source 0,
line 1. -/
def c6File : Stream :=
  magicKK64 ++ write_u32 1 ++ write_u32 1
    ++ (write_asciiz [97] ++ write_float 0 ++ write_u32 77) ++ write_u32 1
    ++ (write_asciiz [65] ++ write_double 0 ++ write_u32 0 ++ write_u8 0 ++ write_u32 0 ++ write_u32 0)
    ++ writeByte ⟨0, 0, 1, 0, 0⟩

/-- The document `load` makes of `c6File` as the first file. -/
def c6Loaded : Loaded :=
  ⟨[⟨noSourceName, 0, 0⟩, ⟨[97], 0, 0⟩], [1], 1, [⟨some [65], 0, 0, 0, 0, 0, 1⟩],
   [⟨0, 0, 1, 0, 0⟩], []⟩

/-- State of `main` after the files `c6File`, `c6File`. -/
def c6Final : MainState :=
  ⟨[⟨noSourceName, 0, 0⟩, ⟨[97], 0, 0⟩], [⟨0, 1, 1, 0, 0⟩], [⟨some [65], 0, 0, 0, 0, 0, 1⟩]⟩

/-- The smallest document: no source, no symbol, no byte. -/
def c7Min : Stream := magicKK64 ++ write_u32 0 ++ write_u32 0 ++ write_u32 0

/-- What `main` writes for the single file `c7Min`. -/
def c7MinOutput : Stream :=
  magicKK64 ++ write_u32 0 ++ write_u32 1
    ++ (write_asciiz noSourceName ++ write_float 0 ++ write_u32 0) ++ write_u32 0

/-- A complete file whose byte 0 names symbol 0, which starts at position 1. -/
def c10File : Stream :=
  magicKK64 ++ write_u32 2 ++ write_u32 0 ++ write_u32 1
    ++ (write_asciiz [65] ++ write_double 0 ++ write_u32 0 ++ write_u8 0 ++ write_u32 0 ++ write_u32 1)
    ++ writeByte ⟨0, 0xFFFF, 0xFFFF, 0, 0⟩ ++ writeByte ⟨0, 0xFFFF, 0xFFFF, 0, 0⟩

/-- A file with two symbols whose `source_file` fields are `0xFFFFFFFF` and
`0x80000000`, and no byte. -/
def c11File : Stream :=
  magicKK64 ++ write_u32 0 ++ write_u32 0 ++ write_u32 2
    ++ (write_asciiz [65] ++ write_double 0 ++ write_u32 0 ++ write_u8 0
        ++ write_u32 4294967295 ++ write_u32 0)
    ++ (write_asciiz [66] ++ write_double 0 ++ write_u32 0 ++ write_u8 0
        ++ write_u32 2147483648 ++ write_u32 0)

/-- The document `load` makes of `c11File`. -/
def c11Loaded : Loaded :=
  ⟨[⟨noSourceName, 0, 0⟩], [], 0,
   [⟨some [65], 0, 0, 4294967295, 0, 0, 0⟩, ⟨some [66], 0, 0, 2147483648, 0, 0, 0⟩], [], []⟩

/-- Four octets that are not the magic tag, and nothing after them. -/
def c12Short : Stream := [88, 88, 88, 88]

/-- Twelve octets that do not start with the magic tag. -/
def c12File : Stream := [88, 88, 88, 88, 0, 0, 0, 0, 0, 0, 0, 0]

/-- A file with the three sources `a`, `b`, `a`, no symbol and no byte. -/
def c15File : Stream :=
  magicKK64 ++ write_u32 0 ++ write_u32 3
    ++ (write_asciiz [97] ++ write_float 0 ++ write_u32 0)
    ++ (write_asciiz [98] ++ write_float 0 ++ write_u32 0)
    ++ (write_asciiz [97] ++ write_float 0 ++ write_u32 0) ++ write_u32 0

/-- The document `load` makes of `c15File` as the first file. -/
def c15Loaded : Loaded :=
  ⟨[⟨noSourceName, 0, 0⟩, ⟨[97], 0, 0⟩, ⟨[98], 0, 0⟩], [1, 2, 1], 0, [], [], []⟩

/-- A file with no source, no symbol, and one byte that names symbol 5. -/
def c16File : Stream :=
  magicKK64 ++ write_u32 1 ++ write_u32 0 ++ write_u32 0 ++ writeByte ⟨0, 0xFFFF, 0xFFFF, 5, 0⟩

/-- State of `main` after the single file `cxPrimary`. -/
def c19State : MainState := ⟨[⟨noSourceName, 0, 0⟩], cxMbytes, cxMsyms⟩

/-- The document `load` makes of `cxRef` after `cxPrimary`. -/
def c19Loaded : Loaded :=
  ⟨[⟨noSourceName, 0, 0⟩, ⟨[115], 0, 0⟩], [1], 3, [⟨some [65], 0, 0, 0, 0, 0, 3⟩],
   [⟨0, 0, 7, 0, 0⟩, ⟨0, 0, 7, 0, 0⟩, ⟨0, 0, 7, 0, 0⟩], []⟩

/-- The three-character source name number `i` (digits of `i` in base 255,
each plus one, so no character is zero). -/
def c20Name (i : Nat) : List Byte :=
  [⟨1 + i / 65025 % 255, by omega⟩, ⟨1 + i / 255 % 255, by omega⟩, ⟨1 + i % 255, by omega⟩]

/-- The source descriptors number `i`, ..., `i + n - 1`, each with zero sizes. -/
def c20Srcs : Nat → Nat → Stream
  | 0, _ => []
  | n + 1, i => write_asciiz (c20Name i) ++ write_float 0 ++ write_u32 0 ++ c20Srcs n (i + 1)

/-- A file with `n` sources of pairwise distinct names, no symbol and no byte. -/
def c20File (n : Nat) : Stream :=
  magicKK64 ++ write_u32 0 ++ write_u32 n ++ (c20Srcs n 0 ++ write_u32 0)

/-- A file with 65535 sources of pairwise distinct names, no symbol and no
byte. -/
def c20Big : Stream := c20File 65535

/-- The primary file of the overlay example: no source, symbol `A` at
position 10, ten unowned bytes and the four bytes of `A`, none attributed. -/
def c1Primary : Stream :=
  magicKK64 ++ write_u32 14 ++ write_u32 0 ++ write_u32 1
    ++ (write_asciiz [65] ++ write_double 0 ++ write_u32 0 ++ write_u8 0 ++ write_u32 0
        ++ write_u32 10)
    ++ (exMbytes.map writeByte).flatten

/-- State of `main` after the single file `c1Primary`. -/
def c1State : MainState := ⟨[⟨noSourceName, 0, 0⟩], exMbytes, [exMsym]⟩

/-- The reference file of the overlay example: sources `a`, `b`, `c`, the
symbols `Z` (index 0, no byte) and `A` (index 1, position 0), and four bytes
of symbol 1 with `source_file = 2`, `source_line = 7`. -/
def c1Ref : Stream :=
  magicKK64 ++ write_u32 4 ++ write_u32 3
    ++ (write_asciiz [97] ++ write_float 0 ++ write_u32 0)
    ++ (write_asciiz [98] ++ write_float 0 ++ write_u32 0)
    ++ (write_asciiz [99] ++ write_float 0 ++ write_u32 0) ++ write_u32 2
    ++ (write_asciiz [90] ++ write_double 0 ++ write_u32 0 ++ write_u8 0 ++ write_u32 0 ++ write_u32 0)
    ++ (write_asciiz [65] ++ write_double 0 ++ write_u32 0 ++ write_u8 0 ++ write_u32 0 ++ write_u32 0)
    ++ ((List.replicate 4 (⟨0, 2, 7, 1, 0⟩ : kkpm_byte)).map writeByte).flatten

/-- The document `load` makes of `c1Ref` after `c1Primary`. -/
def c1Loaded : Loaded :=
  ⟨[⟨noSourceName, 0, 0⟩, ⟨[97], 0, 0⟩, ⟨[98], 0, 0⟩, ⟨[99], 0, 0⟩], [1, 2, 3], 4,
   [⟨some [90], 0, 0, 0, 0, 0, 0⟩, exSym], List.replicate 4 ⟨0, 2, 7, 1, 0⟩, []⟩

/-- A primary file with no source, symbol `A` at position 0 and one byte of
it, not attributed. -/
def c1BadPrimary : Stream :=
  magicKK64 ++ write_u32 1 ++ write_u32 0 ++ write_u32 1
    ++ (write_asciiz [65] ++ write_double 0 ++ write_u32 0 ++ write_u8 0 ++ write_u32 0 ++ write_u32 0)
    ++ writeByte ⟨0, 0xFFFF, 0xFFFF, 0, 0⟩

/-- A reference file that declares no source and whose only byte, of symbol
`A`, has `source_file = 2`, `source_line = 7`. -/
def c1BadRef : Stream :=
  magicKK64 ++ write_u32 1 ++ write_u32 0 ++ write_u32 1
    ++ (write_asciiz [65] ++ write_double 0 ++ write_u32 0 ++ write_u8 0 ++ write_u32 0 ++ write_u32 0)
    ++ writeByte ⟨0, 2, 7, 0, 0⟩

/-- A merged trace of three bytes of symbol 0, each with `source_file = 1`
and `source_line = 5`. -/
def c4Before : List kkpm_byte := List.replicate 3 ⟨0, 1, 5, 0, 0⟩

/-- A reference trace of three bytes of symbol 0: the first with
`source_file = 2`, `source_line = 7`, the second with no `source_file`, the
third with `source_file = 0`, `source_line = 8`. -/
def c4Ref : List kkpm_byte := [⟨0, 2, 7, 0, 0⟩, ⟨0, 0xFFFF, 9, 0, 0⟩, ⟨0, 0, 8, 0, 0⟩]

/-- The trace `c4Before` after the overlay of `c4Ref` under the remap table
`exSrcmap`. -/
def c4After : List kkpm_byte := [⟨0, 3, 7, 0, 0⟩, ⟨0, 1, 5, 0, 0⟩, ⟨0, 1, 8, 0, 0⟩]

/-- A complete file with one source `a`, one symbol `A` at position 1, and
two bytes that both name symbol 0: byte 0 lies before the symbol's position. -/
def c10Late : Stream :=
  magicKK64 ++ write_u32 2 ++ write_u32 1
    ++ (write_asciiz [97] ++ write_float 0 ++ write_u32 0) ++ write_u32 1
    ++ (write_asciiz [65] ++ write_double 0 ++ write_u32 0 ++ write_u8 0 ++ write_u32 0 ++ write_u32 1)
    ++ writeByte ⟨0, 0xFFFF, 0xFFFF, 0, 0⟩ ++ writeByte ⟨0, 0xFFFF, 0xFFFF, 0, 0⟩

/-- A file with no source, no byte and one symbol `A` whose `source_file`
field holds `v`. -/
def c11Doc (v : Nat) : Stream :=
  magicKK64 ++ write_u32 0 ++ write_u32 0 ++ write_u32 1
    ++ (write_asciiz [65] ++ write_double 0 ++ write_u32 0 ++ write_u8 0
        ++ write_u32 v ++ write_u32 0)

/-! ## Lemmas and theorems -/

theorem iw_neg_iff (w : Nat) : iw w < 0 ↔ w = 0xFFFF := by
  unfold iw; split <;> simp_all

theorem iw_toNat (w : Nat) (h : w ≠ 0xFFFF) : (iw w).toNat = w := by
  unfold iw; simp [h]

theorem iw_nonneg_iff (w : Nat) : 0 ≤ iw w ↔ w ≠ 0xFFFF := by
  unfold iw; split <;> simp_all

theorem toInt32_toNat (v : Nat) (h : v < 2147483648) : (toInt32 v).toNat = v := by
  unfold toInt32
  have h1 : v % 4294967296 = v := Nat.mod_eq_of_lt (by omega)
  simp [h1, h]

theorem overlayLoop_spec (junk : Nat → Nat) (srcmap : List Nat) (bytes : List kkpm_byte)
    (msym sym : kkpm_symbol) (n : Nat) : ∀ (ib : Nat) (mbytes : List kkpm_byte),
    mbytes.length < 4294967296 → bytes.length < 4294967296 →
    (∀ k, k < n → msym.position + ib + k < mbytes.length) →
    (∀ k, k < n → sym.position + ib + k < bytes.length) →
    ∃ out, overlayLoop junk srcmap bytes msym sym n ib mbytes = .ok out ∧
      out.length = mbytes.length ∧
      (∀ p, (p < msym.position + ib ∨ msym.position + ib + n ≤ p) → out[p]? = mbytes[p]?) ∧
      (∀ k, k < n → ∀ b mb, bytes[sym.position + ib + k]? = some b →
        mbytes[msym.position + ib + k]? = some mb →
        out[msym.position + ib + k]? = some (overlayByte junk srcmap b mb)) := by
  induction n with
  | zero =>
    intro ib mbytes _ _ _ _
    exact ⟨mbytes, rfl, rfl, fun _ _ => rfl, fun k hk => absurd hk (Nat.not_lt_zero k)⟩
  | succ n ih =>
    intro ib mbytes hml hbl hm hb
    have hb1 : sym.position + ib < bytes.length := by have := hb 0 (by omega); omega
    have hm1 : msym.position + ib < mbytes.length := by have := hm 0 (by omega); omega
    have hm' : ∀ k, k < n → msym.position + (ib + 1) + k < mbytes.length := by
      intro k hk; have := hm (k + 1) (by omega); omega
    have hb' : ∀ k, k < n → sym.position + (ib + 1) + k < bytes.length := by
      intro k hk; have := hb (k + 1) (by omega); omega
    have e1 : (sym.position + ib) % 4294967296 = sym.position + ib :=
      Nat.mod_eq_of_lt (by omega)
    have e2 : (msym.position + ib) % 4294967296 = msym.position + ib :=
      Nat.mod_eq_of_lt (by omega)
    unfold overlayLoop
    rw [e1, e2, List.getElem?_eq_getElem hb1, List.getElem?_eq_getElem hm1]
    simp only []
    by_cases hneg : iw (bytes[sym.position + ib]).source_file < 0
    · rw [if_pos hneg]
      obtain ⟨out, ho, hlen, hout, hin⟩ := ih (ib + 1) mbytes hml hbl hm' hb'
      refine ⟨out, ho, hlen, fun p hp => hout p (by omega), ?_⟩
      intro k hk b mb hbk hmk
      rcases Nat.eq_zero_or_pos k with rfl | hkpos
      · have h1 := hout (msym.position + ib) (Or.inl (by omega))
        simp only [Nat.add_zero] at hbk hmk ⊢
        rw [h1, hmk]
        rw [List.getElem?_eq_getElem hb1] at hbk
        have hbe : bytes[sym.position + ib] = b := by simpa using hbk
        have hff : b.source_file = 0xFFFF := by
          rw [hbe] at hneg; exact (iw_neg_iff _).1 hneg
        simp [overlayByte, hff]
      · have := hin (k - 1) (by omega) b mb
          (by rw [← hbk]; congr 1; omega) (by rw [← hmk]; congr 1; omega)
        rw [← this]; congr 1; omega
    · rw [if_neg hneg]
      have hnf : (bytes[sym.position + ib]).source_file ≠ 0xFFFF :=
        fun h => hneg ((iw_neg_iff _).2 h)
      obtain ⟨out, ho, hlen, hout, hin⟩ := ih (ib + 1)
        (mbytes.set (msym.position + ib)
          { mbytes[msym.position + ib] with
            source_file := srcmapAt junk srcmap (iw (bytes[sym.position + ib]).source_file).toNat,
            source_line := (bytes[sym.position + ib]).source_line })
        (by simpa using hml) hbl (by simpa using hm') hb'
      refine ⟨out, ho, by simpa using hlen, ?_, ?_⟩
      · intro p hp
        rw [hout p (by omega), List.getElem?_set_ne (by omega)]
      · intro k hk b mb hbk hmk
        rcases Nat.eq_zero_or_pos k with rfl | hkpos
        · have h1 := hout (msym.position + ib) (Or.inl (by omega))
          simp only [Nat.add_zero] at hbk hmk ⊢
          rw [h1, List.getElem?_set_self hm1]
          rw [List.getElem?_eq_getElem hb1] at hbk
          rw [List.getElem?_eq_getElem hm1] at hmk
          have hbe : bytes[sym.position + ib] = b := by simpa using hbk
          have hme : mbytes[msym.position + ib] = mb := by simpa using hmk
          rw [hbe] at hnf
          simp [overlayByte, hnf, hbe, hme, iw_toNat _ hnf]
        · have := hin (k - 1) (by omega) b mb
            (by rw [← hbk]; congr 1; omega)
            (by rw [List.getElem?_set_ne (by omega), ← hmk]; congr 1; omega)
          rw [← this]; congr 1; omega

theorem checkLoop_true (mbytes bytes : List kkpm_byte) (msym sym : kkpm_symbol) (imsym i : Nat)
    (n : Nat) : ∀ (ib : Nat),
    mbytes.length < 4294967296 → bytes.length < 4294967296 →
    (∀ k, k < n → (mbytes[msym.position + ib + k]?).map kkpm_byte.symbol = some imsym ∧
      (bytes[sym.position + ib + k]?).map kkpm_byte.symbol = some i) →
    checkLoop mbytes bytes msym sym imsym i n ib = .ok true := by
  induction n with
  | zero => intro ib _ _ _; rfl
  | succ n ih =>
    intro ib hml hbl h
    obtain ⟨h0m, h0b⟩ := h 0 (by omega)
    simp only [Nat.add_zero] at h0m h0b
    obtain ⟨mb, hmb, hmbs⟩ := Option.map_eq_some'.1 h0m
    obtain ⟨b, hb, hbs⟩ := Option.map_eq_some'.1 h0b
    have hm1 : msym.position + ib < mbytes.length := (List.getElem?_eq_some_iff.1 hmb).1
    have hb1 : sym.position + ib < bytes.length := (List.getElem?_eq_some_iff.1 hb).1
    have e1 : (sym.position + ib) % 4294967296 = sym.position + ib :=
      Nat.mod_eq_of_lt (by omega)
    have e2 : (msym.position + ib) % 4294967296 = msym.position + ib :=
      Nat.mod_eq_of_lt (by omega)
    unfold checkLoop
    rw [e1, e2, hmb, hb]
    simp only [hmbs, hbs, ne_eq, not_true_eq_false, or_self, if_false]
    apply ih (ib + 1) hml hbl
    intro k hk
    have := h (k + 1) (by omega)
    have e3 : msym.position + (ib + 1) + k = msym.position + ib + (k + 1) := by omega
    have e4 : sym.position + (ib + 1) + k = sym.position + ib + (k + 1) := by omega
    rw [e3, e4]; exact this

theorem scanMsyms_skip (junk : Nat → Nat) (srcmap : List Nat) (bytes : List kkpm_byte)
    (sym : kkpm_symbol) (i : Nat) (sn : List Byte) (hs : sym.name = some sn) :
    ∀ (pre rest : List kkpm_symbol) (imsym : Nat) (v : MergeVars),
    (∀ m, m ∈ pre → ∃ n, m.name = some n ∧ n ≠ sn) →
    scanMsyms junk srcmap bytes sym i (pre ++ rest) imsym v
      = scanMsyms junk srcmap bytes sym i rest (imsym + pre.length) v := by
  intro pre
  induction pre with
  | nil => intro rest imsym v _; simp
  | cons m pre ih =>
    intro rest imsym v h
    obtain ⟨n, hn, hne⟩ := h m (List.mem_cons_self _ _)
    rw [List.cons_append, scanMsyms, hn, hs]
    simp only [ne_eq, hne, not_false_eq_true, if_true]
    rw [ih rest (imsym + 1) v (fun m' hm' => h m' (List.mem_cons_of_mem _ hm'))]
    congr 1
    simp only [List.length_cons]; omega

theorem split_at_index {α : Type} (l : List α) (j : Nat) (a : α) (h : l[j]? = some a) :
    l = l.take j ++ a :: l.drop (j + 1) ∧ (l.take j).length = j := by
  obtain ⟨hj, ha⟩ := List.getElem?_eq_some_iff.1 h
  refine ⟨?_, by simp; omega⟩
  rw [← ha, ← List.drop_eq_getElem_cons hj, List.take_append_drop]


/-- One pass of the loop over the merged symbols for reference symbol `sym`
of index `i`, when merged symbol `msym` of index `j` is the first with its
name and both own their bytes over the whole overlap: the pass returns, the
overlap bytes under a reference byte with a `source_file` f get `srcmap[f]`
and the reference `source_line`, and every other byte is as before. -/
theorem scanMsyms_overlay (junk : Nat → Nat) (srcmap : List Nat) (bytes : List kkpm_byte)
    (msyms : List kkpm_symbol) (sym : kkpm_symbol) (i : Nat) (v : MergeVars) (j : Nat)
    (msym : kkpm_symbol) (sn : List Byte)
    (hs : sym.name = some sn) (hj : msyms[j]? = some msym) (hm : msym.name = some sn)
    (hfirst : ∀ j' m, j' < j → msyms[j']? = some m → ∃ n, m.name = some n ∧ n ≠ sn)
    (hml : v.mbytes.length < 2147483648) (hbl : bytes.length < 2147483648)
    (hown : ∀ k, k < min msym.size sym.size →
      (v.mbytes[msym.position + k]?).map kkpm_byte.symbol = some j ∧
      (bytes[sym.position + k]?).map kkpm_byte.symbol = some i) :
    ∃ w, scanMsyms junk srcmap bytes sym i msyms 0 v = .ok w ∧
      w.mbytes.length = v.mbytes.length ∧
      (∀ k b mb, k < min msym.size sym.size → bytes[sym.position + k]? = some b →
        v.mbytes[msym.position + k]? = some mb →
        (b.source_file ≠ 0xFFFF → w.mbytes[msym.position + k]? = some
          { mb with source_file := srcmapAt junk srcmap b.source_file,
                    source_line := b.source_line }) ∧
        (b.source_file = 0xFFFF → w.mbytes[msym.position + k]? = some mb)) ∧
      (∀ p, (p < msym.position ∨ msym.position + min msym.size sym.size ≤ p) →
        w.mbytes[p]? = v.mbytes[p]?) := by
  obtain ⟨hsplit, hlen⟩ := split_at_index msyms j msym hj
  have hpre : ∀ m, m ∈ msyms.take j → ∃ n, m.name = some n ∧ n ≠ sn := by
    intro m hmem
    obtain ⟨j', hj', hget⟩ := List.getElem_of_mem hmem
    have hj'' : j' < j := by
      have : j' < (msyms.take j).length := hj'
      simp at this; omega
    refine hfirst j' m hj'' ?_
    rw [List.getElem_take] at hget
    rw [← hget]; exact List.getElem?_eq_getElem _
  have emin : (if msym.size < sym.size then msym.size else sym.size)
      = min msym.size sym.size := by
    split <;> omega
  have hbm : ∀ k, k < min msym.size sym.size → msym.position + 0 + k < v.mbytes.length := by
    intro k hk
    obtain ⟨mb, hmb, _⟩ := Option.map_eq_some'.1 (hown k hk).1
    have := (List.getElem?_eq_some_iff.1 hmb).1
    omega
  have hbb : ∀ k, k < min msym.size sym.size → sym.position + 0 + k < bytes.length := by
    intro k hk
    obtain ⟨b, hb, _⟩ := Option.map_eq_some'.1 (hown k hk).2
    have := (List.getElem?_eq_some_iff.1 hb).1
    omega
  have hlt : min msym.size sym.size < 2147483648 := by
    rcases Nat.eq_zero_or_pos (min msym.size sym.size) with h0 | hpos
    · omega
    · have := hbm (min msym.size sym.size - 1) (by omega); omega
  have hchk := checkLoop_true v.mbytes bytes msym sym j i (min msym.size sym.size) 0
    (by omega) (by omega) (by intro k hk; simpa using hown k hk)
  obtain ⟨out, ho, holen, hout, hin⟩ := overlayLoop_spec junk srcmap bytes msym sym
    (min msym.size sym.size) 0 v.mbytes (by omega) (by omega) hbm hbb
  rw [hsplit, scanMsyms_skip junk srcmap bytes sym i sn hs _ _ 0 v hpre, hlen]
  rw [scanMsyms, hm, hs]
  simp only [ne_eq, not_true_eq_false, if_false, emin, toInt32_toNat _ hlt, Nat.zero_add,
    hchk, ho]
  refine ⟨_, rfl, holen, ?_, ?_⟩
  · intro k b mb hk hb hmb
    have := hin k hk b mb (by simpa using hb) (by simpa using hmb)
    simp only [Nat.add_zero] at this
    constructor
    · intro hne; rw [this]; simp [overlayByte, hne]
    · intro he; rw [this]; simp [overlayByte, he]
  · intro p hp
    exact hout p (by omega)

theorem checkLoop_false (mbytes bytes : List kkpm_byte) (msym sym : kkpm_symbol) (imsym i : Nat)
    (n : Nat) : ∀ (ib : Nat),
    mbytes.length < 4294967296 → bytes.length < 4294967296 →
    (∀ k, k < n → msym.position + ib + k < mbytes.length) →
    (∀ k, k < n → sym.position + ib + k < bytes.length) →
    (∃ k, k < n ∧ ((mbytes[msym.position + ib + k]?).map kkpm_byte.symbol ≠ some imsym ∨
      (bytes[sym.position + ib + k]?).map kkpm_byte.symbol ≠ some i)) →
    checkLoop mbytes bytes msym sym imsym i n ib = .ok false := by
  induction n with
  | zero => intro ib _ _ _ _ h; obtain ⟨k, hk, _⟩ := h; omega
  | succ n ih =>
    intro ib hml hbl hm hb hbad
    have hb1 : sym.position + ib < bytes.length := by have := hb 0 (by omega); omega
    have hm1 : msym.position + ib < mbytes.length := by have := hm 0 (by omega); omega
    have hm' : ∀ k, k < n → msym.position + (ib + 1) + k < mbytes.length := by
      intro k hk; have := hm (k + 1) (by omega); omega
    have hb' : ∀ k, k < n → sym.position + (ib + 1) + k < bytes.length := by
      intro k hk; have := hb (k + 1) (by omega); omega
    have e1 : (sym.position + ib) % 4294967296 = sym.position + ib :=
      Nat.mod_eq_of_lt (by omega)
    have e2 : (msym.position + ib) % 4294967296 = msym.position + ib :=
      Nat.mod_eq_of_lt (by omega)
    unfold checkLoop
    rw [e1, e2, List.getElem?_eq_getElem hb1, List.getElem?_eq_getElem hm1]
    simp only []
    by_cases h0 : (mbytes[msym.position + ib]).symbol ≠ imsym ∨
        (bytes[sym.position + ib]).symbol ≠ i
    · rw [if_pos h0]
    · rw [if_neg h0]
      apply ih (ib + 1) hml hbl hm' hb'
      obtain ⟨k, hk, hkbad⟩ := hbad
      rcases Nat.eq_zero_or_pos k with rfl | hkpos
      · exfalso; apply h0
        simp only [Nat.add_zero, List.getElem?_eq_getElem hb1, List.getElem?_eq_getElem hm1,
          Option.map_some', ne_eq, Option.some.injEq] at hkbad
        exact hkbad
      · refine ⟨k - 1, by omega, ?_⟩
        have e3 : msym.position + (ib + 1) + (k - 1) = msym.position + ib + k := by omega
        have e4 : sym.position + (ib + 1) + (k - 1) = sym.position + ib + k := by omega
        rw [e3, e4]; exact hkbad

/-- C2 (as the code has it). When the first merged symbol `msym` (index `j`)
with the name of reference symbol `sym` fails the ownership test at some
offset of the overlap, that candidate is abandoned without any change and
the scan resumes at merged index `j + 1`; processing `sym` leaves the merged
result as it was when no later merged symbol has the name of `sym`. -/
theorem C2_abandon_candidate (junk : Nat → Nat) (srcmap : List Nat) (bytes : List kkpm_byte)
    (msyms : List kkpm_symbol) (sym : kkpm_symbol) (i : Nat) (v : MergeVars) (j : Nat)
    (msym : kkpm_symbol) (sn : List Byte) (k : Nat)
    (hs : sym.name = some sn) (hj : msyms[j]? = some msym) (hm : msym.name = some sn)
    (hfirst : ∀ j' m, j' < j → msyms[j']? = some m → ∃ n, m.name = some n ∧ n ≠ sn)
    (hml : v.mbytes.length < 2147483648) (hbl : bytes.length < 2147483648)
    (hmin : msym.position + min msym.size sym.size ≤ v.mbytes.length)
    (hbin : sym.position + min msym.size sym.size ≤ bytes.length)
    (hk : k < min msym.size sym.size)
    (hbad : (v.mbytes[msym.position + k]?).map kkpm_byte.symbol ≠ some j ∨
      (bytes[sym.position + k]?).map kkpm_byte.symbol ≠ some i) :
    scanMsyms junk srcmap bytes sym i msyms 0 v
        = scanMsyms junk srcmap bytes sym i (msyms.drop (j + 1)) (j + 1) v ∧
      ((∀ j' m, j < j' → msyms[j']? = some m → ∃ n, m.name = some n ∧ n ≠ sn) →
        scanMsyms junk srcmap bytes sym i msyms 0 v = .ok v) := by
  obtain ⟨hsplit, hlen⟩ := split_at_index msyms j msym hj
  have hpre : ∀ m, m ∈ msyms.take j → ∃ n, m.name = some n ∧ n ≠ sn := by
    intro m hmem
    obtain ⟨j', hj', hget⟩ := List.getElem_of_mem hmem
    have hj'' : j' < j := by
      have : j' < (msyms.take j).length := hj'
      simp at this; omega
    refine hfirst j' m hj'' ?_
    rw [List.getElem_take] at hget
    rw [← hget]; exact List.getElem?_eq_getElem _
  have emin : (if msym.size < sym.size then msym.size else sym.size)
      = min msym.size sym.size := by
    split <;> omega
  have hlt : min msym.size sym.size < 2147483648 := by omega
  have hchk := checkLoop_false v.mbytes bytes msym sym j i (min msym.size sym.size) 0
    (by omega) (by omega) (by intro k' hk'; omega) (by intro k' hk'; omega)
    ⟨k, hk, by simpa using hbad⟩
  have hstep : scanMsyms junk srcmap bytes sym i msyms 0 v
      = scanMsyms junk srcmap bytes sym i (msyms.drop (j + 1)) (j + 1) v := by
    conv => lhs; rw [hsplit]
    rw [scanMsyms_skip junk srcmap bytes sym i sn hs _ _ 0 v hpre, hlen]
    rw [scanMsyms, hm, hs]
    simp only [ne_eq, not_true_eq_false, if_false, emin, toInt32_toNat _ hlt, Nat.zero_add,
      hchk]
  refine ⟨hstep, fun hlater => ?_⟩
  rw [hstep]
  have hpost : ∀ m, m ∈ msyms.drop (j + 1) → ∃ n, m.name = some n ∧ n ≠ sn := by
    intro m hmem
    obtain ⟨j', hj', hget⟩ := List.getElem_of_mem hmem
    rw [List.getElem_drop] at hget
    refine hlater (j + 1 + j') m (by omega) ?_
    rw [← hget]; exact List.getElem?_eq_getElem _
  have := scanMsyms_skip junk srcmap bytes sym i sn hs (msyms.drop (j + 1)) [] (j + 1) v hpost
  rw [List.append_nil] at this
  rw [this]; rfl

/-- C2 at the overlay example with primary byte 11 not owned by `A`: nothing
changes. -/
theorem C2_abandon_candidate_witness :
    scanMsyms (fun _ => 0) exSrcmap exBytes exSym 0 [exMsym] 0 ⟨exMbytesGap, 4⟩
      = .ok ⟨exMbytesGap, 4⟩ :=
  (C2_abandon_candidate (fun _ => 0) exSrcmap exBytes [exMsym] exSym 0 ⟨exMbytesGap, 4⟩ 0
    exMsym [65] 1 rfl rfl rfl (by intro j' m h; omega) (by decide) (by decide) (by decide)
    (by decide) (by decide) (by decide)).2
    (by intro j' m h hm; cases j' with
      | zero => omega
      | succ n => simp at hm)

/-- C2 as stated fails: `cxPrimary` loads with two symbols named `A`; the first
one does not own byte 1 of its range, and processing the reference `A` still
overlays byte 1 through the second one. -/
theorem C2_counterexample :
    load initState.msrcs cxPrimary = .ok cxLoaded ∧
      cxSym.name = some [65] ∧ (cxMsyms[0]?).map kkpm_symbol.name = some (some [65]) ∧
      1 < min (3 : Nat) 3 ∧ (cxMbytes[0 + 1]?).map kkpm_byte.symbol ≠ some 0 ∧
      scanMsyms (fun _ => 0) [1] cxBytes cxSym 0 cxMsyms 0 ⟨cxMbytes, 3⟩
        = .ok ⟨[⟨0, 0xFFFF, 0xFFFF, 0, 0⟩, ⟨0, 1, 7, 1, 0⟩, ⟨0, 0xFFFF, 0xFFFF, 0, 0⟩], 3⟩ := by
  refine ⟨by decide, by decide, by decide, by decide, by decide, by decide⟩

theorem traceInv_set {P : Nat → kkpm_byte → Prop} {cur : List kkpm_byte} (h : TraceInv P cur)
    (idx : Nat) (c c' : kkpm_byte) (hc : cur[idx]? = some c) (hP : P idx c → P idx c') :
    TraceInv P (cur.set idx c') := by
  intro p x hx
  by_cases hp : idx = p
  · subst hp
    have hlt : idx < cur.length := (List.getElem?_eq_some_iff.1 hc).1
    rw [List.getElem?_set_self hlt] at hx
    cases hx
    exact hP (h idx c hc)
  · rw [List.getElem?_set_ne hp] at hx
    exact h p x hx

theorem overlayLoop_inv (P : Nat → kkpm_byte → Prop) (junk : Nat → Nat) (srcmap : List Nat)
    (bytes : List kkpm_byte) (msym sym : kkpm_symbol)
    (hstep : OverlayKeeps P junk srcmap bytes msym sym)
    (n : Nat) : ∀ (ib : Nat) (cur out : List kkpm_byte), TraceInv P cur →
    overlayLoop junk srcmap bytes msym sym n ib cur = .ok out →
    TraceInv P out ∧ out.length = cur.length := by
  induction n with
  | zero =>
    intro ib cur out hP h
    simp only [overlayLoop, Except.ok.injEq] at h
    exact h ▸ ⟨hP, rfl⟩
  | succ n ih =>
    intro ib cur out hP h
    unfold overlayLoop at h
    split at h
    · rename_i byte mbyte hb hmb
      simp only [] at h
      split at h
      · exact ih _ _ _ hP h
      · rename_i hneg
        have hnf : byte.source_file ≠ 0xFFFF := fun e => hneg ((iw_neg_iff _).2 e)
        have := ih _ _ _ (traceInv_set hP _ mbyte _ hmb ?_) h
        · simpa using this
        · intro ha
          rw [iw_toNat _ hnf]
          exact hstep ib byte mbyte hb hnf ha
    · cases h

theorem scanMsyms_inv (P : Nat → kkpm_byte → Prop) (junk : Nat → Nat) (srcmap : List Nat)
    (bytes : List kkpm_byte) (sym : kkpm_symbol) (i : Nat)
    (msyms : List kkpm_symbol) : ∀ (imsym : Nat) (v w : MergeVars),
    (∀ msym, msym ∈ msyms → msym.name = sym.name → OverlayKeeps P junk srcmap bytes msym sym) →
    TraceInv P v.mbytes →
    scanMsyms junk srcmap bytes sym i msyms imsym v = .ok w →
    TraceInv P w.mbytes ∧ w.mbytes.length = v.mbytes.length := by
  induction msyms with
  | nil =>
    intro imsym v w _ hP h
    simp only [scanMsyms, Except.ok.injEq] at h
    exact h ▸ ⟨hP, rfl⟩
  | cons msym rest ih =>
    intro imsym v w hstep hP h
    have hrest : ∀ m, m ∈ rest → m.name = sym.name → OverlayKeeps P junk srcmap bytes m sym :=
      fun m hm => hstep m (List.mem_cons_of_mem _ hm)
    unfold scanMsyms at h
    split at h
    · rename_i mn sn hmn hsn
      split at h
      · exact ih _ _ _ hrest hP h
      · rename_i hne
        have hname : msym.name = sym.name := by
          rw [hmn, hsn]; simpa using hne
        simp only [] at h
        split at h
        · cases h
        · exact ih _ _ _ hrest hP h
        · split at h
          · cases h
          · rename_i out hout
            simp only [Except.ok.injEq] at h
            rw [← h]
            exact overlayLoop_inv P junk srcmap bytes msym sym
              (hstep msym (List.mem_cons_self _ _) hname) _ _ _ _ hP hout
    · cases h

theorem mergeSyms_inv (P : Nat → kkpm_byte → Prop) (junk : Nat → Nat) (srcmap : List Nat)
    (bytes : List kkpm_byte) (msyms : List kkpm_symbol)
    (syms : List kkpm_symbol) : ∀ (i : Nat) (v w : MergeVars),
    (∀ sym, sym ∈ syms → ∀ msym, msym ∈ msyms → msym.name = sym.name →
      OverlayKeeps P junk srcmap bytes msym sym) →
    TraceInv P v.mbytes →
    mergeSyms junk srcmap bytes msyms syms i v = .ok w →
    TraceInv P w.mbytes ∧ w.mbytes.length = v.mbytes.length := by
  induction syms with
  | nil =>
    intro i v w _ hP h
    simp only [mergeSyms, Except.ok.injEq] at h
    exact h ▸ ⟨hP, rfl⟩
  | cons sym rest ih =>
    intro i v w hstep hP h
    unfold mergeSyms at h
    split at h
    · cases h
    · rename_i v1 hv1
      obtain ⟨h1, h2⟩ := scanMsyms_inv P junk srcmap bytes sym i msyms _ _ _
        (hstep sym (List.mem_cons_self _ _)) hP hv1
      obtain ⟨h3, h4⟩ := ih _ _ _ (fun s hs => hstep s (List.mem_cons_of_mem _ hs)) h1 h
      exact ⟨h3, by rw [h4, h2]⟩

theorem mainLoop_inv (P : Nat → kkpm_byte → Prop) (junk : Nat → Nat → Nat)
    (hstep : ∀ p c sf sl, P p c → P p { c with source_file := sf, source_line := sl })
    (refs : List Stream) : ∀ (ifile : Nat) (st st1 : MainState), ifile ≠ 0 →
    TraceInv P st.mbytes → mainLoop junk refs ifile st = .ok st1 →
    st1.msyms = st.msyms ∧ TraceInv P st1.mbytes ∧ st1.mbytes.length = st.mbytes.length := by
  induction refs with
  | nil =>
    intro ifile st st1 _ hP h
    simp only [mainLoop, Except.ok.injEq] at h
    subst h; exact ⟨rfl, hP, rfl⟩
  | cons f fs ih =>
    intro ifile st st1 hi hP h
    unfold mainLoop at h
    split at h
    · cases h
    · rename_i st2 hst2
      unfold processFile at hst2
      split at hst2
      · cases hst2
      · rename_i d hd
        rw [if_pos hi] at hst2
        split at hst2
        · cases hst2
        · rename_i w hw
          simp only [Except.ok.injEq] at hst2
          obtain ⟨hP2, hl2⟩ := mergeSyms_inv P (junk ifile) d.srcmap d.bytes st.msyms d.syms 0 _ w
            (fun _ _ _ _ _ ib b c _ _ hc => hstep _ c _ _ hc) hP hw
          obtain ⟨h1, h2, h3⟩ := ih (ifile + 1) st2 st1 (by omega)
            (by rw [← hst2]; exact hP2) h
          exact ⟨by rw [h1, ← hst2], h2, by rw [h3, ← hst2]; exact hl2⟩

/-- C3. Layout frame: when the file loop succeeds on a primary followed by
any references, the merged trace has as many bytes as the loaded primary,
the merged symbol table is the primary's, and every merged byte has the
`data`, `symbol` and `packed_size` of the primary's byte at that index. -/
theorem C3_layout_frame (junk : Nat → Nat → Nat) (primary : Stream) (refs : List Stream)
    (d : Loaded) (st : MainState)
    (hload : load initState.msrcs primary = .ok d)
    (hrun : mainLoop junk (primary :: refs) 0 initState = .ok st) :
    st.mbytes.length = d.bytes.length ∧ st.msyms = d.syms ∧
      ∀ (p : Nat) (a c : kkpm_byte), d.bytes[p]? = some a → st.mbytes[p]? = some c →
        c.data = a.data ∧ c.symbol = a.symbol ∧ c.packed_size = a.packed_size := by
  unfold mainLoop at hrun
  simp only [processFile, hload, ne_eq, not_true_eq_false, if_false] at hrun
  have hP0 : TraceInv (fun p c => ∀ a, d.bytes[p]? = some a → c.data = a.data ∧
      c.symbol = a.symbol ∧ c.packed_size = a.packed_size) d.bytes :=
    fun p c hc a ha => by rw [ha] at hc; cases hc; exact ⟨rfl, rfl, rfl⟩
  obtain ⟨h1, h2, h3⟩ := mainLoop_inv _ junk (fun p c sf sl h => h) refs 1
    ⟨d.msrcs, d.bytes, d.syms⟩ st (by omega) hP0 hrun
  exact ⟨h3, h1, fun p a c ha hc => h2 p c hc a ha⟩

/-- C3 at the files `cxPrimary`, `cxRef`. -/
theorem C3_layout_frame_witness :
    cxFinal.mbytes.length = cxLoaded.bytes.length ∧ cxFinal.msyms = cxLoaded.syms ∧
      ∀ (p : Nat) (a c : kkpm_byte), cxLoaded.bytes[p]? = some a → cxFinal.mbytes[p]? = some c →
        c.data = a.data ∧ c.symbol = a.symbol ∧ c.packed_size = a.packed_size :=
  C3_layout_frame (fun _ _ => 0) cxPrimary [cxRef] cxLoaded cxFinal (by decide) (by decide)

/-- C4 as stated fails: a reference byte with a `source_file` and no
`source_line` clears the merged `source_line` 5; and a remap value `0xFFFF`
clears a merged `source_file`. -/
theorem C4_counterexample :
    (∃ w a c, mergeSyms (fun _ => 0) [1] [⟨0, 0, 0xFFFF, 0, 0⟩] [c4Sym] [c4Sym] 0
        ⟨[⟨0, 1, 5, 0, 0⟩], 1⟩ = .ok w ∧
      (some (⟨0, 1, 5, 0, 0⟩ : kkpm_byte)) = some a ∧ w.mbytes[0]? = some c ∧
      a.source_line ≠ 0xFFFF ∧ c.source_line = 0xFFFF) ∧
    (∃ w a c, mergeSyms (fun _ => 0xFFFF) [1] [⟨0, 5, 9, 0, 0⟩] [c4Sym] [c4Sym] 0
        ⟨[⟨0, 1, 5, 0, 0⟩], 1⟩ = .ok w ∧
      (some (⟨0, 1, 5, 0, 0⟩ : kkpm_byte)) = some a ∧ w.mbytes[0]? = some c ∧
      a.source_file ≠ 0xFFFF ∧ c.source_file = 0xFFFF) :=
  ⟨⟨⟨[⟨0, 1, 0xFFFF, 0, 0⟩], 1⟩, _, _, by decide, rfl, rfl, by decide, rfl⟩,
   ⟨⟨[⟨0, 0xFFFF, 9, 0, 0⟩], 1⟩, _, _, by decide, rfl, rfl, by decide, rfl⟩⟩

/-- C5 (the code at the failing input). The primary's only byte is attributed
to its local source 0, named `a`. The output lists the sources
`<no source>`, `a` and still gives the byte `source_file = 0`, which in the
output table is `<no source>`; size regeneration counts the byte there too. -/
theorem C5_primary_bytes_keep_local_index (fp : FloatOps) (junk : Nat → Nat → Nat) :
    main fp junk [c5Primary] = .ok
      (magicKK64 ++ write_u32 1 ++ write_u32 2
        ++ (write_asciiz noSourceName ++ write_float (fp.dtof (fp.dadd 0 0)) ++ write_u32 1)
        ++ (write_asciiz [97] ++ write_float (fp.dtof 0) ++ write_u32 0)
        ++ write_u32 0 ++ writeByte ⟨0, 0, 1, 0xFFFF, 0⟩) := by
  rfl

theorem regenStep_length (fp : FloatOps) (msrcs : List kkpm_source) (b : kkpm_byte) :
    (regenStep fp msrcs b).length = msrcs.length := by
  unfold regenStep; split <;> simp

theorem regenerate_entry (fp : FloatOps) (mbytes : List kkpm_byte) : ∀ (msrcs : List kkpm_source)
    (g : Nat) (m : kkpm_source), msrcs[g]? = some m → m.unpacked_size < 4294967296 →
    ∃ r, (regenerate fp msrcs mbytes)[g]? = some r ∧ r.name = m.name ∧
      r.unpacked_size
        = (m.unpacked_size + mbytes.countP (fun b => decide (resolveSrc b = g))) % 4294967296 := by
  induction mbytes with
  | nil =>
    intro msrcs g m hm hlt
    exact ⟨m, by simpa [regenerate] using hm, rfl, by simp; omega⟩
  | cons b rest ih =>
    intro msrcs g m hm hlt
    simp only [regenerate, List.foldl_cons] at ih ⊢
    by_cases hb : resolveSrc b = g
    · have hstep : (regenStep fp msrcs b)[g]? = some
          { m with unpacked_size := (m.unpacked_size + 1) % 4294967296,
                   packed_size := fp.dadd m.packed_size b.packed_size } := by
        unfold regenStep
        rw [hb, hm]
        simp only []
        rw [List.getElem?_set_self (List.getElem?_eq_some_iff.1 hm).1]
      obtain ⟨r, hr, hn, hu⟩ := ih _ g _ hstep (Nat.mod_lt _ (by decide))
      refine ⟨r, hr, hn, ?_⟩
      rw [hu, List.countP_cons]
      simp only [hb, decide_True, if_true]
      omega
    · have hstep : (regenStep fp msrcs b)[g]? = some m := by
        unfold regenStep
        split
        · exact hm
        · rw [List.getElem?_set_ne hb]; exact hm
      obtain ⟨r, hr, hn, hu⟩ := ih _ g _ hstep hlt
      refine ⟨r, hr, hn, ?_⟩
      rw [hu, List.countP_cons]
      simp [hb]

theorem loadSources_zero (n : Nat) : ∀ (msrcs : List kkpm_source) (s : Stream)
    (m : List kkpm_source) (srcmap : List Nat) (r : Stream),
    (∀ x, x ∈ msrcs → x.unpacked_size = 0) →
    loadSources n msrcs s = .ok (m, srcmap, r) → ∀ x, x ∈ m → x.unpacked_size = 0 := by
  induction n with
  | zero =>
    intro msrcs s m srcmap r hz h
    simp only [loadSources, Except.ok.injEq, Prod.mk.injEq] at h
    rw [← h.1]; exact hz
  | succ n ih =>
    intro msrcs s m srcmap r hz h
    unfold loadSources at h
    split at h
    · cases h
    · cases h
    · rename_i name s1 _
      simp only [] at h
      split at h
      · split at h
        · cases h
        · split at h
          · cases h
          · rename_i m' srcmap' r' hrec
            simp only [Except.ok.injEq, Prod.mk.injEq] at h
            rw [← h.1]
            refine ih _ _ _ _ _ ?_ hrec
            intro x hx
            rcases List.mem_append.1 hx with hx | hx
            · exact hz x hx
            · simp only [List.mem_singleton] at hx; rw [hx]
      · split at h
        · cases h
        · rename_i m' srcmap' r' hrec
          simp only [Except.ok.injEq, Prod.mk.injEq] at h
          rw [← h.1]
          exact ih _ _ _ _ _ hz hrec

theorem load_zero (msrcs : List kkpm_source) (f : Stream) (d : Loaded)
    (hz : ∀ x, x ∈ msrcs → x.unpacked_size = 0) (h : load msrcs f = .ok d) :
    ∀ x, x ∈ d.msrcs → x.unpacked_size = 0 := by
  unfold load at h
  split at h
  · cases h
  · split at h
    · cases h
    · split at h
      · cases h
      · split at h
        · cases h
        · rename_i m srcmap s1 hsrc
          split at h
          · cases h
          · split at h
            · cases h
            · split at h
              · cases h
              · split at h
                · cases h
                · simp only [Except.ok.injEq] at h
                  rw [← h]
                  exact loadSources_zero _ _ _ _ _ _ hz hsrc

theorem mainLoop_zero (junk : Nat → Nat → Nat) (files : List Stream) :
    ∀ (ifile : Nat) (st st1 : MainState), (∀ x, x ∈ st.msrcs → x.unpacked_size = 0) →
    mainLoop junk files ifile st = .ok st1 → ∀ x, x ∈ st1.msrcs → x.unpacked_size = 0 := by
  induction files with
  | nil =>
    intro ifile st st1 hz h
    simp only [mainLoop, Except.ok.injEq] at h
    rw [← h]; exact hz
  | cons f fs ih =>
    intro ifile st st1 hz h
    unfold mainLoop at h
    split at h
    · cases h
    · rename_i st2 hst2
      refine ih _ st2 st1 ?_ h
      unfold processFile at hst2
      split at hst2
      · cases hst2
      · rename_i d hd
        have hdz := load_zero _ _ _ hz hd
        split at hst2
        · split at hst2
          · cases hst2
          · simp only [Except.ok.injEq] at hst2
            rw [← hst2]; exact hdz
        · simp only [Except.ok.injEq] at hst2
          rw [← hst2]; exact hdz

theorem byteStep_effect (nbytes : Nat) (syms syms1 : List kkpm_symbol) (i : Nat) (b : kkpm_byte)
    (hi : i < 2147483648) (h : byteStep nbytes syms i b = .ok syms1)
    (k : Nat) (sym : kkpm_symbol) (hk : syms[k]? = some sym) (hk16 : k ≠ 0xFFFF) :
    ∃ sym1, syms1[k]? = some sym1 ∧ sym1 = { sym with size := sym1.size } ∧
      ((b.symbol = k ∧ sym.position < nbytes) →
        sym.position ≤ i ∧ sym1.size = i + 1 - sym.position) ∧
      (¬ (b.symbol = k ∧ sym.position < nbytes) → sym1.size = sym.size) := by
  unfold byteStep at h
  simp only [] at h
  split at h
  · rename_i hnn
    have hne : b.symbol ≠ 0xFFFF := (iw_nonneg_iff _).1 hnn
    rw [iw_toNat _ hne] at h
    split at h
    · cases h
    · rename_i s hs
      split at h
      · rename_i hout
        simp only [Except.ok.injEq] at h
        subst h
        refine ⟨sym, hk, rfl, ?_, fun _ => rfl⟩
        rintro ⟨hbk, hlt⟩
        rw [hbk, hk] at hs
        cases hs
        omega
      · rename_i hin
        split at h
        · cases h
        · rename_i hle
          simp only [Except.ok.injEq] at h
          subst h
          by_cases hbk : b.symbol = k
          · rw [hbk, hk] at hs
            cases hs
            rw [hbk]
            have hklt : k < syms.length := (List.getElem?_eq_some_iff.1 hk).1
            refine ⟨_, List.getElem?_set_self hklt, rfl, ?_, ?_⟩
            · intro _
              refine ⟨by omega, ?_⟩
              simp only []
              omega
            · intro hn; exact absurd ⟨rfl, by omega⟩ hn
          · refine ⟨sym, ?_, rfl, ?_, fun _ => rfl⟩
            · rw [List.getElem?_set_ne hbk]; exact hk
            · rintro ⟨hbk', _⟩; exact absurd hbk' hbk
  · rename_i hneg
    simp only [Except.ok.injEq] at h
    subst h
    have hff : b.symbol = 0xFFFF := by
      by_contra hne; exact hneg ((iw_nonneg_iff _).2 hne)
    refine ⟨sym, hk, rfl, ?_, fun _ => rfl⟩
    rintro ⟨hbk, _⟩
    exact absurd (hbk.symm.trans hff) hk16

theorem byteStep_length (nbytes : Nat) (syms syms1 : List kkpm_symbol) (i : Nat) (b : kkpm_byte)
    (h : byteStep nbytes syms i b = .ok syms1) : syms1.length = syms.length := by
  unfold byteStep at h
  simp only [] at h
  split at h
  · split at h
    · cases h
    · split at h
      · simp only [Except.ok.injEq] at h; rw [← h]
      · split at h
        · cases h
        · simp only [Except.ok.injEq] at h; rw [← h]; simp
  · simp only [Except.ok.injEq] at h; rw [← h]

theorem loadBytes_spec (nbytes : Nat) (n : Nat) : ∀ (i : Nat) (syms : List kkpm_symbol) (s : Stream)
    (syms2 : List kkpm_symbol) (bytes : List kkpm_byte) (r : Stream),
    i < 2147483648 → loadBytes nbytes n i syms s = .ok (syms2, bytes, r) →
    bytes.length = n ∧ syms2.length = syms.length ∧
    ∀ (k : Nat) (sym : kkpm_symbol), syms[k]? = some sym → k ≠ 0xFFFF →
      ∃ sym2, syms2[k]? = some sym2 ∧ sym2 = { sym with size := sym2.size } ∧
        (nbytes ≤ sym.position → sym2.size = sym.size) ∧
        ((∀ (j : Nat) (b : kkpm_byte), bytes[j]? = some b → b.symbol ≠ k) → sym2.size = sym.size) ∧
        (sym.position < nbytes → ∀ (j : Nat) (b : kkpm_byte), bytes[j]? = some b → b.symbol = k →
          (∀ (j' : Nat) (b' : kkpm_byte), j < j' → bytes[j']? = some b' → b'.symbol ≠ k) →
          sym.position ≤ i + j ∧ sym2.size = i + j + 1 - sym.position) := by
  induction n with
  | zero =>
    intro i syms s syms2 bytes r _ h
    simp only [loadBytes, Except.ok.injEq, Prod.mk.injEq] at h
    obtain ⟨h1, h2, _⟩ := h
    subst h1; subst h2
    refine ⟨rfl, rfl, fun k sym hk _ => ⟨sym, hk, rfl, fun _ => rfl, fun _ => rfl, ?_⟩⟩
    intro _ j b hb
    simp at hb
  | succ n ih =>
    intro i syms s syms2 bytes r hi h
    unfold loadBytes at h
    split at h
    · cases h
    · rename_i byte s1 _
      split at h
      · cases h
      · rename_i syms1 hstep
        split at h
        · cases h
        · rename_i hguard
          split at h
          · cases h
          · rename_i syms2' bytes' r' hrec
            simp only [Except.ok.injEq, Prod.mk.injEq] at h
            obtain ⟨h1, h2, _⟩ := h
            subst h1; subst h2
            obtain ⟨hlen, hslen, hrel⟩ := ih (i + 1) syms1 s1 _ _ _ (by omega) hrec
            refine ⟨by simp [hlen], by rw [hslen, byteStep_length _ _ _ _ _ hstep], ?_⟩
            intro k sym hk hk16
            obtain ⟨sym1, hk1, he1, hhit, hmiss⟩ :=
              byteStep_effect nbytes syms syms1 i byte hi hstep k sym hk hk16
            obtain ⟨sym2, hk2, he2, hout2, hnone2, hlast2⟩ := hrel k sym1 hk1 hk16
            have hp1 : sym1.position = sym.position := by rw [he1]
            refine ⟨sym2, hk2, ?_, ?_, ?_, ?_⟩
            · rw [he2, he1]
            · intro hout
              rw [hout2 (by omega)]
              exact hmiss (fun hc => by omega)
            · intro hnone
              have h0 : byte.symbol ≠ k := hnone 0 byte (by simp)
              rw [hnone2 (fun j b hb => hnone (j + 1) b (by simpa using hb))]
              exact hmiss (fun hc => h0 hc.1)
            · intro hlt j b hb hbk hlater
              cases j with
              | zero =>
                simp only [List.getElem?_cons_zero, Option.some.injEq] at hb
                subst hb
                obtain ⟨hle, hsz⟩ := hhit ⟨hbk, hlt⟩
                rw [hnone2 (fun j' b' hb' => hlater (j' + 1) b' (by omega) (by simpa using hb'))]
                exact ⟨by omega, by omega⟩
              | succ j =>
                simp only [List.getElem?_cons_succ] at hb
                obtain ⟨hle, hsz⟩ := hlast2 (by omega) j b hb hbk
                  (fun j' b' hj' hb' => hlater (j' + 1) b' (by omega) (by simpa using hb'))
                exact ⟨by omega, by omega⟩

theorem readSymbolRec_size (s r : Stream) (sym : kkpm_symbol) (h : readSymbolRec s = some (sym, r)) :
    sym.size = 0 := by
  unfold readSymbolRec at h
  split at h
  · cases h
  split at h
  · cases h
  split at h
  · cases h
  split at h
  · cases h
  split at h
  · cases h
  split at h
  · cases h
  simp only [Option.some.injEq, Prod.mk.injEq] at h
  rw [← h.1]

theorem loadSyms_spec (nbytes : Nat) (n : Nat) : ∀ (s : Stream) (syms : List kkpm_symbol) (r : Stream),
    loadSyms nbytes n s = .ok (syms, r) →
    syms.length = n ∧ ∀ sym, sym ∈ syms → sym.size = 0 := by
  induction n with
  | zero =>
    intro s syms r h
    simp only [loadSyms, Except.ok.injEq, Prod.mk.injEq] at h
    rw [← h.1]; simp
  | succ n ih =>
    intro s syms r h
    unfold loadSyms at h
    split at h
    · cases h
    · rename_i sym s1 hread
      split at h
      · cases h
      · split at h
        · cases h
        · split at h
          · cases h
          · rename_i syms' r' hrec
            simp only [Except.ok.injEq, Prod.mk.injEq] at h
            rw [← h.1]
            obtain ⟨hl, hz⟩ := ih _ _ _ hrec
            refine ⟨by simp [hl], ?_⟩
            intro x hx
            rcases List.mem_cons.1 hx with hx | hx
            · rw [hx]; exact readSymbolRec_size _ _ _ hread
            · exact hz x hx

/-- What `load` returns, phase by phase. -/
theorem load_phases (msrcs : List kkpm_source) (f : Stream) (d : Loaded) (h : load msrcs f = .ok d) :
    ∃ magic nsrcs s0 s1 nsyms s2 syms s3,
      readHeader f = some (magic, d.nbytes, nsrcs, s0) ∧ magic = magicKK64 ∧ nsrcs ≤ 0xFFFF ∧
      loadSources nsrcs msrcs s0 = .ok (d.msrcs, d.srcmap, s1) ∧
      read_u32 s1 = some (nsyms, s2) ∧ nsyms ≤ 0xFFFF ∧
      loadSyms d.nbytes nsyms s2 = .ok (syms, s3) ∧
      loadBytes d.nbytes d.nbytes 0 syms s3 = .ok (d.syms, d.bytes, d.rest) := by
  unfold load at h
  split at h
  · cases h
  · rename_i magic nbytes nsrcs s0 hh
    split at h
    · cases h
    · rename_i hmagic
      split at h
      · cases h
      · rename_i hns
        split at h
        · cases h
        · rename_i m srcmap s1 hsrc
          split at h
          · cases h
          · rename_i nsyms s2 hnsyms
            split at h
            · cases h
            · rename_i hny
              split at h
              · cases h
              · rename_i syms s3 hsyms
                split at h
                · cases h
                · rename_i syms1 bytes rest hbytes
                  simp only [Except.ok.injEq] at h
                  subst h
                  exact ⟨magic, nsrcs, s0, s1, nsyms, s2, syms, s3, hh, by simpa using hmagic,
                    by omega, hsrc, hnsyms, by omega, hsyms, hbytes⟩

/-- C9. Derived symbol size: in a loaded document the trace has `nbytes`
records, and for symbol `k`: its size is 0 when its position is at or past
`nbytes`; otherwise it is 0 when no byte names `k`, and it is (index of the
last byte naming `k`) + 1 - position when some byte names `k`, with the
position at or before that index. -/
theorem C9_derived_size (msrcs : List kkpm_source) (f : Stream) (d : Loaded)
    (h : load msrcs f = .ok d) (k : Nat) (sym : kkpm_symbol) (hk : d.syms[k]? = some sym) :
    d.bytes.length = d.nbytes ∧
    (d.nbytes ≤ sym.position → sym.size = 0) ∧
    (sym.position < d.nbytes →
      ((∀ (j : Nat) (b : kkpm_byte), d.bytes[j]? = some b → b.symbol ≠ k) → sym.size = 0) ∧
      (∀ (j : Nat) (b : kkpm_byte), d.bytes[j]? = some b → b.symbol = k →
        (∀ (j' : Nat) (b' : kkpm_byte), j < j' → d.bytes[j']? = some b' → b'.symbol ≠ k) →
        sym.position ≤ j ∧ sym.size = j + 1 - sym.position)) := by
  obtain ⟨magic, nsrcs, s0, s1, nsyms, s2, syms, s3, _, _, _, _, _, hny, hsyms, hbytes⟩ :=
    load_phases msrcs f d h
  obtain ⟨hsl, hsz⟩ := loadSyms_spec _ _ _ _ _ hsyms
  obtain ⟨hbl, hlen, hrel⟩ := loadBytes_spec d.nbytes d.nbytes 0 syms s3 _ _ _ (by omega) hbytes
  have hklt : k < syms.length := by
    rw [← hlen]; exact (List.getElem?_eq_some_iff.1 hk).1
  have hk0 : syms[k]? = some (syms[k]) := List.getElem?_eq_getElem hklt
  obtain ⟨sym2, hk2, he2, hout, hnone, hlast⟩ := hrel k _ hk0 (by omega)
  rw [hk] at hk2
  cases hk2
  have hz : (syms[k]).size = 0 := hsz _ (List.getElem_mem hklt)
  have hp : sym.position = (syms[k]).position := by rw [he2]
  refine ⟨hbl, ?_, ?_⟩
  · intro h1; rw [hout (by omega), hz]
  · intro h1
    refine ⟨fun h2 => by rw [hnone h2, hz], ?_⟩
    intro j b hb hbk hl
    have := hlast (by omega) j b hb hbk hl
    omega

/-- C9 at `cxPrimary`, symbol 0: position 0, last byte 2, size 3. -/
theorem C9_derived_size_witness :
    cxLoaded.bytes.length = cxLoaded.nbytes ∧
    (cxLoaded.nbytes ≤ 0 → (3 : Nat) = 0) ∧
    (0 < cxLoaded.nbytes →
      ((∀ (j : Nat) (b : kkpm_byte), cxLoaded.bytes[j]? = some b → b.symbol ≠ 0) → (3 : Nat) = 0) ∧
      (∀ (j : Nat) (b : kkpm_byte), cxLoaded.bytes[j]? = some b → b.symbol = 0 →
        (∀ (j' : Nat) (b' : kkpm_byte), j < j' → cxLoaded.bytes[j']? = some b' → b'.symbol ≠ 0) →
        0 ≤ j ∧ 3 = j + 1 - 0)) :=
  C9_derived_size initState.msrcs cxPrimary cxLoaded (by decide) 0 ⟨some [65], 0, 0, 0, 0, 0, 3⟩
    (by decide)

theorem loadBytes_violation (nbytes : Nat) (n : Nat) : ∀ (i0 : Nat) (cur : List kkpm_symbol)
    (s : Stream) (bytes : List kkpm_byte) (r : Stream) (j : Nat) (b : kkpm_byte) (sym : kkpm_symbol),
    readByteRecs n s = some (bytes, r) → bytes[j]? = some b → b.symbol ≠ 0xFFFF →
    cur[b.symbol]? = some sym → i0 + j < sym.position → sym.position < nbytes →
    (∀ (j' : Nat) (b' : kkpm_byte), j' < j → bytes[j']? = some b' →
      b'.symbol = 0xFFFF ∨ b'.symbol < cur.length) →
    i0 + j < 2147483648 →
    loadBytes nbytes n i0 cur s = .error .InvalidField := by
  induction n with
  | zero =>
    intro i0 cur s bytes r j b sym hrec hb
    simp only [readByteRecs, Option.some.injEq, Prod.mk.injEq] at hrec
    rw [← hrec.1] at hb
    simp at hb
  | succ n ih =>
    intro i0 cur s bytes r j b sym hrec hb hpres hk hlo hhi hearlier hi
    unfold readByteRecs at hrec
    split at hrec
    · cases hrec
    · rename_i b0 s1 hread
      split at hrec
      · cases hrec
      · rename_i bs r' hrest
        simp only [Option.some.injEq, Prod.mk.injEq] at hrec
        obtain ⟨hbs, _⟩ := hrec
        subst hbs
        unfold loadBytes
        rw [hread]
        simp only []
        cases j with
        | zero =>
          simp only [List.getElem?_cons_zero, Option.some.injEq] at hb
          subst hb
          have hstep : byteStep nbytes cur i0 b0 = .error .InvalidField := by
            unfold byteStep
            simp only []
            rw [if_pos ((iw_nonneg_iff _).2 hpres), iw_toNat _ hpres, hk]
            simp only []
            rw [if_neg (by omega), if_pos (by omega)]
          rw [hstep]
        | succ j =>
          simp only [List.getElem?_cons_succ] at hb
          cases hstep : byteStep nbytes cur i0 b0 with
          | error e =>
            simp only []
            have h0 := hearlier 0 b0 (by omega) (by simp)
            unfold byteStep at hstep
            simp only [] at hstep
            split at hstep
            · rename_i hnn
              have hne : b0.symbol ≠ 0xFFFF := (iw_nonneg_iff _).1 hnn
              rw [iw_toNat _ hne] at hstep
              split at hstep
              · rename_i hnone
                rcases h0 with h0 | h0
                · exact absurd h0 hne
                · rw [List.getElem?_eq_getElem h0] at hnone; cases hnone
              · split at hstep
                · cases hstep
                · split at hstep
                  · simp only [Except.error.injEq] at hstep
                    rw [hstep]
                  · cases hstep
            · cases hstep
          | ok cur1 =>
            simp only []
            rw [if_neg (by omega)]
            have hlen := byteStep_length _ _ _ _ _ hstep
            obtain ⟨sym1, hk1, he1, _, _⟩ :=
              byteStep_effect nbytes cur cur1 i0 b0 (by omega) hstep b.symbol sym hk hpres
            have hp1 : sym1.position = sym.position := by rw [he1]
            have := ih (i0 + 1) cur1 s1 bs r' j b sym1 hrest hb hpres hk1 (by omega) (by omega)
              (fun j' b' hj' hb' => by
                rw [hlen]
                exact hearlier (j' + 1) b' (by omega) (by simpa using hb'))
              (by omega)
            rw [this]

theorem loadSources_succ (n : Nat) (m : List kkpm_source) (s : Stream) (a : List kkpm_source)
    (b : List Nat) (r : Stream) (h : loadSources (n + 1) m s = .ok (a, b, r)) :
    ∃ name s1 m1 b1, readSourceRec s = some (some name, s1) ∧
      loadSources n m1 s1 = .ok (a, b1, r) := by
  unfold loadSources at h
  split at h
  · cases h
  · cases h
  · rename_i name s1 hread
    simp only [] at h
    split at h
    · split at h
      · cases h
      · split at h
        · cases h
        · rename_i a1 b1 r1 hrec
          simp only [Except.ok.injEq, Prod.mk.injEq] at h
          obtain ⟨h1, _, h3⟩ := h
          subst h1; subst h3
          exact ⟨name, s1, _, b1, hread, hrec⟩
    · split at h
      · cases h
      · rename_i a1 b1 r1 hrec
        simp only [Except.ok.injEq, Prod.mk.injEq] at h
        obtain ⟨h1, _, h3⟩ := h
        subst h1; subst h3
        exact ⟨name, s1, _, b1, hread, hrec⟩

theorem loadSources_rest_indep (n : Nat) : ∀ (m1 m2 : List kkpm_source) (s : Stream)
    (a1 a2 : List kkpm_source) (b1 b2 : List Nat) (r1 r2 : Stream),
    loadSources n m1 s = .ok (a1, b1, r1) → loadSources n m2 s = .ok (a2, b2, r2) → r1 = r2 := by
  induction n with
  | zero =>
    intro m1 m2 s a1 a2 b1 b2 r1 r2 h1 h2
    simp only [loadSources, Except.ok.injEq, Prod.mk.injEq] at h1 h2
    rw [← h1.2.2, ← h2.2.2]
  | succ n ih =>
    intro m1 m2 s a1 a2 b1 b2 r1 r2 h1 h2
    obtain ⟨name, s1, m1', b1', hr1, hl1⟩ := loadSources_succ _ _ _ _ _ _ h1
    obtain ⟨name2, s2, m2', b2', hr2, hl2⟩ := loadSources_succ _ _ _ _ _ _ h2
    rw [hr1] at hr2
    simp only [Option.some.injEq, Prod.mk.injEq] at hr2
    obtain ⟨_, hs⟩ := hr2
    subst hs
    exact ih _ _ _ _ _ _ _ _ _ hl1 hl2

theorem load_indep (m1 m2 : List kkpm_source) (x : Stream) (d1 d2 : Loaded)
    (h1 : load m1 x = .ok d1) (h2 : load m2 x = .ok d2) :
    d1.nbytes = d2.nbytes ∧ d1.syms = d2.syms ∧ d1.bytes = d2.bytes ∧ d1.rest = d2.rest := by
  obtain ⟨mg, nsrcs, s0, s1, nsyms, s2, syms, s3, hh, _, _, hsrc, hny, _, hsy, hby⟩ :=
    load_phases m1 x d1 h1
  obtain ⟨mg', nsrcs', s0', s1', nsyms', s2', syms', s3', hh', _, _, hsrc', hny', _, hsy', hby'⟩ :=
    load_phases m2 x d2 h2
  rw [hh] at hh'
  simp only [Option.some.injEq, Prod.mk.injEq] at hh'
  obtain ⟨_, hnb, hns, hs0⟩ := hh'
  subst hns; subst hs0
  have hs1 := loadSources_rest_indep _ _ _ _ _ _ _ _ _ _ hsrc hsrc'
  subst hs1
  rw [hny] at hny'
  simp only [Option.some.injEq, Prod.mk.injEq] at hny'
  obtain ⟨hn, hs2⟩ := hny'
  subst hn; subst hs2
  rw [← hnb, hsy] at hsy'
  simp only [Except.ok.injEq, Prod.mk.injEq] at hsy'
  obtain ⟨hsy1, hs3⟩ := hsy'
  subst hsy1; subst hs3
  rw [← hnb, hby] at hby'
  simp only [Except.ok.injEq, Prod.mk.injEq] at hby'
  exact ⟨hnb, hby'.1, hby'.2.1, hby'.2.2⟩

/-- C6 (as the code has it). Self-merge: for a file whose loaded symbols
have pairwise distinct names, the file loop run on the file twice leaves the
byte count, and for every merged byte the `source_line`, `data`, `symbol`
and `packed_size`, as loaded, and a byte without `source_file` stays without;
size regeneration then gives entry `g` of the table, modulo `2^32`, the
number of merged bytes whose `source_file` resolves to `g`. -/
theorem C6_self_merge (fp : FloatOps) (junk : Nat → Nat → Nat) (x : Stream) (d : Loaded)
    (st : MainState)
    (hload : load initState.msrcs x = .ok d)
    (hnames : (d.syms.map kkpm_symbol.name).Nodup)
    (hrun : mainLoop junk [x, x] 0 initState = .ok st) :
    st.mbytes.length = d.bytes.length ∧
    (∀ (p : Nat) (a c : kkpm_byte), d.bytes[p]? = some a → st.mbytes[p]? = some c →
      c.source_line = a.source_line ∧ c.data = a.data ∧ c.symbol = a.symbol ∧
      c.packed_size = a.packed_size ∧ (a.source_file = 0xFFFF → c.source_file = 0xFFFF)) ∧
    (∀ (g : Nat) (m : kkpm_source), st.msrcs[g]? = some m →
      ∃ r, (regenerate fp st.msrcs st.mbytes)[g]? = some r ∧ r.name = m.name ∧
        r.unpacked_size
          = st.mbytes.countP (fun b => decide (resolveSrc b = g)) % 4294967296) := by
  have hz : ∀ y, y ∈ st.msrcs → y.unpacked_size = 0 :=
    mainLoop_zero junk [x, x] 0 initState st
      (by intro y hy; simp only [initState, List.mem_singleton] at hy; rw [hy]) hrun
  have hrun0 := hrun
  unfold mainLoop at hrun
  simp only [processFile, hload, ne_eq, not_true_eq_false, if_false] at hrun
  unfold mainLoop at hrun
  split at hrun
  · cases hrun
  · rename_i st2 hst2
    simp only [mainLoop, Except.ok.injEq] at hrun
    subst hrun
    unfold processFile at hst2
    simp only [] at hst2
    split at hst2
    · cases hst2
    · rename_i d2 hd2
      obtain ⟨_, hsy, hby, _⟩ := load_indep _ _ _ _ _ hload hd2
      rw [if_pos (by omega)] at hst2
      split at hst2
      · cases hst2
      · rename_i w hw
        simp only [Except.ok.injEq] at hst2
        subst hst2
        rw [← hsy, ← hby] at hw
        simp only []
        have hP0 : TraceInv (fun p c => ∀ a, d.bytes[p]? = some a →
            c.source_line = a.source_line ∧ c.data = a.data ∧ c.symbol = a.symbol ∧
            c.packed_size = a.packed_size ∧ (a.source_file = 0xFFFF → c.source_file = 0xFFFF))
            d.bytes :=
          fun p c hc a ha => by rw [ha] at hc; cases hc; exact ⟨rfl, rfl, rfl, rfl, id⟩
        obtain ⟨h1, h2⟩ := mergeSyms_inv _ (junk 1) d2.srcmap d.bytes d.syms d.syms 0 _ w
          (by
            intro sym hsym msym hmsym hname ib b c hb hsf hc a ha
            have hms : msym = sym := List.inj_on_of_nodup_map hnames hmsym hsym hname
            rw [hms] at ha hc
            rw [hb] at ha
            cases ha
            obtain ⟨_, c2, c3, c4, _⟩ := hc b hb
            exact ⟨rfl, c2, c3, c4, fun e => absurd e hsf⟩)
          hP0 hw
        refine ⟨h2, fun p a c ha hc => h1 p c hc a ha, ?_⟩
        intro g m hg
        have hm0 : m.unpacked_size = 0 := hz m (List.getElem?_mem hg)
        obtain ⟨r, hr, hn, hu⟩ := regenerate_entry fp w.mbytes d2.msrcs g m hg (by omega)
        exact ⟨r, hr, hn, by rw [hu, hm0, Nat.zero_add]⟩

/-- C6 at the file `c6File` merged with itself. -/
theorem C6_self_merge_witness :
    c6Final.mbytes.length = c6Loaded.bytes.length ∧
    (∀ (p : Nat) (a c : kkpm_byte), c6Loaded.bytes[p]? = some a → c6Final.mbytes[p]? = some c →
      c.source_line = a.source_line ∧ c.data = a.data ∧ c.symbol = a.symbol ∧
      c.packed_size = a.packed_size ∧ (a.source_file = 0xFFFF → c.source_file = 0xFFFF)) ∧
    (∀ (g : Nat) (m : kkpm_source), c6Final.msrcs[g]? = some m →
      ∃ r, (regenerate fpExample c6Final.msrcs c6Final.mbytes)[g]? = some r ∧
        r.name = m.name ∧
        r.unpacked_size
          = c6Final.mbytes.countP (fun b => decide (resolveSrc b = g)) % 4294967296) :=
  C6_self_merge fpExample (fun _ _ => 0) c6File c6Loaded c6Final
    (by decide) (by decide) (by decide)

/-- C6 as stated fails: merging `c6File` with itself turns the byte's
`source_file` 0 into 1, and the regenerated `unpacked_size` of source `a` is
1 where the file's own table stores 77. -/
theorem C6_counterexample :
    load initState.msrcs c6File = .ok c6Loaded ∧
    mainLoop (fun _ _ => 0) [c6File, c6File] 0 initState = .ok c6Final ∧
    (c6Loaded.bytes.map kkpm_byte.source_file = [0] ∧ c6Final.mbytes.map kkpm_byte.source_file = [1]) ∧
    (regenerate fpExample c6Final.msrcs c6Final.mbytes).map
      kkpm_source.unpacked_size = [0, 1] := by
  refine ⟨by decide, by decide, by decide, by decide⟩

theorem leEncode_leDecode (bs : List Byte) : leEncode bs.length (leDecode bs) = bs := by
  induction bs with
  | nil => rfl
  | cons b bs ih =>
    simp only [List.length_cons, leEncode, leDecode]
    have h1 : (b.val + 256 * leDecode bs) % 256 = b.val := by
      have := b.isLt; omega
    have h2 : (b.val + 256 * leDecode bs) / 256 = leDecode bs := by
      have := b.isLt; omega
    rw [h2, ih]
    congr 1
    exact Fin.ext h1

theorem readN_eq (n : Nat) (s a r : Stream) (h : readN n s = some (a, r)) :
    s = a ++ r ∧ a.length = n := by
  unfold readN at h
  split at h
  · simp only [Option.some.injEq, Prod.mk.injEq] at h
    rw [← h.1, ← h.2]
    exact ⟨(List.take_append_drop n s).symm, by simp; omega⟩
  · cases h

theorem readLE_eq (n : Nat) (s r : Stream) (v : Nat) (h : readLE n s = some (v, r)) :
    s = leEncode n v ++ r := by
  unfold readLE at h
  split at h
  · cases h
  · rename_i bs r' hread
    simp only [Option.some.injEq, Prod.mk.injEq] at h
    obtain ⟨hs, hl⟩ := readN_eq _ _ _ _ hread
    rw [← h.1, ← h.2, ← hl, leEncode_leDecode]
    exact hs

theorem read_asciiz_loop_eq (k : Nat) : ∀ (buf : List Byte) (s : Stream) (v : List Byte)
    (r : Stream), read_asciiz_loop k buf s = some (some v, r) →
    ∃ t, v = buf ++ t ∧ s = t ++ [0] ++ r := by
  induction k with
  | zero =>
    intro buf s v r h
    simp [read_asciiz_loop] at h
  | succ k ih =>
    intro buf s v r h
    cases s with
    | nil => simp [read_asciiz_loop] at h
    | cons c s =>
      simp only [read_asciiz_loop] at h
      split at h
      · rename_i hc
        simp only [Option.some.injEq, Prod.mk.injEq] at h
        refine ⟨[], by simp [h.1], ?_⟩
        rw [hc, h.2]; rfl
      · obtain ⟨t, ht, hs⟩ := ih _ _ _ _ h
        refine ⟨c :: t, by simp [ht], ?_⟩
        rw [hs]; simp

theorem read_asciiz_eq (s r : Stream) (v : List Byte) (h : read_asciiz s = some (some v, r)) :
    s = write_asciiz v ++ r := by
  obtain ⟨t, ht, hs⟩ := read_asciiz_loop_eq _ _ _ _ _ h
  simp only [List.nil_append] at ht
  rw [hs, ht]; rfl

theorem readSourceRec_eq (s r : Stream) (name : List Byte)
    (h : readSourceRec s = some (some name, r)) : ∃ pre, s = pre ++ r := by
  unfold readSourceRec at h
  split at h
  · cases h
  · rename_i nm s1 h1
    split at h
    · cases h
    · rename_i pk s2 h2
      split at h
      · cases h
      · rename_i un s3 h3
        simp only [Option.some.injEq, Prod.mk.injEq] at h
        obtain ⟨hn, hr⟩ := h
        subst hn; subst hr
        refine ⟨write_asciiz name ++ leEncode 4 pk ++ leEncode 4 un, ?_⟩
        rw [read_asciiz_eq _ _ _ h1, readLE_eq _ _ _ _ h2, readLE_eq _ _ _ _ h3]
        simp

theorem loadSources_consumes (n : Nat) : ∀ (m : List kkpm_source) (s : Stream) (a : List kkpm_source)
    (b : List Nat) (r : Stream), loadSources n m s = .ok (a, b, r) → ∃ pre, s = pre ++ r := by
  induction n with
  | zero =>
    intro m s a b r h
    simp only [loadSources, Except.ok.injEq, Prod.mk.injEq] at h
    exact ⟨[], by simp [h.2.2]⟩
  | succ n ih =>
    intro m s a b r h
    obtain ⟨name, s1, m1, b1, hr, hl⟩ := loadSources_succ _ _ _ _ _ _ h
    obtain ⟨p1, hp1⟩ := readSourceRec_eq _ _ _ hr
    obtain ⟨p2, hp2⟩ := ih _ _ _ _ _ hl
    exact ⟨p1 ++ p2, by rw [hp1, hp2]; simp⟩

theorem readSymbolRec_eq (s r : Stream) (sym : kkpm_symbol) (out : Stream)
    (h : readSymbolRec s = some (sym, r)) (hw : writeSymbol sym = .ok out) : s = out ++ r := by
  unfold readSymbolRec at h
  split at h
  · cases h
  rename_i nm s1 h1
  split at h
  · cases h
  rename_i pk s2 h2
  split at h
  · cases h
  rename_i un s3 h3
  split at h
  · cases h
  rename_i cd s4 h4
  split at h
  · cases h
  rename_i sf s5 h5
  split at h
  · cases h
  rename_i ps s6 h6
  simp only [Option.some.injEq, Prod.mk.injEq] at h
  obtain ⟨hs, hr⟩ := h
  subst hs; subst hr
  unfold writeSymbol at hw
  simp only [] at hw
  split at hw
  · cases hw
  · rename_i name
    simp only [Except.ok.injEq] at hw
    subst hw
    rw [read_asciiz_eq _ _ _ h1, readLE_eq _ _ _ _ h2, readLE_eq _ _ _ _ h3,
      readLE_eq _ _ _ _ h4, readLE_eq _ _ _ _ h5, readLE_eq _ _ _ _ h6]
    simp [write_double, write_u32, write_u8]

theorem readByteRec_eq (s r : Stream) (b : kkpm_byte) (h : readByteRec s = some (b, r)) :
    s = writeByte b ++ r := by
  unfold readByteRec at h
  split at h
  · cases h
  rename_i dt s1 h1
  split at h
  · cases h
  rename_i sy s2 h2
  split at h
  · cases h
  rename_i pk s3 h3
  split at h
  · cases h
  rename_i ln s4 h4
  split at h
  · cases h
  rename_i sf s5 h5
  simp only [Option.some.injEq, Prod.mk.injEq] at h
  obtain ⟨hs, hr⟩ := h
  subst hs; subst hr
  rw [readLE_eq _ _ _ _ h1, readLE_eq _ _ _ _ h2, readLE_eq _ _ _ _ h3,
    readLE_eq _ _ _ _ h4, readLE_eq _ _ _ _ h5]
  simp [writeByte, write_double, write_u16, write_u8]

theorem loadSyms_write (nbytes : Nat) (n : Nat) : ∀ (s : Stream) (syms : List kkpm_symbol)
    (r out : Stream), loadSyms nbytes n s = .ok (syms, r) → writeSymbols syms = .ok out →
    s = out ++ r := by
  induction n with
  | zero =>
    intro s syms r out h hw
    simp only [loadSyms, Except.ok.injEq, Prod.mk.injEq] at h
    rw [← h.1] at hw
    simp only [writeSymbols, Except.ok.injEq] at hw
    rw [← hw, h.2]; rfl
  | succ n ih =>
    intro s syms r out h hw
    unfold loadSyms at h
    split at h
    · cases h
    · rename_i sym s1 hread
      split at h
      · cases h
      · split at h
        · cases h
        · split at h
          · cases h
          · rename_i syms' r' hrec
            simp only [Except.ok.injEq, Prod.mk.injEq] at h
            obtain ⟨h1, h2⟩ := h
            subst h1; subst h2
            unfold writeSymbols at hw
            split at hw
            · cases hw
            · rename_i o ho
              split at hw
              · cases hw
              · rename_i os hos
                simp only [Except.ok.injEq] at hw
                subst hw
                rw [readSymbolRec_eq _ _ _ _ hread ho, ih _ _ _ _ hrec hos]
                simp

theorem byteStep_write (nbytes : Nat) (syms syms1 : List kkpm_symbol) (i : Nat) (b : kkpm_byte)
    (h : byteStep nbytes syms i b = .ok syms1) :
    syms1.map writeSymbol = syms.map writeSymbol := by
  unfold byteStep at h
  simp only [] at h
  split at h
  · split at h
    · cases h
    · rename_i sym hs
      split at h
      · simp only [Except.ok.injEq] at h; rw [← h]
      · split at h
        · cases h
        · simp only [Except.ok.injEq] at h
          rw [← h]
          apply List.ext_getElem?
          intro k
          simp only [List.getElem?_map]
          by_cases hk : (iw b.symbol).toNat = k
          · subst hk
            rw [List.getElem?_set_self (List.getElem?_eq_some_iff.1 hs).1, hs]
            rfl
          · rw [List.getElem?_set_ne hk]
  · simp only [Except.ok.injEq] at h; rw [← h]

theorem loadBytes_write (nbytes : Nat) (n : Nat) : ∀ (i : Nat) (syms : List kkpm_symbol) (s : Stream)
    (syms2 : List kkpm_symbol) (bytes : List kkpm_byte) (r : Stream),
    loadBytes nbytes n i syms s = .ok (syms2, bytes, r) →
    s = (bytes.map writeByte).flatten ++ r ∧ syms2.map writeSymbol = syms.map writeSymbol := by
  induction n with
  | zero =>
    intro i syms s syms2 bytes r h
    simp only [loadBytes, Except.ok.injEq, Prod.mk.injEq] at h
    obtain ⟨h1, h2, h3⟩ := h
    subst h1; subst h2; subst h3
    exact ⟨rfl, rfl⟩
  | succ n ih =>
    intro i syms s syms2 bytes r h
    unfold loadBytes at h
    split at h
    · cases h
    · rename_i byte s1 hread
      split at h
      · cases h
      · rename_i syms1 hstep
        split at h
        · cases h
        · split at h
          · cases h
          · rename_i syms2' bytes' r' hrec
            simp only [Except.ok.injEq, Prod.mk.injEq] at h
            obtain ⟨h1, h2, h3⟩ := h
            subst h1; subst h2; subst h3
            obtain ⟨hs, hm⟩ := ih _ _ _ _ _ _ hrec
            refine ⟨?_, by rw [hm, byteStep_write _ _ _ _ _ hstep]⟩
            rw [readByteRec_eq _ _ _ hread]
            conv => lhs; rw [hs]
            simp

theorem writeSymbols_congr : ∀ (l1 l2 : List kkpm_symbol), l1.map writeSymbol = l2.map writeSymbol →
    writeSymbols l1 = writeSymbols l2 := by
  intro l1
  induction l1 with
  | nil =>
    intro l2 h
    cases l2 with
    | nil => rfl
    | cons a l => simp at h
  | cons a l1 ih =>
    intro l2 h
    cases l2 with
    | nil => simp at h
    | cons b l2 =>
      simp only [List.map_cons, List.cons.injEq] at h
      unfold writeSymbols
      rw [h.1, ih l2 h.2]

theorem readHeader_eq (s : Stream) (magic : List Byte) (nbytes nsrcs : Nat) (r : Stream)
    (h : readHeader s = some (magic, nbytes, nsrcs, r)) :
    s = magic ++ write_u32 nbytes ++ write_u32 nsrcs ++ r := by
  unfold readHeader at h
  split at h
  · cases h
  rename_i mg s1 h1
  split at h
  · cases h
  rename_i nb s2 h2
  split at h
  · cases h
  rename_i ns s3 h3
  simp only [Option.some.injEq, Prod.mk.injEq] at h
  obtain ⟨hm, hb, hn, hr⟩ := h
  subst hm; subst hb; subst hn; subst hr
  rw [(readN_eq _ _ _ _ h1).1, readLE_eq _ _ _ _ h2, readLE_eq _ _ _ _ h3]
  simp [write_u32]

/-- C7 (as the code has it). Decode then encode: for a file that loads as
the only input with no byte left over, the output repeats the magic tag and
`nbytes`, then holds the merged sources table (its count and entries, with
regenerated sizes) in place of the file's source descriptors, and from the
symbol count to the end is the file's own bytes. -/
theorem C7_roundtrip_after_sources (fp : FloatOps) (junk : Nat → Nat → Nat) (x y : Stream)
    (d : Loaded)
    (hload : load initState.msrcs x = .ok d) (hrest : d.rest = [])
    (hrun : main fp junk [x] = .ok y) :
    ∃ nsrcs srcs tail,
      x = magicKK64 ++ write_u32 d.nbytes ++ write_u32 nsrcs ++ srcs ++ tail ∧
      loadSources nsrcs initState.msrcs (srcs ++ tail) = .ok (d.msrcs, d.srcmap, tail) ∧
      y = magicKK64 ++ write_u32 d.nbytes ++ write_u32 (regenerate fp d.msrcs d.bytes).length
        ++ ((regenerate fp d.msrcs d.bytes).map (writeSource fp)).flatten ++ tail := by
  obtain ⟨magic, nsrcs, s0, s1, nsyms, s2, syms, s3, hh, hmg, _, hsrc, hny, _, hsy, hby⟩ :=
    load_phases _ x d hload
  subst hmg
  obtain ⟨srcs, hsrcs⟩ := loadSources_consumes _ _ _ _ _ _ hsrc
  have hx := readHeader_eq _ _ _ _ _ hh
  have hs1 : s1 = write_u32 nsyms ++ s2 := readLE_eq _ _ _ _ hny
  obtain ⟨hsl, _⟩ := loadSyms_spec _ _ _ _ _ hsy
  obtain ⟨hbl, hlen, _⟩ := loadBytes_spec d.nbytes d.nbytes 0 syms s3 _ _ _ (by omega) hby
  obtain ⟨hs3, hmap⟩ := loadBytes_write _ _ _ _ _ _ _ _ hby
  rw [hrest, List.append_nil] at hs3
  refine ⟨nsrcs, srcs, s1, ?_, ?_, ?_⟩
  · rw [hx, hsrcs]; simp
  · rw [← hsrcs]; exact hsrc
  · simp only [main, List.length_singleton, Nat.lt_irrefl, if_false, mainLoop, processFile,
      hload, ne_eq, not_true_eq_false] at hrun
    unfold writeAll at hrun
    simp only [] at hrun
    split at hrun
    · cases hrun
    · rename_i out hout
      simp only [Except.ok.injEq] at hrun
      rw [writeSymbols_congr _ _ hmap] at hout
      have hs2 := loadSyms_write _ _ _ _ _ _ hsy hout
      rw [← hrun, hs1, hs2, hs3, hbl, hlen, hsl]
      simp

/-- C7 at the single file `c5Primary`. -/
theorem C7_roundtrip_after_sources_witness :
    ∃ nsrcs srcs tail,
      c5Primary = magicKK64 ++ write_u32 c5Loaded.nbytes ++ write_u32 nsrcs ++ srcs ++ tail ∧
      loadSources nsrcs initState.msrcs (srcs ++ tail)
        = .ok (c5Loaded.msrcs, c5Loaded.srcmap, tail) ∧
      c5Output = magicKK64 ++ write_u32 c5Loaded.nbytes
        ++ write_u32 (regenerate fpExample c5Loaded.msrcs c5Loaded.bytes).length
        ++ ((regenerate fpExample c5Loaded.msrcs c5Loaded.bytes).map
            (writeSource fpExample)).flatten ++ tail :=
  C7_roundtrip_after_sources fpExample (fun _ _ => 0) c5Primary c5Output c5Loaded
    (by decide) (by decide) (by decide)

/-- C7 as stated fails: the 16-byte document without source, symbol or byte
loads with nothing left over and is written as 36 bytes, whatever the
floating-point unit. -/
theorem C7_counterexample :
    load initState.msrcs c7Min = .ok ⟨[⟨noSourceName, 0, 0⟩], [], 0, [], [], []⟩ ∧
    main fpExample (fun _ _ => 0) [c7Min] = .ok c7MinOutput ∧
    c7Min.length = 16 ∧ c7MinOutput.length = 36 ∧
    ¬ ∃ fp junk y, main fp junk [c7Min] = .ok y ∧ y.length = c7Min.length := by
  refine ⟨by decide, by decide, by decide, by decide, ?_⟩
  rintro ⟨fp, junk, y, hy, hl⟩
  have e : main fp junk [c7Min] = .ok
      (magicKK64 ++ write_u32 0 ++ write_u32 1
        ++ (write_asciiz noSourceName ++ write_float (fp.dtof 0) ++ write_u32 0)
        ++ write_u32 0) := rfl
  rw [e] at hy
  simp only [Except.ok.injEq] at hy
  rw [← hy] at hl
  simp [magicKK64, write_u32, write_asciiz, write_float, leEncode, noSourceName, c7Min] at hl

theorem leDecode_lt (bs : List Byte) : leDecode bs < 256 ^ bs.length := by
  induction bs with
  | nil => simp [leDecode]
  | cons b bs ih =>
    simp only [leDecode, List.length_cons, pow_succ]
    have := b.isLt
    omega

theorem readLE_lt (n : Nat) (s r : Stream) (v : Nat) (h : readLE n s = some (v, r)) :
    v < 256 ^ n := by
  unfold readLE at h
  split at h
  · cases h
  · rename_i bs r1 hread
    simp only [Option.some.injEq, Prod.mk.injEq] at h
    rw [← h.1, ← (readN_eq _ _ _ _ hread).2]
    exact leDecode_lt bs

theorem readSymbolRec_source_file_lt (s r : Stream) (sym : kkpm_symbol)
    (h : readSymbolRec s = some (sym, r)) :
    sym.source_file < 4294967296 ∧ sym.position < 4294967296 := by
  unfold readSymbolRec at h
  split at h
  · cases h
  split at h
  · cases h
  split at h
  · cases h
  split at h
  · cases h
  split at h
  · cases h
  rename_i sf s5 h5
  split at h
  · cases h
  rename_i ps s6 h6
  simp only [Option.some.injEq, Prod.mk.injEq] at h
  rw [← h.1]
  exact ⟨readLE_lt 4 _ _ _ h5, readLE_lt 4 _ _ _ h6⟩

theorem toInt32_le_iff (v : Nat) (hv : v < 4294967296) :
    ¬ (0xFFFF < toInt32 v) ↔ (v ≤ 0xFFFF ∨ 2147483648 ≤ v) := by
  unfold toInt32
  have h1 : v % 4294967296 = v := Nat.mod_eq_of_lt hv
  rw [h1]
  split <;> omega

theorem loadSyms_source_file (nbytes : Nat) (n : Nat) : ∀ (s : Stream) (syms : List kkpm_symbol)
    (r : Stream), loadSyms nbytes n s = .ok (syms, r) →
    ∀ sym, sym ∈ syms → (sym.source_file ≤ 0xFFFF ∨ 2147483648 ≤ sym.source_file) ∧
      sym.source_file < 4294967296 := by
  induction n with
  | zero =>
    intro s syms r h
    simp only [loadSyms, Except.ok.injEq, Prod.mk.injEq] at h
    rw [← h.1]; simp
  | succ n ih =>
    intro s syms r h
    unfold loadSyms at h
    split at h
    · cases h
    · rename_i sym s1 hread
      split at h
      · cases h
      · rename_i hsf
        split at h
        · cases h
        · split at h
          · cases h
          · rename_i syms1 r1 hrec
            simp only [Except.ok.injEq, Prod.mk.injEq] at h
            rw [← h.1]
            intro x hx
            rcases List.mem_cons.1 hx with hx | hx
            · rw [hx]
              have hlt := (readSymbolRec_source_file_lt _ _ _ hread).1
              exact ⟨(toInt32_le_iff _ hlt).1 hsf, hlt⟩
            · exact ih _ _ _ hrec x hx

/-- C11 as stated fails: symbol records with `source_file` `0xFFFFFFFF` and
`0x80000000` are accepted. -/
theorem C11_counterexample :
    load initState.msrcs c11File = .ok c11Loaded ∧
      c11Loaded.syms.map kkpm_symbol.source_file = [0xFFFFFFFF, 0x80000000] := by
  refine ⟨by decide, by decide⟩

theorem mainLoop_append (junk : Nat → Nat → Nat) (pre : List Stream) : ∀ (rest : List Stream)
    (i : Nat) (st0 : MainState),
    mainLoop junk (pre ++ rest) i st0 =
      match mainLoop junk pre i st0 with
      | .error e => .error e
      | .ok st => mainLoop junk rest (i + pre.length) st := by
  induction pre with
  | nil => intro rest i st0; simp [mainLoop]
  | cons f fs ih =>
    intro rest i st0
    simp only [List.cons_append, mainLoop, List.length_cons]
    cases processFile (junk i) i st0 f with
    | error e => rfl
    | ok st1 =>
      simp only []
      have e : i + 1 + fs.length = i + (fs.length + 1) := by omega
      have := ih rest (i + 1) st1
      rw [e] at this
      exact this

theorem load_bad_magic (m : List kkpm_source) (x : Stream) (hlen : 12 ≤ x.length)
    (hmagic : x.take 4 ≠ magicKK64) : load m x = .error .MalformedHeader := by
  unfold load readHeader
  have h1 : readN 4 x = some (x.take 4, x.drop 4) := by
    unfold readN; rw [if_pos (by omega)]
  have h2 : read_u32 (x.drop 4) = some (leDecode ((x.drop 4).take 4), (x.drop 4).drop 4) := by
    unfold read_u32 readLE readN; rw [if_pos (by simp; omega)]
  have h3 : read_u32 ((x.drop 4).drop 4)
      = some (leDecode (((x.drop 4).drop 4).take 4), ((x.drop 4).drop 4).drop 4) := by
    unfold read_u32 readLE readN; rw [if_pos (by simp; omega)]
  rw [h1]
  simp only []
  rw [h2]
  simp only []
  rw [h3]
  simp only []
  rw [if_pos hmagic]

theorem load_short (m : List kkpm_source) (x : Stream) (hlen : x.length < 12) :
    load m x = .error .Truncated := by
  have hh : readHeader x = none := by
    unfold readHeader
    by_cases h4 : 4 ≤ x.length
    · have h1 : readN 4 x = some (x.take 4, x.drop 4) := by
        unfold readN; rw [if_pos h4]
      rw [h1]
      simp only []
      by_cases h8 : 8 ≤ x.length
      · have h2 : read_u32 (x.drop 4)
            = some (leDecode ((x.drop 4).take 4), (x.drop 4).drop 4) := by
          unfold read_u32 readLE readN; rw [if_pos (by simp; omega)]
        have h3 : read_u32 ((x.drop 4).drop 4) = none := by
          unfold read_u32 readLE readN; rw [if_neg (by simp; omega)]
        rw [h2]
        simp only []
        rw [h3]
      · have h2 : read_u32 (x.drop 4) = none := by
          unfold read_u32 readLE readN; rw [if_neg (by simp; omega)]
        rw [h2]
    · have h1 : readN 4 x = none := by
        unfold readN; rw [if_neg h4]
      rw [h1]
  unfold load
  rw [hh]

/-- C12 (as the code has it). The end-of-file test of line 105 comes before
the magic test of line 106: a file of at least 12 octets whose first four
are not `KK64` makes `load` fail with `MalformedHeader`, and the run, in
which the files before it were processed, ends with that error and writes
nothing; a file shorter than 12 octets fails with `Truncated`. -/
theorem C12_bad_magic (fp : FloatOps) (junk : Nat → Nat → Nat) (pre : List Stream) (x : Stream)
    (post : List Stream) (st : MainState)
    (hpre : mainLoop junk pre 0 initState = .ok st)
    (hlen : 12 ≤ x.length) (hmagic : x.take 4 ≠ magicKK64) :
    load st.msrcs x = .error .MalformedHeader ∧
      main fp junk (pre ++ x :: post) = .error .MalformedHeader ∧
      (∀ (m : List kkpm_source) (y : Stream), y.length < 12 → load m y = .error .Truncated) := by
  have hl := load_bad_magic st.msrcs x hlen hmagic
  refine ⟨hl, ?_, load_short⟩
  unfold main
  rw [if_neg (by simp)]
  rw [mainLoop_append, hpre]
  simp only [mainLoop, processFile, hl]

/-- C12 at the twelve octets `c12File` as the second file after `c7Min`. -/
theorem C12_bad_magic_witness :
    load initState.msrcs c12File = .error .MalformedHeader ∧
      main fpExample (fun _ _ => 0) ([c7Min] ++ c12File :: []) = .error .MalformedHeader ∧
      (∀ (m : List kkpm_source) (y : Stream), y.length < 12 → load m y = .error .Truncated) :=
  C12_bad_magic fpExample (fun _ _ => 0) [c7Min] c12File [] initState (by decide) (by decide)
    (by decide)

/-- C12 as stated fails: four octets that are not `KK64`, followed by
nothing, end in `Truncated`. -/
theorem C12_counterexample :
    4 ≤ c12Short.length ∧ c12Short.take 4 ≠ magicKK64 ∧
      load initState.msrcs c12Short = .error .Truncated ∧
      main fpExample (fun _ _ => 0) [c12Short] = .error .Truncated := by
  refine ⟨by decide, by decide, by decide, by decide⟩

theorem read_asciiz_loop_ok (s : List Byte) : ∀ (k : Nat) (buf : List Byte) (r : Stream),
    (∀ b, b ∈ s → b ≠ 0) → s.length < k →
    read_asciiz_loop k buf (s ++ 0 :: r) = some (some (buf ++ s), r) := by
  induction s with
  | nil =>
    intro k buf r _ hk
    cases k with
    | zero => omega
    | succ k => simp [read_asciiz_loop]
  | cons c s ih =>
    intro k buf r hnz hk
    cases k with
    | zero => simp at hk
    | succ k =>
      have hc : c ≠ 0 := hnz c (List.mem_cons_self _ _)
      simp only [List.cons_append, read_asciiz_loop, hc, if_false]
      have := ih k (buf ++ [c]) r (fun b hb => hnz b (List.mem_cons_of_mem _ hb))
        (by simp at hk; omega)
      simpa using this

theorem read_asciiz_loop_fail (k : Nat) : ∀ (buf : List Byte) (x : Stream),
    (∀ b, b ∈ x.take k → b ≠ 0) →
    read_asciiz_loop k buf x = if k ≤ x.length then some (none, x.drop k) else none := by
  induction k with
  | zero => intro buf x _; simp [read_asciiz_loop]
  | succ k ih =>
    intro buf x hnz
    cases x with
    | nil => simp [read_asciiz_loop]
    | cons c x =>
      have hc : c ≠ 0 := hnz c (by simp)
      simp only [read_asciiz_loop, hc, if_false, List.length_cons, List.drop_succ_cons,
        Nat.add_le_add_iff_right]
      exact ih _ x (fun b hb => hnz b (by simp [hb]))

/-- C18. String codec: `write_asciiz` emits the characters and one zero;
reading a string of at most 1023 non-zero characters followed by the zero
returns it and leaves what follows; a stream whose first 1024 octets hold no
zero gives no string (the null pointer after 1024 octets, or end of file
before that), so reading undoes writing. -/
theorem C18_string_codec (s : List Byte) (r x : Stream) :
    write_asciiz s = s ++ [0] ∧
    ((0 : Byte) ∉ s → s.length ≤ 1023 →
      read_asciiz (s ++ [0] ++ r) = some (some s, r) ∧
      read_asciiz (write_asciiz s ++ r) = some (some s, r)) ∧
    ((0 : Byte) ∉ x.take 1024 →
      read_asciiz x = (if 1024 ≤ x.length then some (none, x.drop 1024) else none) ∧
      ∀ (v : List Byte) (t : Stream), read_asciiz x ≠ some (some v, t)) := by
  refine ⟨rfl, ?_, ?_⟩
  · intro hnz hlen
    have h := read_asciiz_loop_ok s 1024 [] r (fun b hb e => hnz (e ▸ hb)) (by omega)
    simp only [List.nil_append] at h
    have e : s ++ [0] ++ r = s ++ 0 :: r := by simp
    exact ⟨by rw [e]; exact h, by unfold write_asciiz; rw [e]; exact h⟩
  · intro hnz
    have h := read_asciiz_loop_fail 1024 [] x (fun b hb e => hnz (e ▸ hb))
    refine ⟨h, ?_⟩
    intro v t hv
    unfold read_asciiz at hv
    rw [h] at hv
    split at hv <;> simp at hv

/-- C18 at the string `<no source>` followed by `KK64`, and at a stream of
four non-zero octets. -/
theorem C18_string_codec_witness :
    (read_asciiz (noSourceName ++ [0] ++ magicKK64) = some (some noSourceName, magicKK64) ∧
      read_asciiz (write_asciiz noSourceName ++ magicKK64)
        = some (some noSourceName, magicKK64)) ∧
    (read_asciiz magicKK64
        = (if 1024 ≤ magicKK64.length then some (none, magicKK64.drop 1024) else none) ∧
      ∀ (v : List Byte) (t : Stream), read_asciiz magicKK64 ≠ some (some v, t)) := by
  have h1 : (0 : Byte) ∉ noSourceName := by decide
  have h2 : noSourceName.length ≤ 1023 := by simp [noSourceName]
  have h3 : (0 : Byte) ∉ magicKK64.take 1024 := by decide
  exact ⟨(C18_string_codec noSourceName magicKK64 magicKK64).2.1 h1 h2,
    (C18_string_codec noSourceName magicKK64 magicKK64).2.2 h3⟩

theorem load_empty_doc (m : List kkpm_source) (t : Stream) :
    load m (c7Min ++ t) = .ok ⟨m, [], 0, [], [], t⟩ := by
  have e : c7Min ++ t = 75 :: 75 :: 54 :: 52 :: 0 :: 0 :: 0 :: 0 :: 0 :: 0 :: 0 :: 0 ::
      0 :: 0 :: 0 :: 0 :: t := rfl
  rw [e]
  have hh : readHeader (75 :: 75 :: 54 :: 52 :: 0 :: 0 :: 0 :: 0 :: 0 :: 0 :: 0 :: 0 ::
      0 :: 0 :: 0 :: 0 :: t) = some (magicKK64, 0, 0, 0 :: 0 :: 0 :: 0 :: t) := by
    simp [readHeader, readN, read_u32, readLE, leDecode, magicKK64]
  have h2 : read_u32 (0 :: 0 :: 0 :: 0 :: t) = some (0, t) := by
    simp [readN, read_u32, readLE, leDecode]
  unfold load
  rw [hh]
  simp only [ne_eq, not_true_eq_false, if_false, loadSources, h2, loadSyms, loadBytes]
  rfl

/-- C17. Empty reference is a no-op: a file that declares no byte, no source
and no symbol (whatever follows its 16 octets) loads against any merged
sources table without changing it, processing it as a reference leaves the
state of `main` as it was, and a run with such a file appended to the
command line writes what the run without it writes. -/
theorem C17_empty_reference (fp : FloatOps) (junk : Nat → Nat → Nat) (files : List Stream)
    (t : Stream) (hne : files ≠ []) :
    (∀ (m : List kkpm_source), load m (c7Min ++ t) = .ok ⟨m, [], 0, [], [], t⟩) ∧
    (∀ (j : Nat → Nat) (i : Nat) (st : MainState), i ≠ 0 →
      processFile j i st (c7Min ++ t) = .ok st) ∧
    main fp junk (files ++ [c7Min ++ t]) = main fp junk files := by
  have hproc : ∀ (j : Nat → Nat) (i : Nat) (st : MainState), i ≠ 0 →
      processFile j i st (c7Min ++ t) = .ok st := by
    intro j i st hi
    unfold processFile
    rw [load_empty_doc]
    simp only [ne_eq, hi, not_false_eq_true, if_true, mergeSyms]
  refine ⟨fun m => load_empty_doc m t, hproc, ?_⟩
  have hlen : 0 < files.length := List.length_pos.2 hne
  unfold main
  rw [if_neg (by simp), if_neg (by omega), mainLoop_append]
  cases mainLoop junk files 0 initState with
  | error e => rfl
  | ok st =>
    simp only [mainLoop]
    rw [hproc _ _ st (by omega)]

/-- C17 at the primary `c5Primary` with the 16-octet empty document appended. -/
theorem C17_empty_reference_witness :
    (∀ (m : List kkpm_source), load m (c7Min ++ []) = .ok ⟨m, [], 0, [], [], []⟩) ∧
    (∀ (j : Nat → Nat) (i : Nat) (st : MainState), i ≠ 0 →
      processFile j i st (c7Min ++ []) = .ok st) ∧
    main fpExample (fun _ _ => 0) ([c5Primary] ++ [c7Min ++ []])
      = main fpExample (fun _ _ => 0) [c5Primary] :=
  C17_empty_reference fpExample (fun _ _ => 0) [c5Primary] [] (by decide)

theorem findSource_lt_of_prefix (m t : List kkpm_source) (nm : List Byte)
    (h : findSource m nm < m.length) : findSource (m ++ t) nm = findSource m nm := by
  unfold findSource at h ⊢
  rw [List.findIdx_append, if_pos h]

theorem findSource_new (m : List kkpm_source) (nm : List Byte) (p u : Nat)
    (h : findSource m nm = m.length) : findSource (m ++ [⟨nm, p, u⟩]) nm = m.length := by
  unfold findSource at h ⊢
  rw [List.findIdx_append, if_neg (by omega)]
  simp [List.findIdx_cons]

theorem findSource_name (m : List kkpm_source) (nm : List Byte) (h : findSource m nm < m.length) :
    ∃ e, m[findSource m nm]? = some e ∧ e.name = nm := by
  refine ⟨m[findSource m nm], List.getElem?_eq_getElem h, ?_⟩
  unfold findSource at h
  have := @List.findIdx_getElem _ (fun x : kkpm_source => decide (x.name = nm)) m h
  simpa [findSource] using this

theorem findSource_not_mem (m : List kkpm_source) (nm : List Byte)
    (h : findSource m nm = m.length) : nm ∉ m.map kkpm_source.name := by
  unfold findSource at h
  rw [List.findIdx_eq_length] at h
  intro hmem
  obtain ⟨x, hx, hn⟩ := List.mem_map.1 hmem
  have := h x hx
  simp [hn] at this

/-- What the source loop does to the merged sources table and to `srcmap`. -/
theorem loadSources_spec (n : Nat) : ∀ (m : List kkpm_source) (s : Stream) (m1 : List kkpm_source)
    (srcmap : List Nat) (r : Stream), loadSources n m s = .ok (m1, srcmap, r) →
    (∃ t, m1 = m ++ t) ∧
    (m.length ≤ msrcsmax → m1.length ≤ msrcsmax) ∧
    ((m.map kkpm_source.name).Nodup → (m1.map kkpm_source.name).Nodup) ∧
    ∃ names, readSourceNames n s = some (names, r) ∧ names.length = n ∧
      srcmap = names.map (fun nm => findSource m1 nm % 65536) ∧
      ∀ nm, nm ∈ names → findSource m1 nm < m1.length := by
  induction n with
  | zero =>
    intro m s m1 srcmap r h
    simp only [loadSources, Except.ok.injEq, Prod.mk.injEq] at h
    obtain ⟨h1, h2, h3⟩ := h
    subst h1; subst h2; subst h3
    exact ⟨⟨[], by simp⟩, id, id, [], rfl, rfl, rfl, by simp⟩
  | succ n ih =>
    intro m s m1 srcmap r h
    unfold loadSources at h
    split at h
    · cases h
    · cases h
    · rename_i name s1 hread
      simp only [] at h
      split at h
      · rename_i hnew
        split at h
        · cases h
        · rename_i hcap
          split at h
          · cases h
          · rename_i m2 srcmap2 r2 hrec
            simp only [Except.ok.injEq, Prod.mk.injEq] at h
            obtain ⟨h1, h2, h3⟩ := h
            subst h1; subst h2; subst h3
            obtain ⟨⟨t, ht⟩, hlen, hnd, names, hnames, hnl, hmap, hlt⟩ := ih _ _ _ _ _ hrec
            have hfs : findSource m2 name = m.length := by
              rw [ht, findSource_lt_of_prefix _ _ _ (by
                rw [findSource_new _ _ _ _ hnew]; simp)]
              exact findSource_new _ _ _ _ hnew
            have hm2 : m.length < m2.length := by rw [ht]; simp
            refine ⟨⟨⟨name, 0, 0⟩ :: t, by rw [ht]; simp⟩, ?_, ?_, name :: names, ?_, ?_, ?_, ?_⟩
            · intro hc
              apply hlen
              simp only [List.length_append, List.length_singleton]
              omega
            · intro hn
              apply hnd
              rw [List.map_append, List.nodup_append]
              refine ⟨hn, by simp, ?_⟩
              intro a ha hb
              simp only [List.map_cons, List.map_nil, List.mem_singleton] at hb
              rw [hb] at ha
              exact findSource_not_mem m name hnew ha
            · simp only [readSourceNames, hread, hnames]
            · simp [hnl]
            · simp only [List.map_cons, hfs, hmap, hnew]
            · intro nm hnm
              rcases List.mem_cons.1 hnm with e | e
              · rw [e, hfs]; exact hm2
              · exact hlt nm e
      · rename_i hold
        split at h
        · cases h
        · rename_i m2 srcmap2 r2 hrec
          simp only [Except.ok.injEq, Prod.mk.injEq] at h
          obtain ⟨h1, h2, h3⟩ := h
          subst h1; subst h2; subst h3
          obtain ⟨⟨t, ht⟩, hlen, hnd, names, hnames, hnl, hmap, hlt⟩ := ih _ _ _ _ _ hrec
          have hfound : findSource m name < m.length := by
            have := @List.findIdx_le_length _ (fun x : kkpm_source => decide (x.name = name)) m
            unfold findSource at hold ⊢
            omega
          have hfs : findSource m2 name = findSource m name := by
            rw [ht]; exact findSource_lt_of_prefix _ _ _ hfound
          refine ⟨⟨t, ht⟩, hlen, hnd, name :: names, ?_, ?_, ?_, ?_⟩
          · simp only [readSourceNames, hread, hnames]
          · simp [hnl]
          · simp only [List.map_cons, hfs, hmap]
          · intro nm hnm
            rcases List.mem_cons.1 hnm with e | e
            · rw [e, hfs, ht]; simp; omega
            · exact hlt nm e

theorem load_registry (m : List kkpm_source) (f : Stream) (d : Loaded) (h : load m f = .ok d) :
    (∃ t, d.msrcs = m ++ t) ∧ (m.length ≤ msrcsmax → d.msrcs.length ≤ msrcsmax) ∧
    ((m.map kkpm_source.name).Nodup → (d.msrcs.map kkpm_source.name).Nodup) := by
  obtain ⟨_, _, _, _, _, _, _, _, _, _, _, hsrc, _⟩ := load_phases m f d h
  obtain ⟨h1, h2, h3, _⟩ := loadSources_spec _ _ _ _ _ _ hsrc
  exact ⟨h1, h2, h3⟩

theorem processFile_msrcs (j : Nat → Nat) (i : Nat) (st st1 : MainState) (f : Stream)
    (h : processFile j i st f = .ok st1) : ∃ d, load st.msrcs f = .ok d ∧ st1.msrcs = d.msrcs := by
  unfold processFile at h
  split at h
  · cases h
  · rename_i d hd
    refine ⟨d, hd, ?_⟩
    split at h
    · split at h
      · cases h
      · simp only [Except.ok.injEq] at h; rw [← h]
    · simp only [Except.ok.injEq] at h; rw [← h]

theorem mainLoop_registry (junk : Nat → Nat → Nat) (files : List Stream) :
    ∀ (i : Nat) (st st1 : MainState), mainLoop junk files i st = .ok st1 →
    (∃ t, st1.msrcs = st.msrcs ++ t) ∧
    (st.msrcs.length ≤ msrcsmax → st1.msrcs.length ≤ msrcsmax) ∧
    ((st.msrcs.map kkpm_source.name).Nodup → (st1.msrcs.map kkpm_source.name).Nodup) := by
  induction files with
  | nil =>
    intro i st st1 h
    simp only [mainLoop, Except.ok.injEq] at h
    subst h
    exact ⟨⟨[], by simp⟩, id, id⟩
  | cons f fs ih =>
    intro i st st1 h
    unfold mainLoop at h
    split at h
    · cases h
    · rename_i st2 hst2
      obtain ⟨d, hd, hm⟩ := processFile_msrcs _ _ _ _ _ hst2
      obtain ⟨⟨t1, ht1⟩, hl1, hn1⟩ := load_registry _ _ _ hd
      obtain ⟨⟨t2, ht2⟩, hl2, hn2⟩ := ih _ _ _ h
      rw [hm] at ht2 hl2 hn2
      exact ⟨⟨t1 ++ t2, by rw [ht2, ht1]; simp⟩, fun hc => hl2 (hl1 hc), fun hn => hn2 (hn1 hn)⟩

/-- C14. Source Registry invariant: after the file loop has processed any
files, entry 0 of the merged sources table is `<no source>` with zero sizes,
the names of the table are pairwise distinct, the table has at most
`msrcsmax` entries, and loading a further document only appends to it. -/
theorem C14_registry_invariant (junk : Nat → Nat → Nat) (files : List Stream) (st : MainState)
    (hrun : mainLoop junk files 0 initState = .ok st) :
    st.msrcs[0]? = some ⟨noSourceName, 0, 0⟩ ∧
    (st.msrcs.map kkpm_source.name).Nodup ∧
    st.msrcs.length ≤ msrcsmax ∧
    (∀ (f : Stream) (d : Loaded), load st.msrcs f = .ok d → ∃ t, d.msrcs = st.msrcs ++ t) ∧
    (∀ (more : List Stream) (st1 : MainState),
      mainLoop junk (files ++ more) 0 initState = .ok st1 → ∃ t, st1.msrcs = st.msrcs ++ t) := by
  obtain ⟨⟨t, ht⟩, hl, hn⟩ := mainLoop_registry junk files 0 initState st hrun
  refine ⟨?_, hn (by simp [initState]), hl (by simp [initState, msrcsmax]), ?_, ?_⟩
  · rw [ht]; simp [initState]
  · intro f d hd
    exact (load_registry _ _ _ hd).1
  · intro more st1 h1
    rw [mainLoop_append, hrun] at h1
    exact (mainLoop_registry junk more _ st st1 h1).1

/-- C14 at the files `cxPrimary`, `cxRef`. -/
theorem C14_registry_invariant_witness :
    cxFinal.msrcs[0]? = some ⟨noSourceName, 0, 0⟩ ∧
    (cxFinal.msrcs.map kkpm_source.name).Nodup ∧
    cxFinal.msrcs.length ≤ msrcsmax ∧
    (∀ (f : Stream) (d : Loaded), load cxFinal.msrcs f = .ok d →
      ∃ t, d.msrcs = cxFinal.msrcs ++ t) ∧
    (∀ (more : List Stream) (st1 : MainState),
      mainLoop (fun _ _ => 0) ([cxPrimary, cxRef] ++ more) 0 initState = .ok st1 →
      ∃ t, st1.msrcs = cxFinal.msrcs ++ t) :=
  C14_registry_invariant (fun _ _ => 0) [cxPrimary, cxRef] cxFinal (by decide)

/-- C15. Local-to-global remap: for a document loaded against a merged
sources table within its capacity, `srcmap` has one entry per local source,
each entry is an index into the table after the load, the table entry there
has the name of that local source, and two local sources get the same entry
exactly when their names are equal. -/
theorem C15_remap_correct (msrcs : List kkpm_source) (f : Stream) (d : Loaded)
    (hload : load msrcs f = .ok d) (hcap : msrcs.length ≤ msrcsmax) :
    ∃ magic nsrcs s0 names r,
      readHeader f = some (magic, d.nbytes, nsrcs, s0) ∧
      readSourceNames nsrcs s0 = some (names, r) ∧
      names.length = nsrcs ∧ d.srcmap.length = nsrcs ∧
      (∀ (i : Nat) (nm : List Byte), names[i]? = some nm →
        ∃ g e, d.srcmap[i]? = some g ∧ d.msrcs[g]? = some e ∧ e.name = nm) ∧
      (∀ (i j : Nat) (ni nj : List Byte) (gi gj : Nat), names[i]? = some ni →
        names[j]? = some nj → d.srcmap[i]? = some gi → d.srcmap[j]? = some gj →
        (gi = gj ↔ ni = nj)) := by
  obtain ⟨magic, nsrcs, s0, s1, nsyms, s2, syms, s3, hh, _, _, hsrc, _⟩ :=
    load_phases msrcs f d hload
  obtain ⟨_, hlen, _, names, hnames, hnl, hmap, hlt⟩ := loadSources_spec _ _ _ _ _ _ hsrc
  have hcap1 := hlen hcap
  have hget : ∀ (i : Nat) (nm : List Byte), names[i]? = some nm →
      d.srcmap[i]? = some (findSource d.msrcs nm) ∧ findSource d.msrcs nm < d.msrcs.length := by
    intro i nm hi
    have hl := hlt nm (List.getElem?_mem hi)
    refine ⟨?_, hl⟩
    rw [hmap, List.getElem?_map, hi]
    simp only [Option.map_some', Option.some.injEq]
    apply Nat.mod_eq_of_lt
    unfold msrcsmax at hcap1
    omega
  refine ⟨magic, nsrcs, s0, names, s1, hh, hnames, hnl, by rw [hmap]; simp [hnl], ?_, ?_⟩
  · intro i nm hi
    obtain ⟨h1, h2⟩ := hget i nm hi
    obtain ⟨e, he, hn⟩ := findSource_name _ _ h2
    exact ⟨_, e, h1, he, hn⟩
  · intro i j ni nj gi gj hi hj hgi hgj
    obtain ⟨h1, h2⟩ := hget i ni hi
    obtain ⟨h3, h4⟩ := hget j nj hj
    rw [h1] at hgi
    rw [h3] at hgj
    cases hgi
    cases hgj
    constructor
    · intro he
      obtain ⟨e1, he1, hn1⟩ := findSource_name _ _ h2
      obtain ⟨e2, he2, hn2⟩ := findSource_name _ _ h4
      rw [he, he2] at he1
      cases he1
      rw [← hn1, ← hn2]
    · intro he
      rw [he]

/-- C15 at `c15File`, whose sources are `a`, `b`, `a`. -/
theorem C15_remap_correct_witness :
    ∃ magic nsrcs s0 names r,
      readHeader c15File = some (magic, c15Loaded.nbytes, nsrcs, s0) ∧
      readSourceNames nsrcs s0 = some (names, r) ∧
      names.length = nsrcs ∧ c15Loaded.srcmap.length = nsrcs ∧
      (∀ (i : Nat) (nm : List Byte), names[i]? = some nm →
        ∃ g e, c15Loaded.srcmap[i]? = some g ∧ c15Loaded.msrcs[g]? = some e ∧ e.name = nm) ∧
      (∀ (i j : Nat) (ni nj : List Byte) (gi gj : Nat), names[i]? = some ni →
        names[j]? = some nj → c15Loaded.srcmap[i]? = some gi →
        c15Loaded.srcmap[j]? = some gj → (gi = gj ↔ ni = nj)) :=
  C15_remap_correct initState.msrcs c15File c15Loaded (by decide) (by decide)

/-- C16 (the code at the failing input). The only byte of `c16File` names
symbol 5 of a document without symbols; the size update indexes `syms[5]`
with no test against `nsyms`, outside the allocation. -/
theorem C16_unchecked_symbol_index :
    load initState.msrcs c16File = .error .Undefined ∧
      readByteRecs 1 (c16File.drop 16) = some ([⟨0, 0xFFFF, 0xFFFF, 5, 0⟩], []) ∧
      byteStep 1 [] 0 ⟨0, 0xFFFF, 0xFFFF, 5, 0⟩ = .error .Undefined := by
  refine ⟨by decide, by decide, by decide⟩

theorem byteStep_range (nbytes bound : Nat) (syms syms1 : List kkpm_symbol) (i : Nat)
    (b : kkpm_byte) (hi : i < 2147483648) (hib : i + 1 ≤ bound)
    (h : byteStep nbytes syms i b = .ok syms1)
    (hinv : ∀ sym, sym ∈ syms → sym.size = 0 ∨ sym.position + sym.size ≤ bound) :
    ∀ sym, sym ∈ syms1 → sym.size = 0 ∨ sym.position + sym.size ≤ bound := by
  unfold byteStep at h
  simp only [] at h
  split at h
  · split at h
    · cases h
    · rename_i s0 hs0
      split at h
      · simp only [Except.ok.injEq] at h; rw [← h]; exact hinv
      · split at h
        · cases h
        · rename_i hle
          simp only [Except.ok.injEq] at h
          rw [← h]
          intro sym hsym
          rcases List.mem_or_eq_of_mem_set hsym with hm | he
          · exact hinv sym hm
          · right
            rw [he]
            simp only []
            omega
  · simp only [Except.ok.injEq] at h; rw [← h]; exact hinv

theorem loadBytes_range (nbytes bound : Nat) (n : Nat) : ∀ (i : Nat) (syms : List kkpm_symbol)
    (s : Stream) (syms2 : List kkpm_symbol) (bytes : List kkpm_byte) (r : Stream),
    i < 2147483648 → i + n ≤ bound → loadBytes nbytes n i syms s = .ok (syms2, bytes, r) →
    (∀ sym, sym ∈ syms → sym.size = 0 ∨ sym.position + sym.size ≤ bound) →
    (∀ sym, sym ∈ syms2 → sym.size = 0 ∨ sym.position + sym.size ≤ bound) ∧
      i + n < 2147483648 := by
  induction n with
  | zero =>
    intro i syms s syms2 bytes r hi _ h hinv
    simp only [loadBytes, Except.ok.injEq, Prod.mk.injEq] at h
    rw [← h.1]
    exact ⟨hinv, by omega⟩
  | succ n ih =>
    intro i syms s syms2 bytes r hi hb h hinv
    unfold loadBytes at h
    split at h
    · cases h
    · rename_i byte s1 _
      split at h
      · cases h
      · rename_i syms1 hstep
        split at h
        · cases h
        · rename_i hguard
          split at h
          · cases h
          · rename_i syms2a bytes1 r1 hrec
            simp only [Except.ok.injEq, Prod.mk.injEq] at h
            rw [← h.1]
            have h1 := byteStep_range nbytes bound syms syms1 i byte hi (by omega) hstep hinv
            obtain ⟨h2, h3⟩ := ih (i + 1) syms1 s1 _ _ _ (by omega) (by omega) hrec h1
            exact ⟨h2, by omega⟩

theorem load_ranges (m : List kkpm_source) (f : Stream) (d : Loaded) (h : load m f = .ok d) :
    d.bytes.length = d.nbytes ∧ d.nbytes < 2147483648 ∧
      ∀ sym, sym ∈ d.syms → sym.size = 0 ∨ sym.position + sym.size ≤ d.nbytes := by
  obtain ⟨magic, nsrcs, s0, s1, nsyms, s2, syms, s3, _, _, _, _, _, _, hsyms, hbytes⟩ :=
    load_phases m f d h
  obtain ⟨_, hsz⟩ := loadSyms_spec _ _ _ _ _ hsyms
  obtain ⟨hbl, _, _⟩ := loadBytes_spec d.nbytes d.nbytes 0 syms s3 _ _ _ (by omega) hbytes
  obtain ⟨h1, h2⟩ := loadBytes_range d.nbytes d.nbytes d.nbytes 0 syms s3 _ _ _ (by omega)
    (by omega) hbytes (fun sym hs => Or.inl (hsz sym hs))
  exact ⟨hbl, by omega, h1⟩

theorem mainLoop_ranges (junk : Nat → Nat → Nat) (files : List Stream) (st : MainState)
    (h : mainLoop junk files 0 initState = .ok st) :
    st.mbytes.length < 2147483648 ∧
      ∀ sym, sym ∈ st.msyms → sym.size = 0 ∨ sym.position + sym.size ≤ st.mbytes.length := by
  cases files with
  | nil =>
    simp only [mainLoop, Except.ok.injEq] at h
    rw [← h]
    simp [initState]
  | cons f fs =>
    unfold mainLoop at h
    split at h
    · cases h
    · rename_i st1 hst1
      unfold processFile at hst1
      split at hst1
      · cases hst1
      · rename_i d hd
        simp only [ne_eq, not_true_eq_false, if_false, Except.ok.injEq] at hst1
        obtain ⟨h1, h2, h3⟩ := load_ranges _ _ _ hd
        obtain ⟨h4, _, h6⟩ := mainLoop_inv (fun _ _ => True) junk (fun _ _ _ _ _ => trivial) fs 1
          st1 st (by omega) (fun _ _ _ => trivial) h
        rw [h6, h4, ← hst1]
        simp only []
        rw [h1]
        exact ⟨h2, h3⟩

/-- C19. Symbol ranges stay inside the trace: a loaded document has `nbytes`
byte records, fewer than `2^31`, and each of its symbols has size 0 or ends
at or before `nbytes`; the same holds of the merged symbols and the merged
trace after any files; hence for a merged symbol `m`, a symbol `s` of the
document and `k` below the smaller of their sizes, `m.position + k` and
`s.position + k` index the merged and the document's trace, and neither sum
wraps around `2^32`. -/
theorem C19_symbol_ranges (junk : Nat → Nat → Nat) (files : List Stream) (st : MainState)
    (msrcs : List kkpm_source) (f : Stream) (d : Loaded)
    (hrun : mainLoop junk files 0 initState = .ok st) (hload : load msrcs f = .ok d) :
    (d.bytes.length = d.nbytes ∧ d.nbytes < 2147483648 ∧
      ∀ s, s ∈ d.syms → s.size = 0 ∨ s.position + s.size ≤ d.nbytes) ∧
    (st.mbytes.length < 2147483648 ∧
      ∀ m, m ∈ st.msyms → m.size = 0 ∨ m.position + m.size ≤ st.mbytes.length) ∧
    (∀ m, m ∈ st.msyms → ∀ s, s ∈ d.syms → ∀ k, k < min m.size s.size →
      m.position + k < st.mbytes.length ∧ s.position + k < d.bytes.length ∧
      (m.position + k) % 4294967296 = m.position + k ∧
      (s.position + k) % 4294967296 = s.position + k) := by
  obtain ⟨h1, h2, h3⟩ := load_ranges _ _ _ hload
  obtain ⟨h4, h5⟩ := mainLoop_ranges _ _ _ hrun
  refine ⟨⟨h1, h2, h3⟩, ⟨h4, h5⟩, ?_⟩
  intro m hm s hs k hk
  have hm1 := h5 m hm
  have hs1 := h3 s hs
  have a1 : m.position + k < st.mbytes.length := by omega
  have a2 : s.position + k < d.bytes.length := by omega
  exact ⟨a1, a2, Nat.mod_eq_of_lt (by omega), Nat.mod_eq_of_lt (by omega)⟩

/-- C19 at the merged state after `cxPrimary` and the document `cxRef`. -/
theorem C19_symbol_ranges_witness :
    (c19Loaded.bytes.length = c19Loaded.nbytes ∧ c19Loaded.nbytes < 2147483648 ∧
      ∀ s, s ∈ c19Loaded.syms → s.size = 0 ∨ s.position + s.size ≤ c19Loaded.nbytes) ∧
    (c19State.mbytes.length < 2147483648 ∧
      ∀ m, m ∈ c19State.msyms → m.size = 0 ∨ m.position + m.size ≤ c19State.mbytes.length) ∧
    (∀ m, m ∈ c19State.msyms → ∀ s, s ∈ c19Loaded.syms → ∀ k, k < min m.size s.size →
      m.position + k < c19State.mbytes.length ∧ s.position + k < c19Loaded.bytes.length ∧
      (m.position + k) % 4294967296 = m.position + k ∧
      (s.position + k) % 4294967296 = s.position + k) :=
  C19_symbol_ranges (fun _ _ => 0) [cxPrimary] c19State c19State.msrcs cxRef c19Loaded
    (by decide) (by decide)

theorem readN_prefix (n : Nat) (p q a r : Stream) (h : readN n (p ++ q) = some (a, r)) :
    (∃ r1, r = r1 ++ q ∧ readN n p = some (a, r1)) ∨ readN n p = none := by
  unfold readN at h ⊢
  by_cases hn : n ≤ p.length
  · left
    rw [if_pos (by simp; omega)] at h
    simp only [Option.some.injEq, Prod.mk.injEq] at h
    rw [List.take_append_of_le_length hn, List.drop_append_of_le_length hn] at h
    exact ⟨p.drop n, h.2.symm, by rw [if_pos hn, h.1]⟩
  · right
    rw [if_neg hn]

theorem readLE_prefix (n : Nat) (p q : Stream) (v : Nat) (r : Stream)
    (h : readLE n (p ++ q) = some (v, r)) :
    (∃ r1, r = r1 ++ q ∧ readLE n p = some (v, r1)) ∨ readLE n p = none := by
  unfold readLE at h ⊢
  split at h
  · cases h
  · rename_i bs r0 hread
    simp only [Option.some.injEq, Prod.mk.injEq] at h
    rcases readN_prefix _ _ _ _ _ hread with ⟨r1, hr, e⟩ | e
    · left
      exact ⟨r1, by rw [← h.2, hr], by rw [e, ← h.1]⟩
    · right
      rw [e]

theorem read_u8_prefix (p q : Stream) (v : Nat) (r : Stream)
    (h : read_u8 (p ++ q) = some (v, r)) :
    (∃ r1, r = r1 ++ q ∧ read_u8 p = some (v, r1)) ∨ read_u8 p = none :=
  readLE_prefix 1 p q v r h

theorem read_u16_prefix (p q : Stream) (v : Nat) (r : Stream)
    (h : read_u16 (p ++ q) = some (v, r)) :
    (∃ r1, r = r1 ++ q ∧ read_u16 p = some (v, r1)) ∨ read_u16 p = none :=
  readLE_prefix 2 p q v r h

theorem read_u32_prefix (p q : Stream) (v : Nat) (r : Stream)
    (h : read_u32 (p ++ q) = some (v, r)) :
    (∃ r1, r = r1 ++ q ∧ read_u32 p = some (v, r1)) ∨ read_u32 p = none :=
  readLE_prefix 4 p q v r h

theorem read_float_prefix (p q : Stream) (v : Nat) (r : Stream)
    (h : read_float (p ++ q) = some (v, r)) :
    (∃ r1, r = r1 ++ q ∧ read_float p = some (v, r1)) ∨ read_float p = none :=
  readLE_prefix 4 p q v r h

theorem read_double_prefix (p q : Stream) (v : Nat) (r : Stream)
    (h : read_double (p ++ q) = some (v, r)) :
    (∃ r1, r = r1 ++ q ∧ read_double p = some (v, r1)) ∨ read_double p = none :=
  readLE_prefix 8 p q v r h

theorem read_asciiz_loop_prefix (k : Nat) : ∀ (buf : List Byte) (p q : Stream)
    (o : Option (List Byte)) (r : Stream), read_asciiz_loop k buf (p ++ q) = some (o, r) →
    (∃ r1, r = r1 ++ q ∧ read_asciiz_loop k buf p = some (o, r1)) ∨
      read_asciiz_loop k buf p = none := by
  induction k with
  | zero =>
    intro buf p q o r h
    simp only [read_asciiz_loop, Option.some.injEq, Prod.mk.injEq] at h
    left
    exact ⟨p, h.2.symm, by simp [read_asciiz_loop, h.1]⟩
  | succ k ih =>
    intro buf p q o r h
    cases p with
    | nil => right; simp [read_asciiz_loop]
    | cons c p =>
      simp only [List.cons_append, read_asciiz_loop] at h ⊢
      split at h
      · rename_i hc
        simp only [Option.some.injEq, Prod.mk.injEq] at h
        left
        exact ⟨p, h.2.symm, by rw [if_pos hc, h.1]⟩
      · rename_i hc
        rw [if_neg hc]
        exact ih _ _ _ _ _ h

theorem read_asciiz_prefix (p q : Stream) (o : Option (List Byte)) (r : Stream)
    (h : read_asciiz (p ++ q) = some (o, r)) :
    (∃ r1, r = r1 ++ q ∧ read_asciiz p = some (o, r1)) ∨ read_asciiz p = none :=
  read_asciiz_loop_prefix _ _ _ _ _ _ h

theorem readHeader_prefix (p q : Stream) (magic : List Byte) (nbytes nsrcs : Nat) (r : Stream)
    (h : readHeader (p ++ q) = some (magic, nbytes, nsrcs, r)) :
    (∃ r1, r = r1 ++ q ∧ readHeader p = some (magic, nbytes, nsrcs, r1)) ∨
      readHeader p = none := by
  unfold readHeader at h ⊢
  split at h
  · cases h
  rename_i mg s1 h1
  rcases readN_prefix _ _ _ _ _ h1 with ⟨t1, rfl, e1⟩ | e1
  swap
  · right; rw [e1]
  rw [e1]
  simp only []
  split at h
  · cases h
  rename_i nb s2 h2
  rcases read_u32_prefix _ _ _ _ h2 with ⟨t2, rfl, e2⟩ | e2
  swap
  · right; rw [e2]
  rw [e2]
  simp only []
  split at h
  · cases h
  rename_i ns s3 h3
  rcases read_u32_prefix _ _ _ _ h3 with ⟨t3, rfl, e3⟩ | e3
  swap
  · right; rw [e3]
  rw [e3]
  simp only [Option.some.injEq, Prod.mk.injEq] at h ⊢
  obtain ⟨a1, a2, a3, a4⟩ := h
  left
  exact ⟨t3, a4.symm, a1, a2, a3, rfl⟩

theorem readSourceRec_prefix (p q : Stream) (o : Option (List Byte)) (r : Stream)
    (h : readSourceRec (p ++ q) = some (o, r)) :
    (∃ r1, r = r1 ++ q ∧ readSourceRec p = some (o, r1)) ∨ readSourceRec p = none := by
  unfold readSourceRec at h ⊢
  split at h
  · cases h
  rename_i nm s1 h1
  rcases read_asciiz_prefix _ _ _ _ h1 with ⟨t1, rfl, e1⟩ | e1
  swap
  · right; rw [e1]
  rw [e1]
  simp only []
  split at h
  · cases h
  rename_i pk s2 h2
  rcases read_float_prefix _ _ _ _ h2 with ⟨t2, rfl, e2⟩ | e2
  swap
  · right; rw [e2]
  rw [e2]
  simp only []
  split at h
  · cases h
  rename_i un s3 h3
  rcases read_u32_prefix _ _ _ _ h3 with ⟨t3, rfl, e3⟩ | e3
  swap
  · right; rw [e3]
  rw [e3]
  simp only [Option.some.injEq, Prod.mk.injEq] at h ⊢
  left
  exact ⟨t3, h.2.symm, h.1, rfl⟩

theorem readSymbolRec_prefix (p q : Stream) (sym : kkpm_symbol) (r : Stream)
    (h : readSymbolRec (p ++ q) = some (sym, r)) :
    (∃ r1, r = r1 ++ q ∧ readSymbolRec p = some (sym, r1)) ∨ readSymbolRec p = none := by
  unfold readSymbolRec at h ⊢
  split at h
  · cases h
  rename_i nm s1 h1
  rcases read_asciiz_prefix _ _ _ _ h1 with ⟨t1, rfl, e1⟩ | e1
  swap
  · right; rw [e1]
  rw [e1]
  simp only []
  split at h
  · cases h
  rename_i pk s2 h2
  rcases read_double_prefix _ _ _ _ h2 with ⟨t2, rfl, e2⟩ | e2
  swap
  · right; rw [e2]
  rw [e2]
  simp only []
  split at h
  · cases h
  rename_i un s3 h3
  rcases read_u32_prefix _ _ _ _ h3 with ⟨t3, rfl, e3⟩ | e3
  swap
  · right; rw [e3]
  rw [e3]
  simp only []
  split at h
  · cases h
  rename_i cd s4 h4
  rcases read_u8_prefix _ _ _ _ h4 with ⟨t4, rfl, e4⟩ | e4
  swap
  · right; rw [e4]
  rw [e4]
  simp only []
  split at h
  · cases h
  rename_i sf s5 h5
  rcases read_u32_prefix _ _ _ _ h5 with ⟨t5, rfl, e5⟩ | e5
  swap
  · right; rw [e5]
  rw [e5]
  simp only []
  split at h
  · cases h
  rename_i ps s6 h6
  rcases read_u32_prefix _ _ _ _ h6 with ⟨t6, rfl, e6⟩ | e6
  swap
  · right; rw [e6]
  rw [e6]
  simp only [Option.some.injEq, Prod.mk.injEq] at h ⊢
  left
  exact ⟨t6, h.2.symm, h.1, rfl⟩

theorem readByteRec_prefix (p q : Stream) (b : kkpm_byte) (r : Stream)
    (h : readByteRec (p ++ q) = some (b, r)) :
    (∃ r1, r = r1 ++ q ∧ readByteRec p = some (b, r1)) ∨ readByteRec p = none := by
  unfold readByteRec at h ⊢
  split at h
  · cases h
  rename_i dt s1 h1
  rcases read_u8_prefix _ _ _ _ h1 with ⟨t1, rfl, e1⟩ | e1
  swap
  · right; rw [e1]
  rw [e1]
  simp only []
  split at h
  · cases h
  rename_i sy s2 h2
  rcases read_u16_prefix _ _ _ _ h2 with ⟨t2, rfl, e2⟩ | e2
  swap
  · right; rw [e2]
  rw [e2]
  simp only []
  split at h
  · cases h
  rename_i pk s3 h3
  rcases read_double_prefix _ _ _ _ h3 with ⟨t3, rfl, e3⟩ | e3
  swap
  · right; rw [e3]
  rw [e3]
  simp only []
  split at h
  · cases h
  rename_i ln s4 h4
  rcases read_u16_prefix _ _ _ _ h4 with ⟨t4, rfl, e4⟩ | e4
  swap
  · right; rw [e4]
  rw [e4]
  simp only []
  split at h
  · cases h
  rename_i sf s5 h5
  rcases read_u16_prefix _ _ _ _ h5 with ⟨t5, rfl, e5⟩ | e5
  swap
  · right; rw [e5]
  rw [e5]
  simp only [Option.some.injEq, Prod.mk.injEq] at h ⊢
  left
  exact ⟨t5, h.2.symm, h.1, rfl⟩

theorem loadSources_prefix (n : Nat) : ∀ (m : List kkpm_source) (p q : Stream)
    (m1 : List kkpm_source) (srcmap : List Nat) (r : Stream),
    loadSources n m (p ++ q) = .ok (m1, srcmap, r) →
    (∃ r1, r = r1 ++ q ∧ loadSources n m p = .ok (m1, srcmap, r1)) ∨
      loadSources n m p = .error .Truncated := by
  induction n with
  | zero =>
    intro m p q m1 srcmap r h
    simp only [loadSources, Except.ok.injEq, Prod.mk.injEq] at h
    left
    exact ⟨p, h.2.2.symm, by simp [loadSources, h.1, h.2.1]⟩
  | succ n ih =>
    intro m p q m1 srcmap r h
    unfold loadSources at h ⊢
    split at h
    · cases h
    · cases h
    · rename_i name s1 hread
      rcases readSourceRec_prefix _ _ _ _ hread with ⟨t1, rfl, e1⟩ | e1
      swap
      · right; rw [e1]
      rw [e1]
      simp only [] at h ⊢
      split at h
      · rename_i hnew
        rw [if_pos hnew]
        split at h
        · cases h
        · rename_i hcap
          rw [if_neg hcap]
          split at h
          · cases h
          · rename_i m2 srcmap2 r2 hrec
            simp only [Except.ok.injEq, Prod.mk.injEq] at h
            obtain ⟨a1, a2, a3⟩ := h
            subst a1; subst a2; subst a3
            rcases ih _ _ _ _ _ _ hrec with ⟨t2, hr, e2⟩ | e2
            · left
              exact ⟨t2, hr, by rw [e2]⟩
            · right
              rw [e2]
      · rename_i hold
        rw [if_neg hold]
        split at h
        · cases h
        · rename_i m2 srcmap2 r2 hrec
          simp only [Except.ok.injEq, Prod.mk.injEq] at h
          obtain ⟨a1, a2, a3⟩ := h
          subst a1; subst a2; subst a3
          rcases ih _ _ _ _ _ _ hrec with ⟨t2, hr, e2⟩ | e2
          · left
            exact ⟨t2, hr, by rw [e2]⟩
          · right
            rw [e2]

theorem loadSyms_prefix (nbytes : Nat) (n : Nat) : ∀ (p q : Stream) (syms : List kkpm_symbol)
    (r : Stream), loadSyms nbytes n (p ++ q) = .ok (syms, r) →
    (∃ r1, r = r1 ++ q ∧ loadSyms nbytes n p = .ok (syms, r1)) ∨
      loadSyms nbytes n p = .error .Truncated := by
  induction n with
  | zero =>
    intro p q syms r h
    simp only [loadSyms, Except.ok.injEq, Prod.mk.injEq] at h
    left
    exact ⟨p, h.2.symm, by simp [loadSyms, h.1]⟩
  | succ n ih =>
    intro p q syms r h
    unfold loadSyms at h ⊢
    split at h
    · cases h
    · rename_i sym s1 hread
      rcases readSymbolRec_prefix _ _ _ _ hread with ⟨t1, rfl, e1⟩ | e1
      swap
      · right; rw [e1]
      rw [e1]
      simp only [] at h ⊢
      split at h
      · cases h
      · rename_i hsf
        rw [if_neg hsf]
        split at h
        · cases h
        · rename_i hnull
          rw [if_neg hnull]
          split at h
          · cases h
          · rename_i syms1 r1 hrec
            simp only [Except.ok.injEq, Prod.mk.injEq] at h
            obtain ⟨a1, a2⟩ := h
            subst a1; subst a2
            rcases ih _ _ _ _ hrec with ⟨t2, hr, e2⟩ | e2
            · left
              exact ⟨t2, hr, by rw [e2]⟩
            · right
              rw [e2]

theorem loadBytes_prefix (nbytes : Nat) (n : Nat) : ∀ (i : Nat) (syms : List kkpm_symbol)
    (p q : Stream) (syms2 : List kkpm_symbol) (bytes : List kkpm_byte) (r : Stream),
    loadBytes nbytes n i syms (p ++ q) = .ok (syms2, bytes, r) →
    (∃ r1, r = r1 ++ q ∧ loadBytes nbytes n i syms p = .ok (syms2, bytes, r1)) ∨
      loadBytes nbytes n i syms p = .error .Truncated := by
  induction n with
  | zero =>
    intro i syms p q syms2 bytes r h
    simp only [loadBytes, Except.ok.injEq, Prod.mk.injEq] at h
    left
    exact ⟨p, h.2.2.symm, by simp [loadBytes, h.1, h.2.1]⟩
  | succ n ih =>
    intro i syms p q syms2 bytes r h
    unfold loadBytes at h ⊢
    split at h
    · cases h
    · rename_i byte s1 hread
      rcases readByteRec_prefix _ _ _ _ hread with ⟨t1, rfl, e1⟩ | e1
      swap
      · right; rw [e1]
      rw [e1]
      simp only [] at h ⊢
      split at h
      · cases h
      · rename_i syms1 hstep
        split at h
        · cases h
        · rename_i hguard
          rw [if_neg hguard]
          split at h
          · cases h
          · rename_i syms2a bytes1 r1 hrec
            simp only [Except.ok.injEq, Prod.mk.injEq] at h
            obtain ⟨a1, a2, a3⟩ := h
            subst a1; subst a2; subst a3
            rcases ih _ _ _ _ _ _ _ hrec with ⟨t2, hr, e2⟩ | e2
            · left
              exact ⟨t2, hr, by rw [e2]⟩
            · right
              rw [e2]

theorem load_prefix (m : List kkpm_source) (p q : Stream) (d : Loaded)
    (h : load m (p ++ q) = .ok d) :
    (∃ d1, load m p = .ok d1 ∧ d.rest = d1.rest ++ q) ∨ load m p = .error .Truncated := by
  unfold load at h ⊢
  split at h
  · cases h
  rename_i magic nbytes nsrcs s0 hh
  rcases readHeader_prefix _ _ _ _ _ _ hh with ⟨t0, rfl, e0⟩ | e0
  swap
  · right; rw [e0]
  rw [e0]
  simp only [] at h ⊢
  split at h
  · cases h
  rename_i hmagic
  rw [if_neg hmagic]
  split at h
  · cases h
  rename_i hns
  rw [if_neg hns]
  split at h
  · cases h
  rename_i m1 srcmap s1 hsrc
  rcases loadSources_prefix _ _ _ _ _ _ _ hsrc with ⟨t1, rfl, e1⟩ | e1
  swap
  · right; rw [e1]
  rw [e1]
  simp only [] at h ⊢
  split at h
  · cases h
  rename_i nsyms s2 hny
  rcases read_u32_prefix _ _ _ _ hny with ⟨t2, rfl, e2⟩ | e2
  swap
  · right; rw [e2]
  rw [e2]
  simp only [] at h ⊢
  split at h
  · cases h
  rename_i hnyb
  rw [if_neg hnyb]
  split at h
  · cases h
  rename_i syms s3 hsyms
  rcases loadSyms_prefix _ _ _ _ _ _ hsyms with ⟨t3, rfl, e3⟩ | e3
  swap
  · right; rw [e3]
  rw [e3]
  simp only [] at h ⊢
  split at h
  · cases h
  rename_i syms1 bytes rest hbytes
  rcases loadBytes_prefix _ _ _ _ _ _ _ _ _ hbytes with ⟨t4, rfl, e4⟩ | e4
  swap
  · right; rw [e4]
  rw [e4]
  simp only [Except.ok.injEq] at h
  left
  exact ⟨_, rfl, by rw [← h]⟩

/-- C13. Truncation detection: when a file loads and is consumed to its last
octet, every proper prefix of it fails to load, and fails with `Truncated`. -/
theorem C13_truncation (m : List kkpm_source) (x : Stream) (d : Loaded) (p q : Stream)
    (hload : load m x = .ok d) (hrest : d.rest = []) (hx : x = p ++ q) (hq : q ≠ []) :
    load m p = .error .Truncated := by
  subst hx
  rcases load_prefix m p q d hload with ⟨d1, _, hr⟩ | h
  · rw [hrest] at hr
    have : q = [] := (List.append_eq_nil.1 hr.symm).2
    exact absurd this hq
  · exact h

/-- C13 at `cxPrimary` cut after 40 octets. -/
theorem C13_truncation_witness :
    load initState.msrcs (cxPrimary.take 40) = .error .Truncated :=
  C13_truncation initState.msrcs cxPrimary cxLoaded (cxPrimary.take 40) (cxPrimary.drop 40)
    (by decide) (by decide) (by decide) (by decide)

theorem leEncode_length (n : Nat) : ∀ (v : Nat), (leEncode n v).length = n := by
  induction n with
  | zero => intro v; rfl
  | succ n ih => intro v; simp [leEncode, ih]

theorem leDecode_leEncode (n : Nat) : ∀ (v : Nat), leDecode (leEncode n v) = v % 256 ^ n := by
  induction n with
  | zero => intro v; simp [leEncode, leDecode, Nat.mod_one]
  | succ n ih =>
    intro v
    simp only [leEncode, leDecode, ih]
    rw [pow_succ, Nat.mul_comm (256 ^ n) 256, Nat.mod_mul]

theorem readLE_write (n v : Nat) (r : Stream) :
    readLE n (leEncode n v ++ r) = some (v % 256 ^ n, r) := by
  unfold readLE readN
  have hl := leEncode_length n v
  rw [if_pos (by simp [hl])]
  simp only []
  rw [List.take_left' hl, List.drop_left' hl, leDecode_leEncode]

theorem read_u32_write (v : Nat) (r : Stream) :
    read_u32 (write_u32 v ++ r) = some (v % 4294967296, r) :=
  readLE_write 4 v r

theorem read_float_write (v : Nat) (r : Stream) :
    read_float (write_float v ++ r) = some (v % 4294967296, r) :=
  readLE_write 4 v r

theorem readHeader_write (a b : Nat) (r : Stream) :
    readHeader (magicKK64 ++ write_u32 a ++ write_u32 b ++ r)
      = some (magicKK64, a % 4294967296, b % 4294967296, r) := by
  unfold readHeader
  have h1 : readN 4 (magicKK64 ++ write_u32 a ++ write_u32 b ++ r)
      = some (magicKK64, write_u32 a ++ (write_u32 b ++ r)) := by
    unfold readN
    rw [if_pos (by simp [magicKK64])]
    simp [magicKK64]
  rw [h1]
  simp only []
  rw [read_u32_write]
  simp only []
  rw [read_u32_write]

theorem readSourceRec_write (name : List Byte) (p u : Nat) (r : Stream)
    (hz : (0 : Byte) ∉ name) (hl : name.length ≤ 1023) :
    readSourceRec (write_asciiz name ++ write_float p ++ write_u32 u ++ r)
      = some (some name, r) := by
  unfold readSourceRec
  have h1 : read_asciiz (write_asciiz name ++ write_float p ++ write_u32 u ++ r)
      = some (some name, write_float p ++ (write_u32 u ++ r)) := by
    have := read_asciiz_loop_ok name 1024 [] (write_float p ++ (write_u32 u ++ r))
      (fun b hb e => hz (e ▸ hb)) (by omega)
    simp only [List.nil_append] at this
    unfold read_asciiz write_asciiz
    simpa using this
  rw [h1]
  simp only []
  rw [read_float_write]
  simp only []
  rw [read_u32_write]

theorem c20Name_inj (i j : Nat) (hi : i < 65535) (hj : j < 65535) (h : c20Name i = c20Name j) :
    i = j := by
  simp only [c20Name, List.cons.injEq, Fin.mk.injEq, and_true] at h
  omega

theorem c20Name_ne (i : Nat) : c20Name i ≠ noSourceName := by
  intro h
  have := congrArg List.length h
  simp [c20Name, noSourceName] at this

theorem c20Name_nozero (i : Nat) : (0 : Byte) ∉ c20Name i := by
  simp only [c20Name, List.mem_cons, List.mem_singleton, List.not_mem_nil, or_false, not_or]
  refine ⟨?_, ?_, ?_⟩ <;> intro h <;> have := congrArg Fin.val h <;> simp at this <;> omega

theorem loadSources_c20 (n : Nat) : ∀ (i : Nat) (m : List kkpm_source) (rest : Stream),
    i + n ≤ 65535 → m.map kkpm_source.name = noSourceName :: (List.range i).map c20Name →
    ∃ m1 srcmap, loadSources n m (c20Srcs n i ++ rest) = .ok (m1, srcmap, rest) ∧
      m1.length = i + n + 1 := by
  induction n with
  | zero =>
    intro i m rest _ hm
    refine ⟨m, [], by simp [loadSources, c20Srcs], ?_⟩
    have := congrArg List.length hm
    simpa using this
  | succ n ih =>
    intro i m rest hi hm
    have hlen : m.length = i + 1 := by
      have := congrArg List.length hm
      simpa using this
    have hnew : findSource m (c20Name i) = m.length := by
      unfold findSource
      rw [List.findIdx_eq_length]
      intro x hx
      have hxn : x.name ∈ m.map kkpm_source.name := List.mem_map_of_mem _ hx
      rw [hm] at hxn
      simp only [decide_eq_false_iff_not]
      intro hc
      rw [hc] at hxn
      rcases List.mem_cons.1 hxn with e | e
      · exact c20Name_ne i e
      · obtain ⟨k, hk, hkn⟩ := List.mem_map.1 e
        have hk1 : k < i := List.mem_range.1 hk
        have := c20Name_inj k i (by omega) (by omega) hkn
        omega
    obtain ⟨m1, srcmap, hrec, hl1⟩ := ih (i + 1) (m ++ [⟨c20Name i, 0, 0⟩]) rest (by omega)
      (by rw [List.map_append, hm, List.range_succ]; simp)
    refine ⟨m1, findSource m (c20Name i) % 65536 :: srcmap, ?_, by omega⟩
    have hs : c20Srcs (n + 1) i ++ rest
        = write_asciiz (c20Name i) ++ write_float 0 ++ write_u32 0 ++ (c20Srcs n (i + 1) ++ rest) := by
      simp [c20Srcs]
    rw [hs]
    unfold loadSources
    rw [readSourceRec_write _ _ _ _ (c20Name_nozero i) (by simp [c20Name])]
    simp only []
    rw [if_pos hnew, if_neg (by rw [hnew, hlen]; unfold msrcsmax; omega), hrec]

theorem load_c20File (n : Nat) (hn : n ≤ 65535) :
    ∃ m1 srcmap, load initState.msrcs (c20File n) = .ok ⟨m1, srcmap, 0, [], [], []⟩ ∧
      m1.length = n + 1 := by
  obtain ⟨m1, srcmap, hsrc, hl⟩ := loadSources_c20 n 0 initState.msrcs (write_u32 0)
    (by omega) (by simp [initState])
  refine ⟨m1, srcmap, ?_, by omega⟩
  have hmod : n % 4294967296 = n := Nat.mod_eq_of_lt (by omega)
  have h2 : read_u32 (write_u32 0) = some (0, []) := by decide
  unfold load c20File
  rw [readHeader_write, hmod]
  simp only [ne_eq, not_true_eq_false, if_false]
  rw [if_neg (by omega), hsrc]
  simp only []
  rw [h2]
  simp only []
  rw [if_neg (by omega)]
  simp only [loadSyms, loadBytes]

theorem load_c20Big : ∃ m1 srcmap, load initState.msrcs c20Big = .ok ⟨m1, srcmap, 0, [], [], []⟩ ∧
    m1.length = 65536 :=
  load_c20File 65535 (Nat.le_refl _)

theorem writeAll_full_rejected (fp : FloatOps) (msrcs m : List kkpm_source) (st : MainState)
    (y : Stream) (hw : writeAll fp msrcs st = .ok y) (hfull : msrcs.length = 65536) :
    load m y = .error .InvalidField := by
  unfold writeAll at hw
  split at hw
  · cases hw
  · rename_i out _
    simp only [Except.ok.injEq] at hw
    rw [← hw, hfull]
    unfold load
    simp only [List.append_assoc]
    have := readHeader_write st.mbytes.length 65536
      ((List.map (writeSource fp) msrcs).flatten ++
        (write_u32 st.msyms.length ++ (out ++ (List.map writeByte st.mbytes).flatten)))
    simp only [List.append_assoc] at this
    rw [this]
    simp only [ne_eq, not_true_eq_false, if_false]
    rw [if_pos (by norm_num)]

theorem main_single_ok (fp : FloatOps) (junk : Nat → Nat → Nat) (x : Stream) (d : Loaded)
    (h : load initState.msrcs x = .ok d) :
    main fp junk [x] = writeAll fp (regenerate fp d.msrcs d.bytes) ⟨d.msrcs, d.bytes, d.syms⟩ := by
  simp only [main, List.length_singleton, Nat.lt_irrefl, if_false, mainLoop, processFile, h,
    ne_eq, not_true_eq_false]

theorem main_single_error (fp : FloatOps) (junk : Nat → Nat → Nat) (x : Stream) (e : Err)
    (h : load initState.msrcs x = .error e) : main fp junk [x] = .error e := by
  simp only [main, List.length_singleton, Nat.lt_irrefl, if_false, mainLoop, processFile, h]

/-- C20 (the code at the failing input). The file `c20Big` declares 65535
sources of distinct names; the run on it alone succeeds and writes a file
that declares 65536 sources (with `<no source>`), and the run on that output
ends in `InvalidField`. -/
theorem C20_full_table_output_rejected (fp : FloatOps) (junk junk2 : Nat → Nat → Nat) :
    ∃ y, main fp junk [c20Big] = .ok y ∧ main fp junk2 [y] = .error .InvalidField := by
  obtain ⟨m1, srcmap, hload, hl⟩ := load_c20Big
  have hreg : (regenerate fp m1 []).length = 65536 := hl
  have hmain := main_single_ok fp junk c20Big _ hload
  have hw : ∃ y, writeAll fp (regenerate fp m1 []) ⟨m1, [], []⟩ = .ok y :=
    ⟨_, rfl⟩
  obtain ⟨y, hy⟩ := hw
  refine ⟨y, by rw [hmain]; exact hy, ?_⟩
  exact main_single_error fp junk2 y _ (writeAll_full_rejected fp _ initState.msrcs _ y hy hreg)

theorem read_asciiz_loop_valid (k : Nat) : ∀ (buf : List Byte) (s : Stream) (v : List Byte)
    (r : Stream), read_asciiz_loop k buf s = some (some v, r) → (0 : Byte) ∉ buf →
    (0 : Byte) ∉ v ∧ v.length + 1 ≤ buf.length + k := by
  induction k with
  | zero =>
    intro buf s v r h
    simp [read_asciiz_loop] at h
  | succ k ih =>
    intro buf s v r h hb
    cases s with
    | nil => simp [read_asciiz_loop] at h
    | cons c s =>
      simp only [read_asciiz_loop] at h
      split at h
      · simp only [Option.some.injEq, Prod.mk.injEq] at h
        rw [← h.1]
        exact ⟨hb, by omega⟩
      · rename_i hc
        have := ih _ _ _ _ h (by
          simp only [List.mem_append, List.mem_singleton, not_or]
          exact ⟨hb, fun e => hc e.symm⟩)
        simp only [List.length_append, List.length_singleton] at this
        exact ⟨this.1, by omega⟩

theorem read_asciiz_valid (s r : Stream) (v : List Byte) (h : read_asciiz s = some (some v, r)) :
    (0 : Byte) ∉ v ∧ v.length ≤ 1023 := by
  have := read_asciiz_loop_valid _ _ _ _ _ h (by simp)
  simp only [List.length_nil] at this
  exact ⟨this.1, by omega⟩

theorem read_asciiz_write (name : List Byte) (r : Stream) (hz : (0 : Byte) ∉ name)
    (hl : name.length ≤ 1023) : read_asciiz (write_asciiz name ++ r) = some (some name, r) := by
  have := read_asciiz_loop_ok name 1024 [] r (fun b hb e => hz (e ▸ hb)) (by omega)
  simp only [List.nil_append] at this
  unfold read_asciiz write_asciiz
  simpa using this

theorem read_u8_write (v : Nat) (r : Stream) :
    read_u8 (write_u8 v ++ r) = some (v % 256, r) :=
  readLE_write 1 v r

theorem read_u16_write (v : Nat) (r : Stream) :
    read_u16 (write_u16 v ++ r) = some (v % 65536, r) :=
  readLE_write 2 v r

theorem read_double_write (v : Nat) (r : Stream) :
    read_double (write_double v ++ r) = some (v % 18446744073709551616, r) :=
  readLE_write 8 v r

/-- A byte record that was read is read again from its written form. -/
theorem readByteRec_rewrite (s s1 : Stream) (b : kkpm_byte) (h : readByteRec s = some (b, s1))
    (r : Stream) : readByteRec (writeByte b ++ r) = some (b, r) := by
  unfold readByteRec at h
  split at h
  · cases h
  rename_i dt t1 h1
  split at h
  · cases h
  rename_i sy t2 h2
  split at h
  · cases h
  rename_i pk t3 h3
  split at h
  · cases h
  rename_i ln t4 h4
  split at h
  · cases h
  rename_i sf t5 h5
  simp only [Option.some.injEq, Prod.mk.injEq] at h
  have b1 := readLE_lt 1 _ _ _ h1
  have b2 := readLE_lt 2 _ _ _ h2
  have b3 := readLE_lt 8 _ _ _ h3
  have b4 := readLE_lt 2 _ _ _ h4
  have b5 := readLE_lt 2 _ _ _ h5
  rw [← h.1]
  unfold readByteRec writeByte
  simp only [List.append_assoc]
  rw [read_u8_write]
  simp only []
  rw [read_u16_write]
  simp only []
  rw [read_double_write]
  simp only []
  rw [read_u16_write]
  simp only []
  rw [read_u16_write]
  simp only []
  rw [Nat.mod_eq_of_lt (by omega : dt < 256), Nat.mod_eq_of_lt (by omega : sy < 65536),
    Nat.mod_eq_of_lt (by omega : pk < 18446744073709551616),
    Nat.mod_eq_of_lt (by omega : ln < 65536), Nat.mod_eq_of_lt (by omega : sf < 65536)]

/-- A symbol record with a name that was read is read again from its
written form. -/
theorem readSymbolRec_rewrite (s s1 : Stream) (sym : kkpm_symbol) (out : Stream)
    (h : readSymbolRec s = some (sym, s1)) (hw : writeSymbol sym = .ok out) (r : Stream) :
    readSymbolRec (out ++ r) = some (sym, r) := by
  unfold readSymbolRec at h
  split at h
  · cases h
  rename_i nm t1 h1
  split at h
  · cases h
  rename_i pk t2 h2
  split at h
  · cases h
  rename_i un t3 h3
  split at h
  · cases h
  rename_i cd t4 h4
  split at h
  · cases h
  rename_i sf t5 h5
  split at h
  · cases h
  rename_i ps t6 h6
  simp only [Option.some.injEq, Prod.mk.injEq] at h
  have b2 := readLE_lt 8 _ _ _ h2
  have b3 := readLE_lt 4 _ _ _ h3
  have b4 := readLE_lt 1 _ _ _ h4
  have b5 := readLE_lt 4 _ _ _ h5
  have b6 := readLE_lt 4 _ _ _ h6
  obtain ⟨hs, _⟩ := h
  subst hs
  unfold writeSymbol at hw
  simp only [] at hw
  split at hw
  · cases hw
  · rename_i name
    simp only [Except.ok.injEq] at hw
    subst hw
    obtain ⟨hz, hl⟩ := read_asciiz_valid _ _ _ h1
    unfold readSymbolRec
    simp only [List.append_assoc]
    rw [read_asciiz_write _ _ hz hl]
    simp only []
    rw [read_double_write]
    simp only []
    rw [read_u32_write]
    simp only []
    rw [read_u8_write]
    simp only []
    rw [read_u32_write]
    simp only []
    rw [read_u32_write]
    simp only []
    rw [Nat.mod_eq_of_lt (by omega : pk < 18446744073709551616),
      Nat.mod_eq_of_lt (by omega : un < 4294967296), Nat.mod_eq_of_lt (by omega : cd < 256),
      Nat.mod_eq_of_lt (by omega : sf < 4294967296),
      Nat.mod_eq_of_lt (by omega : ps < 4294967296)]
theorem loadSyms_rewrite (nbytes : Nat) (n : Nat) : ∀ (s : Stream) (syms : List kkpm_symbol)
    (r out : Stream), loadSyms nbytes n s = .ok (syms, r) → writeSymbols syms = .ok out →
    ∀ r2, loadSyms nbytes n (out ++ r2) = .ok (syms, r2) := by
  induction n with
  | zero =>
    intro s syms r out h hw r2
    simp only [loadSyms, Except.ok.injEq, Prod.mk.injEq] at h
    rw [← h.1] at hw ⊢
    simp only [writeSymbols, Except.ok.injEq] at hw
    rw [← hw]; rfl
  | succ n ih =>
    intro s syms r out h hw r2
    unfold loadSyms at h
    split at h
    · cases h
    · rename_i sym s1 hread
      split at h
      · cases h
      · rename_i hc1
        split at h
        · cases h
        · rename_i hc2
          split at h
          · cases h
          · rename_i syms' r' hrec
            simp only [Except.ok.injEq, Prod.mk.injEq] at h
            obtain ⟨h1, h2⟩ := h
            subst h1; subst h2
            unfold writeSymbols at hw
            split at hw
            · cases hw
            · rename_i o ho
              split at hw
              · cases hw
              · rename_i os hos
                simp only [Except.ok.injEq] at hw
                subst hw
                rw [List.append_assoc]
                unfold loadSyms
                rw [readSymbolRec_rewrite _ _ _ _ hread ho (os ++ r2)]
                simp only []
                rw [if_neg hc1, if_neg hc2, ih _ _ _ _ hrec hos r2]

theorem loadBytes_rewrite (nbytes : Nat) (n : Nat) : ∀ (i : Nat) (syms : List kkpm_symbol)
    (s : Stream) (syms2 : List kkpm_symbol) (bytes : List kkpm_byte) (r : Stream),
    loadBytes nbytes n i syms s = .ok (syms2, bytes, r) →
    ∀ r2, loadBytes nbytes n i syms ((bytes.map writeByte).flatten ++ r2)
      = .ok (syms2, bytes, r2) := by
  induction n with
  | zero =>
    intro i syms s syms2 bytes r h r2
    simp only [loadBytes, Except.ok.injEq, Prod.mk.injEq] at h
    obtain ⟨h1, h2, h3⟩ := h
    subst h1; subst h2; subst h3
    rfl
  | succ n ih =>
    intro i syms s syms2 bytes r h r2
    unfold loadBytes at h
    split at h
    · cases h
    · rename_i byte s1 hread
      split at h
      · cases h
      · rename_i syms1 hstep
        split at h
        · cases h
        · rename_i hov
          split at h
          · cases h
          · rename_i syms2' bytes' r' hrec
            simp only [Except.ok.injEq, Prod.mk.injEq] at h
            obtain ⟨h1, h2, h3⟩ := h
            subst h1; subst h2; subst h3
            simp only [List.map_cons, List.flatten_cons, List.append_assoc]
            unfold loadBytes
            rw [readByteRec_rewrite _ _ _ hread]
            simp only []
            rw [hstep]
            simp only []
            rw [if_neg hov, ih _ _ _ _ _ _ hrec r2]

/-- The converse of `load_phases`: the phases in order give the load. -/
theorem load_of_phases (m : List kkpm_source) (f : Stream) (nbytes nsrcs : Nat) (s0 : Stream)
    (m1 : List kkpm_source) (srcmap : List Nat) (s1 : Stream) (nsyms : Nat) (s2 : Stream)
    (syms : List kkpm_symbol) (s3 : Stream) (syms1 : List kkpm_symbol) (bytes : List kkpm_byte)
    (rest : Stream)
    (hh : readHeader f = some (magicKK64, nbytes, nsrcs, s0)) (hns : nsrcs ≤ 0xFFFF)
    (hsrc : loadSources nsrcs m s0 = .ok (m1, srcmap, s1))
    (hny : read_u32 s1 = some (nsyms, s2)) (hn : nsyms ≤ 0xFFFF)
    (hsy : loadSyms nbytes nsyms s2 = .ok (syms, s3))
    (hby : loadBytes nbytes nbytes 0 syms s3 = .ok (syms1, bytes, rest)) :
    load m f = .ok ⟨m1, srcmap, nbytes, syms1, bytes, rest⟩ := by
  unfold load
  rw [hh]
  simp only [ne_eq, not_true_eq_false, if_false]
  rw [if_neg (by omega), hsrc]
  simp only []
  rw [hny]
  simp only []
  rw [if_neg (by omega), hsy]
  simp only []
  rw [hby]

theorem regenStep_names (fp : FloatOps) (msrcs : List kkpm_source) (b : kkpm_byte) :
    (regenStep fp msrcs b).map kkpm_source.name = msrcs.map kkpm_source.name := by
  unfold regenStep
  split
  · rfl
  · rename_i e he
    apply List.ext_getElem?
    intro k
    simp only [List.getElem?_map]
    by_cases hk : resolveSrc b = k
    · subst hk
      rw [List.getElem?_set_self (List.getElem?_eq_some_iff.1 he).1, he]
      rfl
    · rw [List.getElem?_set_ne hk]

theorem regenerate_names (fp : FloatOps) (mbytes : List kkpm_byte) :
    ∀ (msrcs : List kkpm_source),
    (regenerate fp msrcs mbytes).map kkpm_source.name = msrcs.map kkpm_source.name := by
  induction mbytes with
  | nil => intro msrcs; rfl
  | cons b rest ih =>
    intro msrcs
    simp only [regenerate, List.foldl_cons] at ih ⊢
    rw [ih, regenStep_names]

theorem readSourceRec_valid (s r : Stream) (name : List Byte)
    (h : readSourceRec s = some (some name, r)) : (0 : Byte) ∉ name ∧ name.length ≤ 1023 := by
  unfold readSourceRec at h
  split at h
  · cases h
  · rename_i nm s1 h1
    split at h
    · cases h
    · split at h
      · cases h
      · simp only [Option.some.injEq, Prod.mk.injEq] at h
        obtain ⟨hn, _⟩ := h
        subst hn
        exact read_asciiz_valid _ _ _ h1

/-- A property that every entry made of a readable name and zero sizes has
is kept by the source loop. -/
theorem loadSources_all (P : kkpm_source → Prop)
    (hP : ∀ name : List Byte, (0 : Byte) ∉ name → name.length ≤ 1023 → P ⟨name, 0, 0⟩)
    (n : Nat) : ∀ (msrcs : List kkpm_source) (s : Stream)
    (m : List kkpm_source) (srcmap : List Nat) (r : Stream),
    (∀ x, x ∈ msrcs → P x) →
    loadSources n msrcs s = .ok (m, srcmap, r) → ∀ x, x ∈ m → P x := by
  induction n with
  | zero =>
    intro msrcs s m srcmap r hz h
    simp only [loadSources, Except.ok.injEq, Prod.mk.injEq] at h
    rw [← h.1]; exact hz
  | succ n ih =>
    intro msrcs s m srcmap r hz h
    unfold loadSources at h
    split at h
    · cases h
    · cases h
    · rename_i name s1 hread
      obtain ⟨hv1, hv2⟩ := readSourceRec_valid _ _ _ hread
      simp only [] at h
      split at h
      · split at h
        · cases h
        · split at h
          · cases h
          · rename_i m' srcmap' r' hrec
            simp only [Except.ok.injEq, Prod.mk.injEq] at h
            rw [← h.1]
            refine ih _ _ _ _ _ ?_ hrec
            intro x hx
            rcases List.mem_append.1 hx with hx | hx
            · exact hz x hx
            · simp only [List.mem_singleton] at hx; rw [hx]; exact hP name hv1 hv2
      · split at h
        · cases h
        · rename_i m' srcmap' r' hrec
          simp only [Except.ok.injEq, Prod.mk.injEq] at h
          rw [← h.1]
          exact ih _ _ _ _ _ hz hrec

theorem findSource_of_not_mem (m : List kkpm_source) (nm : List Byte)
    (h : nm ∉ m.map kkpm_source.name) : findSource m nm = m.length := by
  unfold findSource
  rw [List.findIdx_eq_length]
  intro x hx
  simp only [decide_eq_false_iff_not]
  intro hn
  exact h (List.mem_map.2 ⟨x, hx, hn⟩)

/-- Reading back a written table of new, distinct, readable names appends
them to the merged sources table with zero sizes. -/
theorem loadSources_rewrite (fp : FloatOps) : ∀ (todo m : List kkpm_source) (rest : Stream),
    ((m ++ todo).map kkpm_source.name).Nodup →
    (∀ e, e ∈ todo → (0 : Byte) ∉ e.name ∧ e.name.length ≤ 1023) →
    m.length + todo.length ≤ msrcsmax →
    ∃ srcmap, loadSources todo.length m ((todo.map (writeSource fp)).flatten ++ rest)
      = .ok (m ++ (todo.map kkpm_source.name).map (fun nm => (⟨nm, 0, 0⟩ : kkpm_source)),
          srcmap, rest) := by
  intro todo
  induction todo with
  | nil =>
    intro m rest _ _ _
    exact ⟨[], by simp [loadSources]⟩
  | cons e todo ih =>
    intro m rest hnd hv hcap
    simp only [List.length_cons] at hcap
    have hnd2 : (((m ++ [(⟨e.name, 0, 0⟩ : kkpm_source)]) ++ todo).map kkpm_source.name).Nodup := by
      simpa using hnd
    obtain ⟨srcmap, hrec⟩ := ih (m ++ [(⟨e.name, 0, 0⟩ : kkpm_source)]) rest hnd2
      (fun x hx => hv x (List.mem_cons_of_mem _ hx))
      (by simp only [List.length_append, List.length_singleton]; omega)
    have hnew : findSource m e.name = m.length := by
      apply findSource_of_not_mem
      intro hmem
      rw [List.map_append, List.nodup_append] at hnd
      exact hnd.2.2 hmem (by simp)
    obtain ⟨hz, hl⟩ := hv e (List.mem_cons_self _ _)
    refine ⟨findSource m e.name % 65536 :: srcmap, ?_⟩
    simp only [List.map_cons, List.flatten_cons, List.length_cons, List.append_assoc]
    unfold loadSources
    have hr := readSourceRec_write e.name (fp.dtof e.packed_size) e.unpacked_size
      ((todo.map (writeSource fp)).flatten ++ rest) hz hl
    simp only [List.append_assoc] at hr
    rw [show writeSource fp e = write_asciiz e.name ++ write_float (fp.dtof e.packed_size)
      ++ write_u32 e.unpacked_size from rfl]
    simp only [List.append_assoc]
    rw [hr]
    simp only []
    rw [if_pos hnew, if_neg (by rw [hnew]; omega), hrec]
    simp
theorem readHeader_lt (s : Stream) (magic : List Byte) (nbytes nsrcs : Nat) (r : Stream)
    (h : readHeader s = some (magic, nbytes, nsrcs, r)) :
    nbytes < 4294967296 ∧ nsrcs < 4294967296 := by
  unfold readHeader at h
  split at h
  · cases h
  rename_i mg s1 h1
  split at h
  · cases h
  rename_i nb s2 h2
  split at h
  · cases h
  rename_i ns s3 h3
  simp only [Option.some.injEq, Prod.mk.injEq] at h
  obtain ⟨_, hb, hn, _⟩ := h
  subst hb; subst hn
  have b2 := readLE_lt 4 _ _ _ h2
  have b3 := readLE_lt 4 _ _ _ h3
  exact ⟨by omega, by omega⟩

/-- Reading back the table the writer serialises, against the initial
table: the merged sources table is rebuilt as it was. -/
theorem loadSources_written (fp : FloatOps) (R Rg t : List kkpm_source) (rest : Stream)
    (hR : R = initState.msrcs ++ t)
    (hP : ∀ e, e ∈ R → e = ⟨e.name, 0, 0⟩ ∧ (0 : Byte) ∉ e.name ∧ e.name.length ≤ 1023)
    (hnd : (R.map kkpm_source.name).Nodup)
    (hn : Rg.map kkpm_source.name = R.map kkpm_source.name)
    (hcap : R.length ≤ msrcsmax) :
    ∃ srcmap, loadSources Rg.length initState.msrcs ((Rg.map (writeSource fp)).flatten ++ rest)
      = .ok (R, srcmap, rest) := by
  subst hR
  cases Rg with
  | nil => simp [initState] at hn
  | cons g0 gt =>
    simp only [initState, List.map_cons, List.map_append, List.map_nil, List.singleton_append,
      List.cons.injEq] at hn
    obtain ⟨hg0, hgt⟩ := hn
    have hnd1 : ((initState.msrcs ++ gt).map kkpm_source.name).Nodup := by
      rw [List.map_append, hgt, ← List.map_append]; exact hnd
    have hv : ∀ e, e ∈ gt → (0 : Byte) ∉ e.name ∧ e.name.length ≤ 1023 := by
      intro e he
      have hmem : e.name ∈ t.map kkpm_source.name := by
        rw [← hgt]; exact List.mem_map.2 ⟨e, he, rfl⟩
      obtain ⟨e1, he1, hn1⟩ := List.mem_map.1 hmem
      have := (hP e1 (List.mem_append_right _ he1)).2
      rw [hn1] at this
      exact this
    have hlen : gt.length = t.length := by
      have := congrArg List.length hgt
      simpa using this
    obtain ⟨srcmap, hrec⟩ := loadSources_rewrite fp gt initState.msrcs rest hnd1 hv (by
      simp only [List.length_append] at hcap
      omega)
    have ht : (gt.map kkpm_source.name).map (fun nm => (⟨nm, 0, 0⟩ : kkpm_source)) = t := by
      rw [hgt, List.map_map]
      conv => rhs; rw [← List.map_id t]
      apply List.map_congr_left
      intro e he
      exact ((hP e (List.mem_append_right _ he)).1).symm
    rw [ht] at hrec
    refine ⟨0 :: srcmap, ?_⟩
    simp only [List.map_cons, List.flatten_cons, List.length_cons, List.append_assoc]
    unfold loadSources
    have hr := readSourceRec_write g0.name (fp.dtof g0.packed_size) g0.unpacked_size
      ((gt.map (writeSource fp)).flatten ++ rest) (by rw [hg0]; decide)
      (by rw [hg0]; simp [noSourceName])
    simp only [List.append_assoc] at hr
    rw [show writeSource fp g0 = write_asciiz g0.name ++ write_float (fp.dtof g0.packed_size)
      ++ write_u32 g0.unpacked_size from rfl]
    simp only [List.append_assoc]
    rw [hr]
    simp only []
    have hf : findSource initState.msrcs g0.name = 0 := by
      rw [hg0]; rfl
    rw [hf, if_neg (by simp [initState]), hrec]

/-- Idempotence below capacity. When the only input loads and leaves at
most `0xFFFF` entries in the merged sources table, the run on the written
output succeeds and writes the same stream again. -/
theorem main_idempotent_below_capacity (fp : FloatOps) (junk junk2 : Nat → Nat → Nat)
    (x y : Stream) (d : Loaded) (hload : load initState.msrcs x = .ok d)
    (hcap : d.msrcs.length ≤ 0xFFFF) (hrun : main fp junk [x] = .ok y) :
    main fp junk2 [y] = .ok y := by
  obtain ⟨magic, nsrcs, s0, s1, nsyms, s2, syms, s3, hh, hmg, _, hsrc, hny, hnsy, hsy, hby⟩ :=
    load_phases _ x d hload
  subst hmg
  obtain ⟨hnb, _⟩ := readHeader_lt _ _ _ _ _ hh
  obtain ⟨hsl, _⟩ := loadSyms_spec _ _ _ _ _ hsy
  obtain ⟨hbl, hlen, _⟩ := loadBytes_spec d.nbytes d.nbytes 0 syms s3 _ _ _ (by omega) hby
  obtain ⟨_, hmap⟩ := loadBytes_write _ _ _ _ _ _ _ _ hby
  obtain ⟨⟨t, ht⟩, _, hnd0, _⟩ := loadSources_spec _ _ _ _ _ _ hsrc
  have hnd := hnd0 (by simp [initState])
  have hP := loadSources_all
    (fun e => e = ⟨e.name, 0, 0⟩ ∧ (0 : Byte) ∉ e.name ∧ e.name.length ≤ 1023)
    (fun name h1 h2 => ⟨rfl, h1, h2⟩) _ _ _ _ _ _
    (by
      intro e he
      simp only [initState, List.mem_singleton] at he
      subst he
      exact ⟨rfl, by decide, by simp [noSourceName]⟩) hsrc
  rw [main_single_ok fp junk x d hload] at hrun
  have hrun0 := hrun
  unfold writeAll at hrun
  simp only [] at hrun
  split at hrun
  · cases hrun
  · rename_i out hout
    simp only [Except.ok.injEq] at hrun
    rw [writeSymbols_congr _ _ hmap] at hout
    have hRl : (regenerate fp d.msrcs d.bytes).length = d.msrcs.length := by
      have := congrArg List.length (regenerate_names fp d.bytes d.msrcs)
      simpa using this
    obtain ⟨srcmap2, hsrc2⟩ := loadSources_written fp d.msrcs (regenerate fp d.msrcs d.bytes) t
      (write_u32 d.syms.length ++ (out ++ (d.bytes.map writeByte).flatten)) ht hP hnd
      (regenerate_names fp d.bytes d.msrcs) (by simp only [msrcsmax]; omega)
    have hh2 : readHeader y = some (magicKK64, d.nbytes, (regenerate fp d.msrcs d.bytes).length,
        ((regenerate fp d.msrcs d.bytes).map (writeSource fp)).flatten
          ++ (write_u32 d.syms.length ++ (out ++ (d.bytes.map writeByte).flatten))) := by
      have := readHeader_write d.bytes.length (regenerate fp d.msrcs d.bytes).length
        (((regenerate fp d.msrcs d.bytes).map (writeSource fp)).flatten
          ++ (write_u32 d.syms.length ++ (out ++ (d.bytes.map writeByte).flatten)))
      rw [hbl, Nat.mod_eq_of_lt hnb, Nat.mod_eq_of_lt (by omega)] at this
      rw [← this, ← hrun, hbl]
      simp
    have hny2 : read_u32 (write_u32 d.syms.length ++ (out ++ (d.bytes.map writeByte).flatten))
        = some (nsyms, out ++ (d.bytes.map writeByte).flatten) := by
      rw [read_u32_write, hlen, hsl, Nat.mod_eq_of_lt (by omega)]
    have hsy2 := loadSyms_rewrite _ _ _ _ _ _ hsy hout ((d.bytes.map writeByte).flatten)
    have hby2 := loadBytes_rewrite _ _ _ _ _ _ _ _ hby []
    rw [List.append_nil] at hby2
    have hload2 := load_of_phases initState.msrcs y d.nbytes _ _ _ _ _ _ _ _ _ _ _ _ hh2
      (by omega) hsrc2 hny2 hnsy hsy2 hby2
    rw [main_single_ok fp junk2 y _ hload2]
    exact hrun0

/-- Idempotence below capacity at the single file `c5Primary`: its output
`c5Output` is written again by the run on `c5Output`. -/
theorem main_idempotent_below_capacity_witness :
    main fpExample (fun _ _ => 0) [c5Primary] = .ok c5Output ∧
    main fpExample (fun _ _ => 1) [c5Output] = .ok c5Output :=
  ⟨by decide, main_idempotent_below_capacity fpExample (fun _ _ => 0) (fun _ _ => 1)
    c5Primary c5Output c5Loaded (by decide) (by decide) (by decide)⟩
theorem toInt32_high (v : Nat) (hlo : 2147483648 ≤ v) (hhi : v < 4294967296) :
    ¬ (0xFFFF < toInt32 v) := by
  unfold toInt32
  rw [Nat.mod_eq_of_lt hhi, if_neg (by omega)]
  omega

theorem toInt32_mid (v : Nat) (hlo : 0xFFFF < v) (hhi : v < 2147483648) :
    0xFFFF < toInt32 v := by
  unfold toInt32
  rw [Nat.mod_eq_of_lt (by omega), if_pos hhi]
  omega

theorem readSymbolRec_c11 (v : Nat) (hv : v < 4294967296) (r : Stream) :
    readSymbolRec (write_asciiz [65] ++ write_double 0 ++ write_u32 0 ++ write_u8 0
        ++ write_u32 v ++ write_u32 0 ++ r) = some (⟨some [65], 0, 0, v, 0, 0, 0⟩, r) := by
  unfold readSymbolRec
  simp only [List.append_assoc]
  rw [read_asciiz_write _ _ (by decide) (by decide)]
  simp only []
  rw [read_double_write]
  simp only []
  rw [read_u32_write]
  simp only []
  rw [read_u8_write]
  simp only []
  rw [read_u32_write]
  simp only []
  rw [read_u32_write]
  simp only []
  rw [Nat.mod_eq_of_lt hv]

theorem readHeader_c11Doc (v : Nat) :
    readHeader (c11Doc v) = some (magicKK64, 0, 0, write_u32 1
      ++ (write_asciiz [65] ++ write_double 0 ++ write_u32 0 ++ write_u8 0
        ++ write_u32 v ++ write_u32 0 ++ [])) := by
  have := readHeader_write 0 0 (write_u32 1
      ++ (write_asciiz [65] ++ write_double 0 ++ write_u32 0 ++ write_u8 0
        ++ write_u32 v ++ write_u32 0 ++ []))
  rw [← this]
  unfold c11Doc
  simp

/-- C11 (as the code has it). The test of line 154 compares the field as a
signed 32-bit integer. Every symbol of a loaded document has `source_file`
at most `0xFFFF` or at least `0x80000000`. Whenever the symbol loop reads a
record whose field lies strictly between `0xFFFF` and `0x80000000` it ends
in `InvalidField`; whenever it reads a record whose field is `0x80000000` or
more (and whose name can be printed if line 156 warns) the record is kept
and the loop goes on to the next record. For every value `v` of the field,
the document `c11Doc v` is rejected with `InvalidField` when `v` lies
strictly between `0xFFFF` and `0x80000000`, and loads with its symbol
carrying `v` when `v` is `0x80000000` or more. -/
theorem C11_symbol_source_file_signed (msrcs : List kkpm_source) (f : Stream) (d : Loaded)
    (h : load msrcs f = .ok d) :
    (∀ sym, sym ∈ d.syms → (sym.source_file ≤ 0xFFFF ∨ 2147483648 ≤ sym.source_file) ∧
      sym.source_file < 4294967296) ∧
    (∀ (nbytes n : Nat) (s r : Stream) (sym : kkpm_symbol), readSymbolRec s = some (sym, r) →
      0xFFFF < sym.source_file → sym.source_file < 2147483648 →
      loadSyms nbytes (n + 1) s = .error .InvalidField) ∧
    (∀ (nbytes n : Nat) (s r : Stream) (sym : kkpm_symbol), readSymbolRec s = some (sym, r) →
      2147483648 ≤ sym.source_file → (sym.position < nbytes ∨ sym.name ≠ none) →
      (∀ (syms : List kkpm_symbol) (r1 : Stream), loadSyms nbytes n r = .ok (syms, r1) →
        loadSyms nbytes (n + 1) s = .ok (sym :: syms, r1)) ∧
      (∀ e, loadSyms nbytes n r = .error e → loadSyms nbytes (n + 1) s = .error e)) ∧
    (∀ (m : List kkpm_source) (v : Nat), 0xFFFF < v → v < 2147483648 →
      load m (c11Doc v) = .error .InvalidField) ∧
    (∀ (m : List kkpm_source) (v : Nat), 2147483648 ≤ v → v < 4294967296 →
      load m (c11Doc v) = .ok ⟨m, [], 0, [⟨some [65], 0, 0, v, 0, 0, 0⟩], [], []⟩) := by
  refine ⟨?_, ?_, ?_, ?_, ?_⟩
  · obtain ⟨magic, nsrcs, s0, s1, nsyms, s2, syms, s3, _, _, _, _, _, hny, hsyms, hbytes⟩ :=
      load_phases msrcs f d h
    obtain ⟨hsl, _⟩ := loadSyms_spec _ _ _ _ _ hsyms
    obtain ⟨_, hlen, hrel⟩ := loadBytes_spec d.nbytes d.nbytes 0 syms s3 _ _ _ (by omega) hbytes
    intro sym hsym
    obtain ⟨k, hk, hget⟩ := List.getElem_of_mem hsym
    have hklt : k < syms.length := by rw [← hlen]; exact hk
    obtain ⟨sym2, hk2, he2, _⟩ := hrel k _ (List.getElem?_eq_getElem hklt) (by omega)
    rw [List.getElem?_eq_getElem hk, hget] at hk2
    cases hk2
    have := loadSyms_source_file _ _ _ _ _ hsyms _ (List.getElem_mem hklt)
    rw [he2]; exact this
  · intro nbytes n s r sym hread hlo hhi
    unfold loadSyms
    rw [hread]
    simp only []
    rw [if_pos (toInt32_mid _ hlo hhi)]
  · intro nbytes n s r sym hread hlo hname
    have hlt := (readSymbolRec_source_file_lt _ _ _ hread).1
    have hstep : ∀ x, loadSyms nbytes n r = x → loadSyms nbytes (n + 1) s =
        (match x with
          | .error e => .error e
          | .ok (syms, r1) => .ok (sym :: syms, r1)) := by
      intro x hx
      conv => lhs; unfold loadSyms
      rw [hread]
      simp only []
      rw [if_neg (toInt32_high _ hlo hlt), if_neg (by
        intro hc
        rcases hname with hp | hn
        · omega
        · exact hn hc.2)]
      subst hx
      rfl
    exact ⟨fun syms r1 hr => hstep _ hr, fun e he => hstep _ he⟩
  · intro m v hlo hhi
    unfold load
    rw [readHeader_c11Doc]
    simp only [ne_eq, not_true_eq_false, if_false, loadSources]
    rw [if_neg (by omega), read_u32_write]
    simp only []
    rw [if_neg (by norm_num)]
    have hs : loadSyms 0 (1 % 4294967296) (write_asciiz [65] ++ write_double 0 ++ write_u32 0
        ++ write_u8 0 ++ write_u32 v ++ write_u32 0 ++ []) = .error .InvalidField := by
      show loadSyms 0 (0 + 1) _ = _
      unfold loadSyms
      rw [readSymbolRec_c11 v (by omega)]
      simp only []
      rw [if_pos (toInt32_mid _ hlo hhi)]
    rw [hs]
  · intro m v hlo hhi
    apply load_of_phases m (c11Doc v) 0 0 _ m [] _ 1 _ [⟨some [65], 0, 0, v, 0, 0, 0⟩] []
      _ _ _ (readHeader_c11Doc v) (by omega) rfl (by rw [read_u32_write]) (by omega)
    · show loadSyms 0 (0 + 1) _ = _
      unfold loadSyms
      rw [readSymbolRec_c11 v hhi]
      simp only []
      rw [if_neg (toInt32_high _ hlo hhi), if_neg (by simp)]
      rfl
    · rfl

/-- C11 at `c11File`, whose symbols carry `0xFFFFFFFF` and `0x80000000`, and
at the documents `c11Doc 0x10000` (rejected) and `c11Doc 0xFFFFFFFF` (loaded). -/
theorem C11_symbol_source_file_signed_witness :
    (((4294967295 : Nat) ≤ 0xFFFF ∨ 2147483648 ≤ 4294967295) ∧ 4294967295 < 4294967296) ∧
    load initState.msrcs (c11Doc 0x10000) = .error .InvalidField ∧
    load initState.msrcs (c11Doc 0xFFFFFFFF)
      = .ok ⟨initState.msrcs, [], 0, [⟨some [65], 0, 0, 0xFFFFFFFF, 0, 0, 0⟩], [], []⟩ :=
  have h := C11_symbol_source_file_signed initState.msrcs c11File c11Loaded (by decide)
  ⟨h.1 ⟨some [65], 0, 0, 4294967295, 0, 0, 0⟩ (by decide), h.2.2.2.1 initState.msrcs 0x10000 (by decide) (by decide),
    h.2.2.2.2 initState.msrcs 0xFFFFFFFF (by decide) (by decide)⟩

theorem toInt32_toNat_le (v : Nat) : (toInt32 v).toNat ≤ v := by
  unfold toInt32
  have := Nat.mod_le v 4294967296
  split <;> omega

theorem overlayLoop_untouched (junk : Nat → Nat) (srcmap : List Nat) (bytes : List kkpm_byte)
    (msym sym : kkpm_symbol) (p : Nat) (n : Nat) : ∀ (ib : Nat) (cur out : List kkpm_byte),
    (∀ (k : Nat) (b : kkpm_byte), ib ≤ k → k < ib + n →
      (msym.position + k) % 4294967296 = p →
      bytes[(sym.position + k) % 4294967296]? = some b → b.source_file = 0xFFFF) →
    overlayLoop junk srcmap bytes msym sym n ib cur = .ok out → out[p]? = cur[p]? := by
  induction n with
  | zero =>
    intro ib cur out _ h
    simp only [overlayLoop, Except.ok.injEq] at h
    rw [h]
  | succ n ih =>
    intro ib cur out hno h
    have hno1 : ∀ (k : Nat) (b : kkpm_byte), ib + 1 ≤ k → k < ib + 1 + n →
        (msym.position + k) % 4294967296 = p →
        bytes[(sym.position + k) % 4294967296]? = some b → b.source_file = 0xFFFF :=
      fun k b h1 h2 => hno k b (by omega) (by omega)
    unfold overlayLoop at h
    split at h
    · rename_i byte mbyte hb hmb
      simp only [] at h
      split at h
      · exact ih _ _ _ hno1 h
      · rename_i hneg
        have hnf : byte.source_file ≠ 0xFFFF := fun e => hneg ((iw_neg_iff _).2 e)
        have hp : (msym.position + ib) % 4294967296 ≠ p :=
          fun e => hnf (hno ib byte (Nat.le_refl _) (by omega) e hb)
        rw [ih _ _ _ hno1 h, List.getElem?_set_ne hp]
    · cases h

theorem scanMsyms_untouched (junk : Nat → Nat) (srcmap : List Nat) (bytes : List kkpm_byte)
    (sym : kkpm_symbol) (i : Nat) (p : Nat)
    (msyms : List kkpm_symbol) : ∀ (imsym : Nat) (v w : MergeVars),
    (∀ (msym : kkpm_symbol) (k : Nat) (b : kkpm_byte), msym ∈ msyms → msym.name = sym.name →
      k < min msym.size sym.size → (msym.position + k) % 4294967296 = p →
      bytes[(sym.position + k) % 4294967296]? = some b → b.source_file = 0xFFFF) →
    scanMsyms junk srcmap bytes sym i msyms imsym v = .ok w → w.mbytes[p]? = v.mbytes[p]? := by
  induction msyms with
  | nil =>
    intro imsym v w _ h
    simp only [scanMsyms, Except.ok.injEq] at h
    rw [h]
  | cons msym rest ih =>
    intro imsym v w hno h
    have hrest : ∀ (m : kkpm_symbol) (k : Nat) (b : kkpm_byte), m ∈ rest → m.name = sym.name →
        k < min m.size sym.size → (m.position + k) % 4294967296 = p →
        bytes[(sym.position + k) % 4294967296]? = some b → b.source_file = 0xFFFF :=
      fun m k b hm => hno m k b (List.mem_cons_of_mem _ hm)
    unfold scanMsyms at h
    split at h
    · rename_i mn sn hmn hsn
      split at h
      · exact ih _ _ _ hrest h
      · rename_i hne
        have hname : msym.name = sym.name := by
          rw [hmn, hsn]; simpa using hne
        simp only [] at h
        split at h
        · cases h
        · exact ih _ _ _ hrest h
        · split at h
          · cases h
          · rename_i out hout
            simp only [Except.ok.injEq] at h
            rw [← h]
            refine overlayLoop_untouched junk srcmap bytes msym sym p _ 0 _ _ ?_ hout
            intro k b _ hk
            have hle := toInt32_toNat_le (if msym.size < sym.size then msym.size else sym.size)
            have hmin : (if msym.size < sym.size then msym.size else sym.size)
                = min msym.size sym.size := by split <;> omega
            exact hno msym k b (List.mem_cons_self _ _) hname (by rw [← hmin]; omega)
    · cases h

theorem mergeSyms_untouched (junk : Nat → Nat) (srcmap : List Nat) (bytes : List kkpm_byte)
    (msyms : List kkpm_symbol) (p : Nat)
    (syms : List kkpm_symbol) : ∀ (i : Nat) (v w : MergeVars),
    (∀ (sym msym : kkpm_symbol) (k : Nat) (b : kkpm_byte), sym ∈ syms → msym ∈ msyms →
      msym.name = sym.name → k < min msym.size sym.size →
      (msym.position + k) % 4294967296 = p →
      bytes[(sym.position + k) % 4294967296]? = some b → b.source_file = 0xFFFF) →
    mergeSyms junk srcmap bytes msyms syms i v = .ok w → w.mbytes[p]? = v.mbytes[p]? := by
  induction syms with
  | nil =>
    intro i v w _ h
    simp only [mergeSyms, Except.ok.injEq] at h
    rw [h]
  | cons sym rest ih =>
    intro i v w hno h
    unfold mergeSyms at h
    split at h
    · cases h
    · rename_i v1 hv1
      have h1 := scanMsyms_untouched junk srcmap bytes sym i p msyms 0 v v1
        (fun msym k b hm => hno sym msym k b (List.mem_cons_self _ _) hm) hv1
      have h2 := ih _ _ _ (fun s msym k b hs => hno s msym k b (List.mem_cons_of_mem _ hs)) h
      rw [h2, h1]

/-- C4 (as the code has it). A merge step keeps the length of the merged
trace, and: a merged byte is left as it was when every reference byte laid
over it (at an offset below the overlap of a reference symbol and a merged
symbol of the same name) has no `source_file`; every present `source_file`
of a merged byte stays present when no remap value of a present reference
`source_file` is `0xFFFF`; every present `source_line` of a merged byte
stays present when no reference byte carries a present `source_file` with an
absent `source_line`. -/
theorem C4_overlay_keeps_known (junk : Nat → Nat) (srcmap : List Nat) (bytes : List kkpm_byte)
    (msyms syms : List kkpm_symbol) (v w : MergeVars)
    (hrun : mergeSyms junk srcmap bytes msyms syms 0 v = .ok w) :
    w.mbytes.length = v.mbytes.length ∧
    (∀ (p : Nat),
      (∀ (sym msym : kkpm_symbol) (k : Nat) (b : kkpm_byte), sym ∈ syms → msym ∈ msyms →
        msym.name = sym.name → k < min msym.size sym.size →
        (msym.position + k) % 4294967296 = p →
        bytes[(sym.position + k) % 4294967296]? = some b → b.source_file = 0xFFFF) →
      w.mbytes[p]? = v.mbytes[p]?) ∧
    ((∀ b, b ∈ bytes → b.source_file ≠ 0xFFFF → srcmapAt junk srcmap b.source_file ≠ 0xFFFF) →
      ∀ (p : Nat) (a c : kkpm_byte), v.mbytes[p]? = some a → w.mbytes[p]? = some c →
        a.source_file ≠ 0xFFFF → c.source_file ≠ 0xFFFF) ∧
    ((∀ b, b ∈ bytes → b.source_file ≠ 0xFFFF → b.source_line ≠ 0xFFFF) →
      ∀ (p : Nat) (a c : kkpm_byte), v.mbytes[p]? = some a → w.mbytes[p]? = some c →
        a.source_line ≠ 0xFFFF → c.source_line ≠ 0xFFFF) := by
  refine ⟨?_, ?_, ?_, ?_⟩
  · exact (mergeSyms_inv (fun _ _ => True) junk srcmap bytes msyms syms 0 v w
      (fun _ _ _ _ _ _ _ _ _ _ _ => trivial) (fun _ _ _ => trivial) hrun).2
  · intro p hno
    exact mergeSyms_untouched junk srcmap bytes msyms p syms 0 v w hno hrun
  · intro hmap
    have hP0 : TraceInv (fun p c => ∀ a, v.mbytes[p]? = some a →
        a.source_file ≠ 0xFFFF → c.source_file ≠ 0xFFFF) v.mbytes :=
      fun p c hc a ha => by rw [ha] at hc; cases hc; exact id
    obtain ⟨h1, _⟩ := mergeSyms_inv _ junk srcmap bytes msyms syms 0 v w
      (fun _ _ _ _ _ ib b c hb hsf _ a _ _ => hmap b (List.getElem?_mem hb) hsf) hP0 hrun
    exact fun p a c ha hc => h1 p c hc a ha
  · intro hline
    have hP0 : TraceInv (fun p c => ∀ a, v.mbytes[p]? = some a →
        a.source_line ≠ 0xFFFF → c.source_line ≠ 0xFFFF) v.mbytes :=
      fun p c hc a ha => by rw [ha] at hc; cases hc; exact id
    obtain ⟨h1, _⟩ := mergeSyms_inv _ junk srcmap bytes msyms syms 0 v w
      (fun _ _ _ _ _ ib b c hb hsf _ a _ _ => hline b (List.getElem?_mem hb) hsf) hP0 hrun
    exact fun p a c ha hc => h1 p c hc a ha

/-- C4 at a merged trace whose three bytes all have `source_file = 1`,
`source_line = 5`, under a reference whose second byte has no `source_file`:
byte 1 is left as it was, bytes 0 and 2 get the reference attribution, and
every byte still has both fields present. -/
theorem C4_overlay_keeps_known_witness :
    mergeSyms (fun _ => 0) exSrcmap c4Ref [cxSym] [cxSym] 0 ⟨c4Before, 3⟩ = .ok ⟨c4After, 3⟩ ∧
    c4After.length = c4Before.length ∧
    c4After[1]? = c4Before[1]? ∧
    (∀ (p : Nat) (a c : kkpm_byte), c4Before[p]? = some a → c4After[p]? = some c →
      a.source_file ≠ 0xFFFF → c.source_file ≠ 0xFFFF) ∧
    (∀ (p : Nat) (a c : kkpm_byte), c4Before[p]? = some a → c4After[p]? = some c →
      a.source_line ≠ 0xFFFF → c.source_line ≠ 0xFFFF) :=
  have h := C4_overlay_keeps_known (fun _ => 0) exSrcmap c4Ref [cxSym] [cxSym] ⟨c4Before, 3⟩
    ⟨c4After, 3⟩ (by decide)
  ⟨by decide, h.1, h.2.1 1 (by
      intro sym msym k b hs hm _ hk hp hb
      simp only [List.mem_singleton] at hs hm
      subst hs; subst hm
      simp only [cxSym, Nat.min_self, Nat.zero_add] at hk hp hb
      have hk1 : k = 1 := by omega
      subst hk1
      simp only [c4Ref] at hb
      cases hb
      rfl),
    h.2.2.1 (by decide), h.2.2.2 (by decide)⟩

theorem findSource_le (m : List kkpm_source) (nm : List Byte) : findSource m nm ≤ m.length := by
  unfold findSource
  exact List.findIdx_le_length _

/-- The source loop on a table of descriptors that are all there: it ends
normally, or with `too many sources`; it ends normally when the merged
sources table has room for as many entries as there are descriptors. -/
theorem loadSources_of_names (n : Nat) : ∀ (m : List kkpm_source) (s : Stream)
    (names : List (List Byte)) (r : Stream), readSourceNames n s = some (names, r) →
    ((∃ m1 srcmap, loadSources n m s = .ok (m1, srcmap, r)) ∨
      loadSources n m s = .error .TooManySources) ∧
    (m.length + n ≤ msrcsmax → ∃ m1 srcmap, loadSources n m s = .ok (m1, srcmap, r)) := by
  induction n with
  | zero =>
    intro m s names r h
    simp only [readSourceNames, Option.some.injEq, Prod.mk.injEq] at h
    rw [← h.2]
    exact ⟨Or.inl ⟨m, [], rfl⟩, fun _ => ⟨m, [], rfl⟩⟩
  | succ n ih =>
    intro m s names r h
    unfold readSourceNames at h
    split at h
    · rename_i name s1 hread
      split at h
      · rename_i names1 r1 hrest
        simp only [Option.some.injEq, Prod.mk.injEq] at h
        obtain ⟨_, hr⟩ := h
        subst hr
        unfold loadSources
        rw [hread]
        simp only []
        by_cases hnew : findSource m name = m.length
        · rw [if_pos hnew]
          by_cases hfull : findSource m name = msrcsmax
          · rw [if_pos hfull]
            exact ⟨Or.inr rfl, fun hc => by omega⟩
          · rw [if_neg hfull]
            obtain ⟨h1, h2⟩ := ih (m ++ [⟨name, 0, 0⟩]) s1 names1 r1 hrest
            constructor
            · rcases h1 with ⟨m1, srcmap, hok⟩ | herr
              · exact Or.inl ⟨m1, _, by rw [hok]⟩
              · exact Or.inr (by rw [herr])
            · intro hc
              obtain ⟨m1, srcmap, hok⟩ := h2 (by
                simp only [List.length_append, List.length_singleton]; omega)
              exact ⟨m1, _, by rw [hok]⟩
        · rw [if_neg hnew]
          obtain ⟨h1, h2⟩ := ih m s1 names1 r1 hrest
          constructor
          · rcases h1 with ⟨m1, srcmap, hok⟩ | herr
            · exact Or.inl ⟨m1, _, by rw [hok]⟩
            · exact Or.inr (by rw [herr])
          · intro hc
            obtain ⟨m1, srcmap, hok⟩ := h2 (by omega)
            exact ⟨m1, _, by rw [hok]⟩
      · cases h
    · cases h

/-- The symbol loop on records that are all there, none with a null name to
print: it keeps the records as read, or ends in `InvalidField`. -/
theorem loadSyms_of_recs (nbytes : Nat) (n : Nat) : ∀ (s : Stream) (syms : List kkpm_symbol)
    (r : Stream), readSymbolRecs n s = some (syms, r) →
    (∀ sym, sym ∈ syms → nbytes ≤ sym.position → sym.name ≠ none) →
    loadSyms nbytes n s = .ok (syms, r) ∨ loadSyms nbytes n s = .error .InvalidField := by
  induction n with
  | zero =>
    intro s syms r h _
    simp only [readSymbolRecs, Option.some.injEq, Prod.mk.injEq] at h
    rw [← h.1, ← h.2]
    exact Or.inl rfl
  | succ n ih =>
    intro s syms r h hnull
    unfold readSymbolRecs at h
    split at h
    · cases h
    · rename_i sym s1 hread
      split at h
      · cases h
      · rename_i syms1 r1 hrest
        simp only [Option.some.injEq, Prod.mk.injEq] at h
        obtain ⟨hs, hr⟩ := h
        subst hs; subst hr
        unfold loadSyms
        rw [hread]
        simp only []
        by_cases hsf : 0xFFFF < toInt32 sym.source_file
        · rw [if_pos hsf]; exact Or.inr rfl
        · rw [if_neg hsf, if_neg (fun hc => hnull sym (List.mem_cons_self _ _) hc.1 hc.2)]
          rcases ih s1 syms1 r1 hrest (fun x hx => hnull x (List.mem_cons_of_mem _ hx)) with
            hok | herr
          · rw [hok]; exact Or.inl rfl
          · rw [herr]; exact Or.inr rfl

/-- C10 (as the code has it). Structural violation is fatal. Take a file
with the magic tag, counts within bounds and every record there: the source
descriptors, the symbol records (none with a null name to print) and the
`nbytes` byte records. If the record at index `i` names a symbol whose
position lies strictly between `i` and `nbytes`, and the records before it
name symbols of the document or none, then `load` fails: with `InvalidField`
whenever the source loop accepts the descriptors, which it does when the
merged sources table has room for `nsrcs` more entries, and otherwise with
the `too many sources` exit of line 125. A record naming a symbol whose
position is at or past `nbytes` passes the size update with the symbol table
unchanged. -/
theorem C10_structural_violation (msrcs : List kkpm_source) (f : Stream) (nbytes nsrcs : Nat)
    (s0 : Stream) (names : List (List Byte)) (s1 : Stream) (nsyms : Nat)
    (s2 : Stream) (syms : List kkpm_symbol) (s3 : Stream) (bytes : List kkpm_byte) (r : Stream)
    (i : Nat) (b : kkpm_byte) (sym : kkpm_symbol)
    (hh : readHeader f = some (magicKK64, nbytes, nsrcs, s0)) (hns : nsrcs ≤ 0xFFFF)
    (hnames : readSourceNames nsrcs s0 = some (names, s1))
    (hny : read_u32 s1 = some (nsyms, s2)) (hnyb : nsyms ≤ 0xFFFF)
    (hsyms : readSymbolRecs nsyms s2 = some (syms, s3))
    (hnull : ∀ x, x ∈ syms → nbytes ≤ x.position → x.name ≠ none)
    (hrecs : readByteRecs nbytes s3 = some (bytes, r))
    (hb : bytes[i]? = some b) (hpres : b.symbol ≠ 0xFFFF) (hk : syms[b.symbol]? = some sym)
    (hlo : i < sym.position) (hhi : sym.position < nbytes)
    (hearlier : ∀ (j : Nat) (b' : kkpm_byte), j < i → bytes[j]? = some b' →
      b'.symbol = 0xFFFF ∨ b'.symbol < syms.length)
    (hint : i < 2147483648) :
    (load msrcs f = .error .InvalidField ∨ load msrcs f = .error .TooManySources) ∧
    (∀ (m : List kkpm_source) (srcmap : List Nat) (t : Stream),
      loadSources nsrcs msrcs s0 = .ok (m, srcmap, t) → load msrcs f = .error .InvalidField) ∧
    (loadSources nsrcs msrcs s0 = .error .TooManySources →
      load msrcs f = .error .TooManySources) ∧
    (msrcs.length + nsrcs ≤ msrcsmax → load msrcs f = .error .InvalidField) ∧
    (∀ (cur : List kkpm_symbol) (c : kkpm_symbol) (i' : Nat) (b' : kkpm_byte),
      b'.symbol ≠ 0xFFFF → cur[b'.symbol]? = some c → nbytes ≤ c.position →
      byteStep nbytes cur i' b' = .ok cur) := by
  obtain ⟨hsrc1, hsrc2⟩ := loadSources_of_names nsrcs msrcs s0 names s1 hnames
  have hok : ∀ (m : List kkpm_source) (srcmap : List Nat),
      loadSources nsrcs msrcs s0 = .ok (m, srcmap, s1) → load msrcs f = .error .InvalidField := by
    intro m srcmap hsrc
    unfold load
    rw [hh]
    simp only [ne_eq, not_true_eq_false, if_false]
    rw [if_neg (by omega), hsrc]
    simp only []
    rw [hny]
    simp only []
    rw [if_neg (by omega)]
    rcases loadSyms_of_recs nbytes nsyms s2 syms s3 hsyms hnull with hs | hs
    · have hlb := loadBytes_violation nbytes nbytes 0 syms s3 bytes r i b sym hrecs hb hpres hk
        (by omega) hhi hearlier (by omega)
      rw [hs]
      simp only []
      rw [hlb]
    · rw [hs]
  have herr : loadSources nsrcs msrcs s0 = .error .TooManySources →
      load msrcs f = .error .TooManySources := by
    intro hsrc
    unfold load
    rw [hh]
    simp only [ne_eq, not_true_eq_false, if_false]
    rw [if_neg (by omega), hsrc]
  refine ⟨?_, ?_, herr, ?_, ?_⟩
  · rcases hsrc1 with ⟨m, srcmap, hsrc⟩ | hsrc
    · exact Or.inl (hok m srcmap hsrc)
    · exact Or.inr (herr hsrc)
  · intro m srcmap t hsrc
    rcases hsrc1 with ⟨m1, srcmap1, hsrc1⟩ | hsrc1
    · rw [hsrc1] at hsrc
      simp only [Except.ok.injEq, Prod.mk.injEq] at hsrc
      exact hok m1 srcmap1 hsrc1
    · rw [hsrc1] at hsrc; cases hsrc
  · intro hroom
    obtain ⟨m, srcmap, hsrc⟩ := hsrc2 hroom
    exact hok m srcmap hsrc
  · intro cur c i' b' hp hc hout
    unfold byteStep
    simp only []
    rw [if_pos ((iw_nonneg_iff _).2 hp), iw_toNat _ hp, hc]
    simp only []
    rw [if_pos hout]

/-- C10 at `c10File`: byte 0 names symbol 0, which starts at position 1 of 2. -/
theorem C10_structural_violation_witness :
    load initState.msrcs c10File = .error .InvalidField ∧
      ∀ (cur : List kkpm_symbol) (c : kkpm_symbol) (i' : Nat) (b' : kkpm_byte), b'.symbol ≠ 0xFFFF →
        cur[b'.symbol]? = some c → 2 ≤ c.position → byteStep 2 cur i' b' = .ok cur :=
  have h := C10_structural_violation initState.msrcs c10File 2 0 (c10File.drop 12) []
    (c10File.drop 12) 1 (c10File.drop 16) [⟨some [65], 0, 0, 0, 1, 0, 0⟩] (c10File.drop 39)
    [⟨0, 0xFFFF, 0xFFFF, 0, 0⟩, ⟨0, 0xFFFF, 0xFFFF, 0, 0⟩] [] 0 ⟨0, 0xFFFF, 0xFFFF, 0, 0⟩
    ⟨some [65], 0, 0, 0, 1, 0, 0⟩ (by decide) (by decide) (by decide) (by decide) (by decide)
    (by decide) (by decide) (by decide) (by decide) (by decide) (by decide) (by decide)
    (by decide) (by intro j b' hj; omega) (by decide)
  ⟨h.2.2.2.1 (by decide), h.2.2.2.2⟩

theorem loadSources_c20_names (n : Nat) : ∀ (i : Nat) (m : List kkpm_source) (rest : Stream)
    (m1 : List kkpm_source) (srcmap : List Nat) (r : Stream),
    loadSources n m (c20Srcs n i ++ rest) = .ok (m1, srcmap, r) →
    (∀ e, e ∈ m → e.name.length ≠ 1) → ∀ e, e ∈ m1 → e.name.length ≠ 1 := by
  induction n with
  | zero =>
    intro i m rest m1 srcmap r h hm
    simp only [loadSources, Except.ok.injEq, Prod.mk.injEq] at h
    rw [← h.1]; exact hm
  | succ n ih =>
    intro i m rest m1 srcmap r h hm
    have hs : c20Srcs (n + 1) i ++ rest
        = write_asciiz (c20Name i) ++ write_float 0 ++ write_u32 0 ++ (c20Srcs n (i + 1) ++ rest) := by
      simp [c20Srcs]
    rw [hs] at h
    unfold loadSources at h
    rw [readSourceRec_write _ _ _ _ (c20Name_nozero i) (by simp [c20Name])] at h
    simp only [] at h
    split at h
    · split at h
      · cases h
      · split at h
        · cases h
        · rename_i m2 srcmap2 r2 hrec
          simp only [Except.ok.injEq, Prod.mk.injEq] at h
          rw [← h.1]
          refine ih _ _ _ _ _ _ hrec ?_
          intro e he
          rcases List.mem_append.1 he with he | he
          · exact hm e he
          · simp only [List.mem_singleton] at he
            rw [he]; simp [c20Name]
    · split at h
      · cases h
      · rename_i m2 srcmap2 r2 hrec
        simp only [Except.ok.injEq, Prod.mk.injEq] at h
        rw [← h.1]
        exact ih _ _ _ _ _ _ hrec hm

theorem load_c20File_names (n : Nat) (hn : n ≤ 65535) (d : Loaded)
    (h : load initState.msrcs (c20File n) = .ok d) : ∀ e, e ∈ d.msrcs → e.name.length ≠ 1 := by
  obtain ⟨magic, nsrcs, s0, s1, nsyms, s2, syms, s3, hh, _, _, hsrc, _⟩ := load_phases _ _ d h
  have hw := readHeader_write 0 n (c20Srcs n 0 ++ write_u32 0)
  unfold c20File at hh
  rw [hw, Nat.mod_eq_of_lt (by omega : n < 4294967296)] at hh
  simp only [Option.some.injEq, Prod.mk.injEq] at hh
  obtain ⟨_, _, hn1, hs0⟩ := hh
  subst hn1; subst hs0
  exact loadSources_c20_names n 0 _ _ _ _ _ hsrc (by
    intro e he
    simp only [initState, List.mem_singleton] at he
    rw [he]; simp [noSourceName])

theorem mainLoop_single (junk : Nat → Nat → Nat) (x : Stream) (d : Loaded)
    (h : load initState.msrcs x = .ok d) :
    mainLoop junk [x] 0 initState = .ok ⟨d.msrcs, d.bytes, d.syms⟩ := by
  simp only [mainLoop, processFile, h, ne_eq, not_true_eq_false, if_false]

theorem mainLoop_second_error (junk : Nat → Nat → Nat) (x y : Stream) (d : Loaded) (e : Err)
    (h : load initState.msrcs x = .ok d) (hy : load d.msrcs y = .error e) :
    mainLoop junk [x, y] 0 initState = .error e := by
  simp only [mainLoop, processFile, h, ne_eq, not_true_eq_false, if_false, hy]

theorem load_c10Late_full (m : List kkpm_source) (hfull : m.length = msrcsmax)
    (hnames : ∀ e, e ∈ m → e.name.length ≠ 1) : load m c10Late = .error .TooManySources := by
  have hh : readHeader c10Late = some (magicKK64, 2, 1, c10Late.drop 12) := by decide
  have hr : readSourceRec (c10Late.drop 12) = some (some [97], c10Late.drop 22) := by decide
  have hnew : findSource m [97] = m.length := by
    apply findSource_of_not_mem
    intro hmem
    obtain ⟨e, he, hn⟩ := List.mem_map.1 hmem
    have := hnames e he
    rw [hn] at this
    exact this rfl
  unfold load
  rw [hh]
  simp only [ne_eq, not_true_eq_false, if_false]
  rw [if_neg (by omega)]
  have hs : loadSources 1 m (c10Late.drop 12) = .error .TooManySources := by
    show loadSources (0 + 1) _ _ = _
    unfold loadSources
    rw [hr]
    simp only []
    rw [if_pos hnew, if_pos (by rw [hnew, hfull])]
  rw [hs]

/-- C10 as stated fails: `c10Late` has the magic tag, counts within bounds
and every record, and its byte 0 names symbol 0, whose position 1 lies
between 0 and the byte count 2. Loaded first it ends in `InvalidField`;
loaded after `c20Big`, which fills the merged sources table, it ends in the
`too many sources` exit, and so does the run on the two files. -/
theorem C10_counterexample :
    readHeader c10Late = some (magicKK64, 2, 1, c10Late.drop 12) ∧
    readSourceNames 1 (c10Late.drop 12) = some ([[97]], c10Late.drop 22) ∧
    read_u32 (c10Late.drop 22) = some (1, c10Late.drop 26) ∧
    readSymbolRecs 1 (c10Late.drop 26) = some ([⟨some [65], 0, 0, 0, 1, 0, 0⟩], c10Late.drop 49) ∧
    readByteRecs 2 (c10Late.drop 49)
      = some ([⟨0, 0xFFFF, 0xFFFF, 0, 0⟩, ⟨0, 0xFFFF, 0xFFFF, 0, 0⟩], []) ∧
    load initState.msrcs c10Late = .error .InvalidField ∧
    (∃ st, mainLoop (fun _ _ => 0) [c20Big] 0 initState = .ok st ∧
      st.msrcs.length = msrcsmax ∧ load st.msrcs c10Late = .error .TooManySources) ∧
    mainLoop (fun _ _ => 0) [c20Big, c10Late] 0 initState = .error .TooManySources := by
  obtain ⟨m1, srcmap, hload, hl⟩ := load_c20Big
  have hnames := load_c20File_names 65535 (Nat.le_refl _) _ hload
  have hlate := load_c10Late_full m1 hl hnames
  exact ⟨by decide, by decide, by decide, by decide, by decide, by decide,
    ⟨_, mainLoop_single _ c20Big _ hload, hl, hlate⟩,
    mainLoop_second_error _ c20Big c10Late _ _ hload hlate⟩

theorem nodup_index_unique {α : Type} (l : List α) (h : l.Nodup) (g g' : Nat) (a : α)
    (hg : l[g]? = some a) (hg' : l[g']? = some a) : g' = g := by
  have h1 := (List.getElem?_eq_some_iff.1 hg).1
  have h2 := (List.getElem?_eq_some_iff.1 hg').1
  rw [List.nodup_iff_getElem?_ne_getElem?] at h
  rcases Nat.lt_trichotomy g g' with hlt | heq | hgt
  · exact absurd (hg.trans hg'.symm) (h g g' hlt h2)
  · exact heq.symm
  · exact absurd (hg'.trans hg.symm) (h g' g hgt h1)

/-- The entry of `srcmap` for local source number `fi` of a loaded document
is the index of the first entry of the merged sources table with that
source's name. -/
theorem load_srcmap_entry (msrcs : List kkpm_source) (f : Stream) (d : Loaded)
    (magic : List Byte) (nbytes nsrcs : Nat) (s0 : Stream) (names : List (List Byte))
    (r : Stream) (hload : load msrcs f = .ok d) (hcap : msrcs.length ≤ msrcsmax)
    (hhead : readHeader f = some (magic, nbytes, nsrcs, s0))
    (hnames : readSourceNames nsrcs s0 = some (names, r)) :
    names.length ≤ 0xFFFF ∧
    ∀ (fi : Nat) (nm : List Byte), names[fi]? = some nm →
      d.srcmap[fi]? = some (findSource d.msrcs nm) ∧ findSource d.msrcs nm < d.msrcs.length := by
  obtain ⟨magic1, nsrcs1, s01, s1, nsyms, s2, syms, s3, hh, _, hns, hsrc, _⟩ :=
    load_phases msrcs f d hload
  rw [hhead] at hh
  simp only [Option.some.injEq, Prod.mk.injEq] at hh
  obtain ⟨_, _, hn1, hs1⟩ := hh
  subst hn1; subst hs1
  obtain ⟨_, hlen, _, names1, hnames1, hnl, hmap, hlt⟩ := loadSources_spec _ _ _ _ _ _ hsrc
  rw [hnames] at hnames1
  simp only [Option.some.injEq, Prod.mk.injEq] at hnames1
  obtain ⟨hn, _⟩ := hnames1
  subst hn
  have hcap1 := hlen hcap
  refine ⟨by omega, ?_⟩
  intro fi nm hf
  have hl := hlt nm (List.getElem?_mem hf)
  refine ⟨?_, hl⟩
  rw [hmap, List.getElem?_map, hf]
  simp only [Option.map_some', Option.some.injEq]
  apply Nat.mod_eq_of_lt
  unfold msrcsmax at hcap1
  omega

/-- The loop over the symbols of the reference document, one symbol more:
the pass for that symbol runs with the symbol's index in the document. -/
theorem mergeSyms_snoc (junk : Nat → Nat) (srcmap : List Nat) (bytes : List kkpm_byte)
    (msyms : List kkpm_symbol) (sym : kkpm_symbol) : ∀ (pre : List kkpm_symbol) (i : Nat)
    (v0 v : MergeVars), mergeSyms junk srcmap bytes msyms pre i v0 = .ok v →
    mergeSyms junk srcmap bytes msyms (pre ++ [sym]) i v0
      = scanMsyms junk srcmap bytes sym (i + pre.length) msyms 0 v := by
  intro pre
  induction pre with
  | nil =>
    intro i v0 v h
    simp only [mergeSyms, Except.ok.injEq] at h
    subst h
    simp only [List.nil_append, mergeSyms, List.length_nil, Nat.add_zero]
    cases scanMsyms junk srcmap bytes sym i msyms 0 v0 <;> rfl
  | cons a pre ih =>
    intro i v0 v h
    unfold mergeSyms at h
    split at h
    · cases h
    · rename_i v1 hv1
      have := ih (i + 1) v1 v h
      rw [List.cons_append]
      unfold mergeSyms
      rw [hv1]
      simp only []
      rw [this]
      congr 1
      simp only [List.length_cons]
      omega

/-- C1 (as the code has it). Overlay of a matched symbol. The merged result
is the state of a run of the file loop, `D` is a document loaded against its
merged sources table, `names` are the names of the source descriptors of
`D`, `sym` is symbol `i` of `D` and `v` the merged trace once the symbols of
`D` before it are processed. When `msym` (index `j`) is the first merged
symbol with the name of `sym` and over the whole overlap both symbols own
their bytes, the loop of line 184 processes `sym` normally, and for every
offset `k` of the overlap: when the byte of `D` has a `source_file` f below
`D`'s source count, so that `names[f]` is the name of `D`'s local source f,
merged byte `msym.position + k` gets as `source_file` the one index of the
merged sources table whose entry has that name, and as `source_line` the
`source_line` of the byte of `D`, its other fields kept; when the byte of `D`
has no `source_file`, the merged byte is unchanged. Every merged byte
outside the overlap is unchanged. The loop is the one the file loop runs for
a reference file: its result over all symbols of `D` is the merged trace of
the next state. -/
theorem C1_overlay_matched (junk0 : Nat → Nat → Nat) (junk : Nat → Nat) (files : List Stream)
    (st : MainState) (f : Stream) (d : Loaded) (magic : List Byte) (nbytes nsrcs : Nat)
    (s0 : Stream) (names : List (List Byte)) (r : Stream) (i : Nat) (sym : kkpm_symbol)
    (v : MergeVars) (j : Nat) (msym : kkpm_symbol) (sn : List Byte)
    (hrun : mainLoop junk0 files 0 initState = .ok st)
    (hload : load st.msrcs f = .ok d)
    (hhead : readHeader f = some (magic, nbytes, nsrcs, s0))
    (hnames : readSourceNames nsrcs s0 = some (names, r))
    (hi : d.syms[i]? = some sym)
    (hbefore : mergeSyms junk d.srcmap d.bytes st.msyms (d.syms.take i) 0
      ⟨st.mbytes, d.nbytes⟩ = .ok v)
    (hs : sym.name = some sn) (hj : st.msyms[j]? = some msym) (hm : msym.name = some sn)
    (hfirst : ∀ j' m, j' < j → st.msyms[j']? = some m → ∃ n, m.name = some n ∧ n ≠ sn)
    (hown : ∀ k, k < min msym.size sym.size →
      (v.mbytes[msym.position + k]?).map kkpm_byte.symbol = some j ∧
      (d.bytes[sym.position + k]?).map kkpm_byte.symbol = some i) :
    (∃ w, mergeSyms junk d.srcmap d.bytes st.msyms (d.syms.take (i + 1)) 0
        ⟨st.mbytes, d.nbytes⟩ = .ok w ∧
      w.mbytes.length = v.mbytes.length ∧
      (∀ k b mb, k < min msym.size sym.size → d.bytes[sym.position + k]? = some b →
        v.mbytes[msym.position + k]? = some mb →
        (b.source_file = 0xFFFF → w.mbytes[msym.position + k]? = some mb) ∧
        (∀ nm, names[b.source_file]? = some nm →
          ∃ g, (d.msrcs.map kkpm_source.name)[g]? = some nm ∧
            (∀ g', (d.msrcs.map kkpm_source.name)[g']? = some nm → g' = g) ∧
            w.mbytes[msym.position + k]? = some
              { mb with source_file := g, source_line := b.source_line })) ∧
      (∀ p, (p < msym.position ∨ msym.position + min msym.size sym.size ≤ p) →
        w.mbytes[p]? = v.mbytes[p]?)) ∧
    (∀ (ifile : Nat) (u : MergeVars), ifile ≠ 0 →
      mergeSyms junk d.srcmap d.bytes st.msyms d.syms 0 ⟨st.mbytes, d.nbytes⟩ = .ok u →
      processFile junk ifile st f = .ok ⟨d.msrcs, u.mbytes, st.msyms⟩) := by
  obtain ⟨hml0, _⟩ := mainLoop_ranges junk0 files st hrun
  obtain ⟨hbl0, hnb, _⟩ := load_ranges _ _ _ hload
  obtain ⟨_, hcap0, hnd0⟩ := mainLoop_registry junk0 files 0 initState st hrun
  have hcap : st.msrcs.length ≤ msrcsmax := hcap0 (by simp [initState, msrcsmax])
  have hnd : (d.msrcs.map kkpm_source.name).Nodup :=
    (load_registry _ _ _ hload).2.2 (hnd0 (by simp [initState]))
  obtain ⟨hnl, hentry⟩ := load_srcmap_entry _ _ _ _ _ _ _ _ _ hload hcap hhead hnames
  have hvl : v.mbytes.length = st.mbytes.length :=
    (mergeSyms_inv (fun _ _ => True) junk d.srcmap d.bytes st.msyms _ 0 _ v
      (fun _ _ _ _ _ _ _ _ _ _ _ => trivial) (fun _ _ _ => trivial) hbefore).2
  obtain ⟨w, hw, hwl, hin, hout⟩ := scanMsyms_overlay junk d.srcmap d.bytes st.msyms sym i v j
    msym sn hs hj hm hfirst (by omega) (by omega) hown
  have hilt : i < d.syms.length := (List.getElem?_eq_some_iff.1 hi).1
  have hstep : mergeSyms junk d.srcmap d.bytes st.msyms (d.syms.take (i + 1)) 0
      ⟨st.mbytes, d.nbytes⟩ = scanMsyms junk d.srcmap d.bytes sym i st.msyms 0 v := by
    rw [List.take_succ, hi]
    have := mergeSyms_snoc junk d.srcmap d.bytes st.msyms sym (d.syms.take i) 0 _ v hbefore
    rw [List.length_take, Nat.min_eq_left (by omega), Nat.zero_add] at this
    exact this
  refine ⟨⟨w, by rw [hstep]; exact hw, hwl, ?_, hout⟩, ?_⟩
  swap
  · intro ifile u hne hu
    unfold processFile
    rw [hload]
    simp only []
    rw [if_pos hne, hu]
  intro k b mb hk hb hmb
  obtain ⟨h1, h2⟩ := hin k b mb hk hb hmb
  refine ⟨h2, ?_⟩
  intro nm hnm
  have hflt : b.source_file < names.length := (List.getElem?_eq_some_iff.1 hnm).1
  have hne : b.source_file ≠ 0xFFFF := by omega
  obtain ⟨he1, he2⟩ := hentry b.source_file nm hnm
  obtain ⟨e, hge, hen⟩ := findSource_name _ _ he2
  have hgn : (d.msrcs.map kkpm_source.name)[findSource d.msrcs nm]? = some nm := by
    rw [List.getElem?_map, hge]
    simp only [Option.map_some', hen]
  refine ⟨findSource d.msrcs nm, hgn, ?_, ?_⟩
  · intro g' hg'
    exact nodup_index_unique _ hnd _ _ _ hgn hg'
  · rw [h1 hne]
    unfold srcmapAt
    rw [he1]

set_option maxRecDepth 8000 in
/-- C1 at the overlay example: the primary has `A` at position 10, size 4;
the reference has the sources `a`, `b`, `c` and `A` as its symbol 1 at
position 0, size 4, with bytes 0-3 carrying `source_file = 2`,
`source_line = 7`. After `A` is processed, merged bytes 10-13 carry
`source_file = 3`, the index of `c` in the merged sources table, and
`source_line = 7`; the other merged bytes are as before, and that trace is
the one of the state after the two files. -/
theorem C1_overlay_matched_witness :
    mainLoop (fun _ _ => 0) [c1Primary] 0 initState = .ok c1State ∧
    load c1State.msrcs c1Ref = .ok c1Loaded ∧
    (c1Loaded.msrcs.map kkpm_source.name)[3]? = some [99] ∧
    mergeSyms (fun _ => 0) c1Loaded.srcmap c1Loaded.bytes c1State.msyms
      (c1Loaded.syms.take (1 + 1)) 0 ⟨c1State.mbytes, c1Loaded.nbytes⟩ = .ok ⟨exMerged, 4⟩ ∧
    exMerged[10]? = some ⟨0, 3, 7, 0, 0⟩ ∧ exMerged[11]? = some ⟨0, 3, 7, 0, 0⟩ ∧
    exMerged[12]? = some ⟨0, 3, 7, 0, 0⟩ ∧ exMerged[13]? = some ⟨0, 3, 7, 0, 0⟩ ∧
    (∀ p, p < 10 ∨ 14 ≤ p → exMerged[p]? = exMbytes[p]?) ∧
    mainLoop (fun _ _ => 0) [c1Primary, c1Ref] 0 initState
      = .ok ⟨c1Loaded.msrcs, exMerged, c1State.msyms⟩ := by
  have hrun : mainLoop (fun _ _ => 0) [c1Primary] 0 initState = .ok c1State := rfl
  have hload : load c1State.msrcs c1Ref = .ok c1Loaded := rfl
  have hname : (c1Loaded.msrcs.map kkpm_source.name)[3]? = some [99] := by decide
  obtain ⟨⟨w, h1, _, h3, h4⟩, h5⟩ := C1_overlay_matched (fun _ _ => 0) (fun _ => 0) [c1Primary]
    c1State c1Ref c1Loaded magicKK64 4 3 (c1Ref.drop 12) [[97], [98], [99]] (c1Ref.drop 42) 1
    exSym ⟨exMbytes, 4⟩ 0 exMsym [65] hrun hload rfl rfl rfl
    rfl rfl rfl rfl (by intro j' m h; omega) (by decide)
  have hw : w = ⟨exMerged, 4⟩ := by
    have e : mergeSyms (fun _ => 0) c1Loaded.srcmap c1Loaded.bytes c1State.msyms
        (c1Loaded.syms.take (1 + 1)) 0 ⟨c1State.mbytes, c1Loaded.nbytes⟩ = .ok ⟨exMerged, 4⟩ := rfl
    rw [e] at h1
    simp only [Except.ok.injEq] at h1
    exact h1.symm
  subst hw
  have hb : ∀ k, k < 4 → ∃ g, g = 3 ∧ exMerged[10 + k]? = some ⟨0, g, 7, 0, 0⟩ := by
    intro k hk
    obtain ⟨g, _, hu, hg⟩ := (h3 k ⟨0, 2, 7, 1, 0⟩ ⟨0, 0xFFFF, 0xFFFF, 0, 0⟩ (by
        simp only [exMsym, exSym, Nat.min_self]; exact hk) (by
        simp only [exSym, c1Loaded, Nat.zero_add]
        rw [List.getElem?_replicate, if_pos hk]) (by
        simp only [exMsym, exMbytes]
        rw [List.getElem?_append_right (by simp), List.getElem?_replicate]
        simp only [List.length_replicate, Nat.add_sub_cancel_left, if_pos hk])).2 [99] (by decide)
    exact ⟨g, (hu 3 hname).symm, hg⟩
  have hfin : mainLoop (fun _ _ => 0) [c1Primary, c1Ref] 0 initState
      = .ok ⟨c1Loaded.msrcs, exMerged, c1State.msyms⟩ := by
    have h2 : mainLoop (fun _ _ => 0) [c1Primary, c1Ref] 0 initState
        = mainLoop (fun _ _ => 0) [c1Ref] 1 c1State := by
      have := mainLoop_append (fun _ _ => 0) [c1Primary] [c1Ref] 0 initState
      simp only [List.singleton_append, hrun, List.length_singleton, Nat.zero_add] at this
      exact this
    rw [h2]
    unfold mainLoop
    rw [h5 1 ⟨exMerged, 4⟩ (by omega) h1]
    rfl
  refine ⟨hrun, hload, hname, h1, ?_, ?_, ?_, ?_, fun p hp => h4 p hp, hfin⟩
  · obtain ⟨g, hg, h⟩ := hb 0 (by omega); subst hg; exact h
  · obtain ⟨g, hg, h⟩ := hb 1 (by omega); subst hg; exact h
  · obtain ⟨g, hg, h⟩ := hb 2 (by omega); subst hg; exact h
  · obtain ⟨g, hg, h⟩ := hb 3 (by omega); subst hg; exact h

/-- C1 as stated fails: `c1BadRef` declares no source, so it has no local
source 2, and its byte carries `source_file = 2`; it loads, its symbol `A`
matches the primary's `A` with both owning the overlap, and merged byte 0
gets as `source_file` whatever entry 2 of `srcmap` holds, an entry the
document never wrote: 12345 in one run and 7 in another, neither an index
of the merged sources table, which has the one entry `<no source>`. -/
theorem C1_counterexample :
    load initState.msrcs c1BadRef
      = .ok ⟨[⟨noSourceName, 0, 0⟩], [], 1, [c4Sym], [⟨0, 2, 7, 0, 0⟩], []⟩ ∧
    readSourceNames 0 (c1BadRef.drop 12) = some ([], c1BadRef.drop 12) ∧
    mainLoop (fun _ _ => 12345) [c1BadPrimary, c1BadRef] 0 initState
      = .ok ⟨[⟨noSourceName, 0, 0⟩], [⟨0, 12345, 7, 0, 0⟩], [c4Sym]⟩ ∧
    mainLoop (fun _ _ => 7) [c1BadPrimary, c1BadRef] 0 initState
      = .ok ⟨[⟨noSourceName, 0, 0⟩], [⟨0, 7, 7, 0, 0⟩], [c4Sym]⟩ := by
  refine ⟨by decide, by decide, by decide, by decide⟩

end Kkpmerge
